import Mathlib

/-!
# button-stl `vector` (src/button_vector.hpp)

A shallow embedding of the growable array of `button_vector.hpp`.

* The storage block `[start, end_of_storage)` owned by a vector is a list of slots; a slot is
  `none` while it is allocated-but-uninitialised and `some a` while it holds a constructed
  object `a`.  Positions (`iterator`) are offsets from `start`, so `begin()` is `0`,
  `end()` is `finish` and `capacity()` is the number of slots.
* Copying an element (copy construction or assignment of `T`) may throw.  The number of element
  copies that still succeed is carried as `left : Option Nat`; `none` is an element type whose
  copies never throw, `some k` lets `k` copies succeed and makes the next one throw.
* A call ends normally (`ok`), by a propagating exception (`thrown`), or by behaviour the
  language leaves undefined (`undefined`: reading or assigning a raw slot, constructing over a
  live object, destroying a raw slot, leaving the block).
* Sizes are natural numbers.  The count `n` of `insert(pos, n, x)` is an argument, any
  `size_type` value (the `int` and `long` overloads cast theirs), so the `size_type` sum
  `old_size + max(old_size, n)` of line 299 is taken modulo `2^64`.  The other sums are over
  numbers of elements that exist in memory (`2 * old_size`, the length of a source range) and
  wrap only for a block of at least `2^63` elements; they are not reduced.  `allocate` always
  succeeds.
* The member `swap` (lines 104-108) and the free `swap` that calls it (lines 214-217) are not
  embedded: line 106 reads `std::::swap(finish, x.finish);`, which is ill-formed.
-/

namespace ButtonVector

/-- How a call ends. -/
inductive Outcome (α : Type) where
  | ok (a : α)
  | thrown
  | undefined
  deriving DecidableEq, Repr

/-- A storage block together with the number of element copies that still succeed. -/
structure Raw (T : Type) where
  mem : List (Option T)
  left : Option Nat
  deriving DecidableEq, Repr

/-- One element copy is attempted: `none` when it throws, else the copies left afterwards. -/
def spend : Option Nat → Option (Option Nat)
  | none => some none
  | some 0 => none
  | some (k + 1) => some (some k)

/-- The object held by slot `i` of a block, `none` when the slot is raw or outside the block. -/
def slot {T : Type} (m : List (Option T)) (i : Nat) : Option T :=
  match m[i]? with
  | some (some a) => some a
  | _ => none

/-- Where an input range lives: in the block being written (`self`) or in another block. -/
inductive Src (T : Type) where
  | self
  | other (m : List (Option T))

/-- Dereference position `i` of an input range (`*first`). -/
def Src.read {T : Type} : Src T → List (Option T) → Nat → Option T
  | .self, m, i => slot m i
  | .other src, _, i => slot src i

/-- Modelled from the spec: `data_allocator::allocate(n)` of button_alloc.hpp (§6 Allocate):
raw storage for `n` elements. -/
def allocate {T : Type} (n : Nat) : List (Option T) := List.replicate n none

/-- Modelled from the spec: `construct(p, x)` of button_construct.hpp (§6 ConstructAt):
placement-initialises the raw slot `p` from `x`; when the copy throws no object is constructed. -/
def construct {T : Type} (p : Nat) (x : T) (s : Raw T) : Outcome Unit × Raw T :=
  match s.mem[p]? with
  | some none =>
    match spend s.left with
    | some l => (.ok (), ⟨s.mem.set p (some x), l⟩)
    | none => (.thrown, s)
  | _ => (.undefined, s)

/-- The element assignment `*p = x` on a constructed slot; when it throws the slot keeps its
object. -/
def assign_at {T : Type} (p : Nat) (x : T) (s : Raw T) : Outcome Unit × Raw T :=
  match s.mem[p]? with
  | some (some _) =>
    match spend s.left with
    | some l => (.ok (), ⟨s.mem.set p (some x), l⟩)
    | none => (.thrown, s)
  | _ => (.undefined, s)

/-- Modelled from the spec: `destroy(p)` of button_construct.hpp (§6 DestroyAt): runs the
destructor of the object in slot `p`, never fails; destroying a raw slot is undefined. -/
def destroy {T : Type} (p : Nat) (s : Raw T) : Outcome Unit × Raw T :=
  match s.mem[p]? with
  | some (some _) => (.ok (), ⟨s.mem.set p none, s.left⟩)
  | _ => (.undefined, s)

/-- The loop of `destroy(first, last)`: `n` slots from `first` upward. -/
def destroy_loop {T : Type} : Nat → Nat → Raw T → Outcome Unit × Raw T
  | 0, _, s => (.ok (), s)
  | n + 1, first, s =>
    match destroy first s with
    | (.ok _, s1) => destroy_loop n (first + 1) s1
    | (.thrown, s1) => (.thrown, s1)
    | (.undefined, s1) => (.undefined, s1)

/-- Modelled from the spec: `destroy(first, last)` of button_construct.hpp (§6 DestroyRange):
`for (; first < last; ++first) destroy(&*first);`. -/
def destroy_range {T : Type} (first last : Nat) (s : Raw T) : Outcome Unit × Raw T :=
  destroy_loop (last - first) first s

/-- The construction loop of `uninitialized_copy`:
`for (; first != last; ++first, ++cur) construct(&*cur, *first);`, `n` steps; returns `cur`,
also when it stops early. -/
def uninitialized_copy_loop {T : Type} (src : Src T) :
    Nat → Nat → Nat → Raw T → Outcome Unit × Nat × Raw T
  | 0, _, cur, s => (.ok (), cur, s)
  | n + 1, first, cur, s =>
    match src.read s.mem first with
    | none => (.undefined, cur, s)
    | some a =>
      match construct cur a s with
      | (.ok _, s1) => uninitialized_copy_loop src n (first + 1) (cur + 1) s1
      | (.thrown, s1) => (.thrown, cur, s1)
      | (.undefined, s1) => (.undefined, cur, s1)

/-- Modelled from the spec: `uninitialized_copy(first, last, result)`, a standard algorithm not
under src/ (§4.1: construct copies into the new buffer, destroy what was built on failure):
copy-constructs `[first, last)` into the raw slots from `result` on and returns the end of the
constructed range; when a construction throws, the objects it constructed are destroyed
(`destroy(result, cur)`) and the exception is rethrown. -/
def uninitialized_copy {T : Type} (src : Src T) (first last result : Nat) (s : Raw T) :
    Outcome Nat × Raw T :=
  if last < first then (.undefined, s)
  else
    match uninitialized_copy_loop src (last - first) first result s with
    | (.ok _, cur, s1) => (.ok cur, s1)
    | (.thrown, cur, s1) =>
      match destroy_range result cur s1 with
      | (.ok _, s2) => (.thrown, s2)
      | (_, s2) => (.undefined, s2)
    | (.undefined, _, s1) => (.undefined, s1)

/-- The construction loop of `uninitialized_fill_n`:
`for (; n > 0; --n, ++cur) construct(&*cur, x);`. -/
def uninitialized_fill_n_loop {T : Type} (x : T) :
    Nat → Nat → Raw T → Outcome Unit × Nat × Raw T
  | 0, cur, s => (.ok (), cur, s)
  | n + 1, cur, s =>
    match construct cur x s with
    | (.ok _, s1) => uninitialized_fill_n_loop x n (cur + 1) s1
    | (.thrown, s1) => (.thrown, cur, s1)
    | (.undefined, s1) => (.undefined, cur, s1)

/-- Modelled from the spec: `uninitialized_fill_n(first, n, x)`, a standard algorithm not under
src/ (§4.2: uninitialized slots absorb the constructed overflow):
copy-constructs `n` copies of `x` into the raw slots from `first` on and returns `first + n`;
when a construction throws, the objects it constructed are destroyed and the exception is
rethrown. -/
def uninitialized_fill_n {T : Type} (first n : Nat) (x : T) (s : Raw T) :
    Outcome Nat × Raw T :=
  match uninitialized_fill_n_loop x n first s with
  | (.ok _, cur, s1) => (.ok cur, s1)
  | (.thrown, cur, s1) =>
    match destroy_range first cur s1 with
    | (.ok _, s2) => (.thrown, s2)
    | (_, s2) => (.undefined, s2)
  | (.undefined, _, s1) => (.undefined, s1)

/-- The loop of `copy`: `for (; first != last; ++result, ++first) *result = *first;`. -/
def copy_loop {T : Type} (src : Src T) : Nat → Nat → Nat → Raw T → Outcome Nat × Raw T
  | 0, _, result, s => (.ok result, s)
  | n + 1, first, result, s =>
    match src.read s.mem first with
    | none => (.undefined, s)
    | some a =>
      match assign_at result a s with
      | (.ok _, s1) => copy_loop src n (first + 1) (result + 1) s1
      | (.thrown, s1) => (.thrown, s1)
      | (.undefined, s1) => (.undefined, s1)

/-- Modelled from the spec: `copy(first, last, result)`, a standard algorithm not under src/
(§4.2: copy the tail leftward; §4.3: overwrite by assignment): assigns the
elements of `[first, last)` to the constructed slots from `result` on, front to back, and
returns the end of the destination range. -/
def copy {T : Type} (src : Src T) (first last result : Nat) (s : Raw T) : Outcome Nat × Raw T :=
  if last < first then (.undefined, s) else copy_loop src (last - first) first result s

/-- The loop of `copy_backward`: `while (first != last) *--result = *--last;`. -/
def copy_backward_loop {T : Type} : Nat → Nat → Nat → Raw T → Outcome Nat × Raw T
  | 0, _, result, s => (.ok result, s)
  | n + 1, last, result, s =>
    if last = 0 ∨ result = 0 then (.undefined, s)
    else
      match slot s.mem (last - 1) with
      | none => (.undefined, s)
      | some a =>
        match assign_at (result - 1) a s with
        | (.ok _, s1) => copy_backward_loop n (last - 1) (result - 1) s1
        | (.thrown, s1) => (.thrown, s1)
        | (.undefined, s1) => (.undefined, s1)

/-- Modelled from the spec: `copy_backward(first, last, result)`, a standard algorithm not under
src/ (§4.2: overlap-safe backward copy), both
ranges in the block written: assigns the elements of `[first, last)` to the constructed slots
ending at `result`, back to front, and returns the start of the destination range. -/
def copy_backward {T : Type} (first last result : Nat) (s : Raw T) : Outcome Nat × Raw T :=
  if last < first then (.undefined, s) else copy_backward_loop (last - first) last result s

/-- The loop of `fill`: `for (; first != last; ++first) *first = value;`. -/
def fill_loop {T : Type} (value : T) : Nat → Nat → Raw T → Outcome Unit × Raw T
  | 0, _, s => (.ok (), s)
  | n + 1, first, s =>
    match assign_at first value s with
    | (.ok _, s1) => fill_loop value n (first + 1) s1
    | (.thrown, s1) => (.thrown, s1)
    | (.undefined, s1) => (.undefined, s1)

/-- Modelled from the spec: `fill(first, last, value)`, a standard algorithm not under src/
(§4.2: the gap is filled): assigns `value`
to every constructed slot of `[first, last)`. -/
def fill {T : Type} (first last : Nat) (value : T) (s : Raw T) : Outcome Unit × Raw T :=
  if last < first then (.undefined, s) else fill_loop value (last - first) first s

/-- The class `vector<T, Alloc>`: the slots of `[start, end_of_storage)` and `finish - start`.
A null `start` (the default-constructed vector) is the block with no slots. -/
structure vector (T : Type) where
  mem : List (Option T)
  finish : Nat
  deriving DecidableEq, Repr

/-- What a member function leaves behind: how it ended, the vector, the copies left. -/
abbrev Ret (T α : Type) := Outcome α × vector T × Option Nat

namespace vector

variable {T : Type}

/-- `begin()`. -/
def begin (_v : vector T) : Nat := 0

/-- `size()`: `end() - begin()`. -/
def size (v : vector T) : Nat := v.finish - v.begin

/-- `capacity()`: `end_of_storage - begin()`. -/
def capacity (v : vector T) : Nat := v.mem.length - v.begin

/-- `empty()`: `begin() == end()`. -/
def empty (v : vector T) : Bool := v.begin == v.finish

/-- `operator[](n)`: `*(begin() + n)`, unchecked; `none` when the slot holds no object. -/
def elem (v : vector T) (n : Nat) : Option T := slot v.mem (v.begin + n)

/-- `vector()`: `start(0), finish(0), end_of_storage(0)`. -/
def new : vector T := ⟨[], 0⟩

/-- The live range `[start, finish)` as a list of slots. -/
def live (v : vector T) : List (Option T) := v.mem.take v.finish

/-- The vector holds exactly the elements `l`: `[start, finish)` are the constructed objects
`l` in order and `[finish, end_of_storage)` are raw slots (the buffer invariant of §3). -/
def holds (v : vector T) (l : List T) : Prop :=
  v.finish = l.length ∧ v.mem = l.map some ++ List.replicate (v.mem.length - l.length) none

instance [DecidableEq T] (v : vector T) (l : List T) : Decidable (v.holds l) := by
  unfold holds; infer_instance

/-- The handler of the growth paths:
`catch (...) { destroy(new_start, new_finish); deallocate(new_start, len); throw; }`.
The vector itself is left as it was. -/
def unwind (v : vector T) (new_finish : Nat) (s : Raw T) : Ret T Unit :=
  match destroy_range 0 new_finish s with
  | (.ok _, s1) => (.thrown, v, s1.left)
  | (_, s1) => (.undefined, v, s1.left)

/-- The end of a successful growth: `destroy(begin(), end()); deallocate(); start = new_start;
finish = new_finish; end_of_storage = new_start + len;`. -/
def adopt (v : vector T) (new_finish : Nat) (s : Raw T) : Ret T Unit :=
  match destroy_range v.begin v.finish ⟨v.mem, s.left⟩ with
  | (.ok _, _) => (.ok (), ⟨s.mem, new_finish⟩, s.left)
  | (_, old) => (.undefined, ⟨old.mem, v.finish⟩, old.left)

/-- `insert_aux(position, x)` (lines 243-274). -/
def insert_aux (v : vector T) (left : Option Nat) (position : Nat) (x : T) : Ret T Unit :=
  if v.finish ≠ v.mem.length then
    -- construct(finish, *(finish - 1)); ++finish;
    match slot v.mem (v.finish - 1) with
    | none => (.undefined, v, left)
    | some back =>
      if v.finish = 0 then (.undefined, v, left)
      else
        match construct v.finish back ⟨v.mem, left⟩ with
        | (.undefined, s) => (.undefined, ⟨s.mem, v.finish⟩, s.left)
        | (.thrown, s) => (.thrown, ⟨s.mem, v.finish⟩, s.left)
        | (.ok _, s) =>
          let finish := v.finish + 1
          -- T x_copy = x;
          match spend s.left with
          | none => (.thrown, ⟨s.mem, finish⟩, s.left)
          | some l =>
            let x_copy := x
            match copy_backward position (finish - 2) (finish - 1) ⟨s.mem, l⟩ with
            | (.undefined, s1) => (.undefined, ⟨s1.mem, finish⟩, s1.left)
            | (.thrown, s1) => (.thrown, ⟨s1.mem, finish⟩, s1.left)
            | (.ok _, s1) =>
              -- *position = x_copy;
              match assign_at position x_copy s1 with
              | (.undefined, s2) => (.undefined, ⟨s2.mem, finish⟩, s2.left)
              | (.thrown, s2) => (.thrown, ⟨s2.mem, finish⟩, s2.left)
              | (.ok _, s2) => (.ok (), ⟨s2.mem, finish⟩, s2.left)
  else
    let old_size := v.size
    let len := if old_size ≠ 0 then 2 * old_size else 1
    let new_start : List (Option T) := allocate len
    -- try { ... } with new_finish = new_start
    match uninitialized_copy (.other v.mem) v.begin position 0 ⟨new_start, left⟩ with
    | (.undefined, s1) => (.undefined, v, s1.left)
    | (.thrown, s1) => v.unwind 0 s1
    | (.ok new_finish, s1) =>
      match construct new_finish x s1 with
      | (.undefined, s2) => (.undefined, v, s2.left)
      | (.thrown, s2) => v.unwind new_finish s2
      | (.ok _, s2) =>
        let new_finish := new_finish + 1
        match uninitialized_copy (.other v.mem) position v.finish new_finish s2 with
        | (.undefined, s3) => (.undefined, v, s3.left)
        | (.thrown, s3) => v.unwind new_finish s3
        | (.ok new_finish, s3) => v.adopt new_finish s3

/-- `push_back(x)` (lines 96-103). -/
def push_back (v : vector T) (left : Option Nat) (x : T) : Ret T Unit :=
  if v.finish ≠ v.mem.length then
    match construct v.finish x ⟨v.mem, left⟩ with
    | (.undefined, s) => (.undefined, ⟨s.mem, v.finish⟩, s.left)
    | (.thrown, s) => (.thrown, ⟨s.mem, v.finish⟩, s.left)
    | (.ok _, s) => (.ok (), ⟨s.mem, v.finish + 1⟩, s.left)
  else
    v.insert_aux left v.finish x

/-- The calls `push_back(x1); ...; push_back(xn);` in order; a call that does not return ends
the run. -/
def push_back_all (v : vector T) (left : Option Nat) : List T → Ret T Unit
  | [] => (.ok (), v, left)
  | x :: xs =>
    match v.push_back left x with
    | (.ok _, v1, l1) => push_back_all v1 l1 xs
    | (.thrown, v1, l1) => (.thrown, v1, l1)
    | (.undefined, v1, l1) => (.undefined, v1, l1)

/-- `insert(position, x)` (lines 109-118); returns `begin() + n`. -/
def insert (v : vector T) (left : Option Nat) (position : Nat) (x : T) : Ret T Nat :=
  let n := position - v.begin
  if v.finish ≠ v.mem.length ∧ position = v.finish then
    match construct v.finish x ⟨v.mem, left⟩ with
    | (.undefined, s) => (.undefined, ⟨s.mem, v.finish⟩, s.left)
    | (.thrown, s) => (.thrown, ⟨s.mem, v.finish⟩, s.left)
    | (.ok _, s) => (.ok (v.begin + n), ⟨s.mem, v.finish + 1⟩, s.left)
  else
    match v.insert_aux left position x with
    | (.undefined, v1, l1) => (.undefined, v1, l1)
    | (.thrown, v1, l1) => (.thrown, v1, l1)
    | (.ok _, v1, l1) => (.ok (v1.begin + n), v1, l1)

/-- `insert(position, n, x)` (lines 276-319). -/
def insert_n (v : vector T) (left : Option Nat) (position n : Nat) (x : T) : Ret T Unit :=
  if n ≠ 0 then
    if v.mem.length - v.finish ≥ n then
      -- T x_copy = x;
      match spend left with
      | none => (.thrown, v, left)
      | some l0 =>
        let x_copy := x
        let elems_after := v.finish - position
        let old_finish := v.finish
        if elems_after > n then
          match uninitialized_copy .self (v.finish - n) v.finish v.finish ⟨v.mem, l0⟩ with
          | (.undefined, s1) => (.undefined, ⟨s1.mem, v.finish⟩, s1.left)
          | (.thrown, s1) => (.thrown, ⟨s1.mem, v.finish⟩, s1.left)
          | (.ok _, s1) =>
            let finish := v.finish + n
            match copy_backward position (old_finish - n) old_finish s1 with
            | (.undefined, s2) => (.undefined, ⟨s2.mem, finish⟩, s2.left)
            | (.thrown, s2) => (.thrown, ⟨s2.mem, finish⟩, s2.left)
            | (.ok _, s2) =>
              match fill position (position + n) x_copy s2 with
              | (.undefined, s3) => (.undefined, ⟨s3.mem, finish⟩, s3.left)
              | (.thrown, s3) => (.thrown, ⟨s3.mem, finish⟩, s3.left)
              | (.ok _, s3) => (.ok (), ⟨s3.mem, finish⟩, s3.left)
        else
          match uninitialized_fill_n v.finish (n - elems_after) x_copy ⟨v.mem, l0⟩ with
          | (.undefined, s1) => (.undefined, ⟨s1.mem, v.finish⟩, s1.left)
          | (.thrown, s1) => (.thrown, ⟨s1.mem, v.finish⟩, s1.left)
          | (.ok _, s1) =>
            let finish := v.finish + (n - elems_after)
            match uninitialized_copy .self position old_finish finish s1 with
            | (.undefined, s2) => (.undefined, ⟨s2.mem, finish⟩, s2.left)
            | (.thrown, s2) => (.thrown, ⟨s2.mem, finish⟩, s2.left)
            | (.ok _, s2) =>
              let finish := finish + elems_after
              match fill position old_finish x_copy s2 with
              | (.undefined, s3) => (.undefined, ⟨s3.mem, finish⟩, s3.left)
              | (.thrown, s3) => (.thrown, ⟨s3.mem, finish⟩, s3.left)
              | (.ok _, s3) => (.ok (), ⟨s3.mem, finish⟩, s3.left)
    else
      let old_size := v.size
      -- const size_type len = old_size + max(old_size, n);  in `size_t`
      let len := (old_size + max old_size n) % 2 ^ 64
      let new_start : List (Option T) := allocate len
      -- try { ... } with new_finish = new_start
      match uninitialized_copy (.other v.mem) v.begin position 0 ⟨new_start, left⟩ with
      | (.undefined, s1) => (.undefined, v, s1.left)
      | (.thrown, s1) => v.unwind 0 s1
      | (.ok new_finish, s1) =>
        match uninitialized_fill_n new_finish n x s1 with
        | (.undefined, s2) => (.undefined, v, s2.left)
        | (.thrown, s2) => v.unwind new_finish s2
        | (.ok new_finish, s2) =>
          match uninitialized_copy (.other v.mem) position v.finish new_finish s2 with
          | (.undefined, s3) => (.undefined, v, s3.left)
          | (.thrown, s3) => v.unwind new_finish s3
          | (.ok new_finish, s3) => v.adopt new_finish s3
  else (.ok (), v, left)

/-- `pop_back()` (lines 133-136): `--finish; destroy(finish);`. -/
def pop_back (v : vector T) (left : Option Nat) : Ret T Unit :=
  if v.finish = 0 then (.undefined, v, left)
  else
    let finish := v.finish - 1
    match destroy finish ⟨v.mem, left⟩ with
    | (.ok _, s) => (.ok (), ⟨s.mem, finish⟩, s.left)
    | (.thrown, s) => (.thrown, ⟨s.mem, finish⟩, s.left)
    | (.undefined, s) => (.undefined, ⟨s.mem, finish⟩, s.left)

/-- `erase(position)` (lines 137-143). -/
def erase (v : vector T) (left : Option Nat) (position : Nat) : Ret T Nat :=
  match (if position + 1 ≠ v.finish then copy .self (position + 1) v.finish position ⟨v.mem, left⟩
         else (.ok position, ⟨v.mem, left⟩)) with
  | (.undefined, s) => (.undefined, ⟨s.mem, v.finish⟩, s.left)
  | (.thrown, s) => (.thrown, ⟨s.mem, v.finish⟩, s.left)
  | (.ok _, s) =>
    if v.finish = 0 then (.undefined, ⟨s.mem, v.finish⟩, s.left)
    else
      let finish := v.finish - 1
      match destroy finish s with
      | (.ok _, s1) => (.ok position, ⟨s1.mem, finish⟩, s1.left)
      | (.thrown, s1) => (.thrown, ⟨s1.mem, finish⟩, s1.left)
      | (.undefined, s1) => (.undefined, ⟨s1.mem, finish⟩, s1.left)

/-- `erase(first, last)` (lines 144-149). -/
def erase_range (v : vector T) (left : Option Nat) (first last : Nat) : Ret T Nat :=
  match copy .self last v.finish first ⟨v.mem, left⟩ with
  | (.undefined, s) => (.undefined, ⟨s.mem, v.finish⟩, s.left)
  | (.thrown, s) => (.thrown, ⟨s.mem, v.finish⟩, s.left)
  | (.ok i, s) =>
    match destroy_range i v.finish s with
    | (.ok _, s1) => (.ok first, ⟨s1.mem, v.finish - (last - first)⟩, s1.left)
    | (.thrown, s1) => (.thrown, ⟨s1.mem, v.finish⟩, s1.left)
    | (.undefined, s1) => (.undefined, ⟨s1.mem, v.finish⟩, s1.left)

/-- `resize(new_size, x)` (lines 150-155). -/
def resize (v : vector T) (left : Option Nat) (new_size : Nat) (x : T) : Ret T Unit :=
  if new_size < v.size then
    match v.erase_range left (v.begin + new_size) v.finish with
    | (.ok _, v1, l1) => (.ok (), v1, l1)
    | (.thrown, v1, l1) => (.thrown, v1, l1)
    | (.undefined, v1, l1) => (.undefined, v1, l1)
  else
    v.insert_n left v.finish (new_size - v.size) x

/-- `resize(new_size)` (line 156): `resize(new_size, T())`, with `default` for `T()`. -/
def resize_default [Inhabited T] (v : vector T) (left : Option Nat) (new_size : Nat) :
    Ret T Unit :=
  v.resize left new_size default

/-- `clear()` (line 157): `erase(begin(), end())`. -/
def clear (v : vector T) (left : Option Nat) : Ret T Unit :=
  match v.erase_range left v.begin v.finish with
  | (.ok _, v1, l1) => (.ok (), v1, l1)
  | (.thrown, v1, l1) => (.thrown, v1, l1)
  | (.undefined, v1, l1) => (.undefined, v1, l1)

/-- `allocate_and_fill(n, x)` (lines 160-164): the new block. -/
def allocate_and_fill (n : Nat) (x : T) (left : Option Nat) :
    Outcome (List (Option T)) × Option Nat :=
  match uninitialized_fill_n 0 n x ⟨allocate n, left⟩ with
  | (.ok _, s) => (.ok s.mem, s.left)
  | (.thrown, s) => (.thrown, s.left)
  | (.undefined, s) => (.undefined, s.left)

/-- `allocate_and_copy(n, first, last)` (lines 166-172): the new block. -/
def allocate_and_copy (n : Nat) (src : List (Option T)) (first last : Nat) (left : Option Nat) :
    Outcome (List (Option T)) × Option Nat :=
  match uninitialized_copy (.other src) first last 0 ⟨allocate n, left⟩ with
  | (.ok _, s) => (.ok s.mem, s.left)
  | (.thrown, s) => (.thrown, s.left)
  | (.undefined, s) => (.undefined, s.left)

/-- `fill_initialize(n, value)` (lines 32-36), the body of `vector(n, value)`: the vector
constructed. -/
def fill_initialize (n : Nat) (value : T) (left : Option Nat) :
    Outcome (vector T) × Option Nat :=
  match allocate_and_fill n value left with
  | (.ok start, l1) => (.ok ⟨start, 0 + n⟩, l1)
  | (.thrown, l1) => (.thrown, l1)
  | (.undefined, l1) => (.undefined, l1)

/-- `vector(const vector& x)` (lines 63-67): the vector constructed. -/
def copy_construct (x : vector T) (left : Option Nat) : Outcome (vector T) × Option Nat :=
  match allocate_and_copy (x.finish - x.begin) x.mem x.begin x.finish left with
  | (.ok start, l1) => (.ok ⟨start, 0 + (x.finish - x.begin)⟩, l1)
  | (.thrown, l1) => (.thrown, l1)
  | (.undefined, l1) => (.undefined, l1)

/-- `reserve(n)` (lines 81-91). -/
def reserve (v : vector T) (left : Option Nat) (n : Nat) : Ret T Unit :=
  if v.capacity < n then
    let old_size := v.size
    match allocate_and_copy n v.mem v.begin v.finish left with
    | (.undefined, l1) => (.undefined, v, l1)
    | (.thrown, l1) => (.thrown, v, l1)
    | (.ok tmp, l1) =>
      match destroy_range v.begin v.finish ⟨v.mem, l1⟩ with
      | (.ok _, _) => (.ok (), ⟨tmp, 0 + old_size⟩, l1)
      | (_, old) => (.undefined, ⟨old.mem, v.finish⟩, old.left)
  else (.ok (), v, left)

/-- The body of `operator=(x)` for `&x != this` (lines 222-238). -/
def assign_from (v x : vector T) (left : Option Nat) : Ret T Unit :=
  if x.size > v.capacity then
    match allocate_and_copy (x.finish - x.begin) x.mem x.begin x.finish left with
    | (.undefined, l1) => (.undefined, v, l1)
    | (.thrown, l1) => (.thrown, v, l1)
    | (.ok tmp, l1) =>
      match destroy_range v.begin v.finish ⟨v.mem, l1⟩ with
      | (.ok _, _) => (.ok (), ⟨tmp, 0 + x.size⟩, l1)
      | (_, old) => (.undefined, ⟨old.mem, v.finish⟩, old.left)
  else if v.size ≥ x.size then
    match copy (.other x.mem) x.begin x.finish v.begin ⟨v.mem, left⟩ with
    | (.undefined, s) => (.undefined, ⟨s.mem, v.finish⟩, s.left)
    | (.thrown, s) => (.thrown, ⟨s.mem, v.finish⟩, s.left)
    | (.ok i, s) =>
      match destroy_range i v.finish s with
      | (.ok _, s1) => (.ok (), ⟨s1.mem, v.begin + x.size⟩, s1.left)
      | (_, s1) => (.undefined, ⟨s1.mem, v.finish⟩, s1.left)
  else
    match copy (.other x.mem) x.begin (x.begin + v.size) v.begin ⟨v.mem, left⟩ with
    | (.undefined, s) => (.undefined, ⟨s.mem, v.finish⟩, s.left)
    | (.thrown, s) => (.thrown, ⟨s.mem, v.finish⟩, s.left)
    | (.ok _, s) =>
      match uninitialized_copy (.other x.mem) (x.begin + v.size) x.finish v.finish s with
      | (.undefined, s1) => (.undefined, ⟨s1.mem, v.finish⟩, s1.left)
      | (.thrown, s1) => (.thrown, ⟨s1.mem, v.finish⟩, s1.left)
      | (.ok _, s1) => (.ok (), ⟨s1.mem, v.begin + x.size⟩, s1.left)

/-- `range_insert(pos, first, last, input_iterator_tag)` (lines 321-329); the single-pass
source is the list of the values it yields. -/
def range_insert_input (v : vector T) (left : Option Nat) (pos : Nat) : List T → Ret T Unit
  | [] => (.ok (), v, left)
  | a :: rest =>
    match v.insert left pos a with
    | (.ok pos1, v1, l1) => range_insert_input v1 l1 (pos1 + 1) rest
    | (.thrown, v1, l1) => (.thrown, v1, l1)
    | (.undefined, v1, l1) => (.undefined, v1, l1)

/-- `range_insert(position, first, last, forward_iterator_tag)` (lines 331-380); the multi-pass
source is the range `[first, last)` of the block `src`. -/
def range_insert_forward (v : vector T) (left : Option Nat) (position : Nat)
    (src : List (Option T)) (first last : Nat) : Ret T Unit :=
  if first ≠ last then
    let n := last - first
    if v.mem.length - v.finish ≥ n then
      let elems_after := v.finish - position
      let old_finish := v.finish
      if elems_after > n then
        match uninitialized_copy .self (v.finish - n) v.finish v.finish ⟨v.mem, left⟩ with
        | (.undefined, s1) => (.undefined, ⟨s1.mem, v.finish⟩, s1.left)
        | (.thrown, s1) => (.thrown, ⟨s1.mem, v.finish⟩, s1.left)
        | (.ok _, s1) =>
          let finish := v.finish + n
          match copy_backward position (old_finish - n) old_finish s1 with
          | (.undefined, s2) => (.undefined, ⟨s2.mem, finish⟩, s2.left)
          | (.thrown, s2) => (.thrown, ⟨s2.mem, finish⟩, s2.left)
          | (.ok _, s2) =>
            match copy (.other src) first last position s2 with
            | (.undefined, s3) => (.undefined, ⟨s3.mem, finish⟩, s3.left)
            | (.thrown, s3) => (.thrown, ⟨s3.mem, finish⟩, s3.left)
            | (.ok _, s3) => (.ok (), ⟨s3.mem, finish⟩, s3.left)
      else
        let mid := first + elems_after
        match uninitialized_copy (.other src) mid last v.finish ⟨v.mem, left⟩ with
        | (.undefined, s1) => (.undefined, ⟨s1.mem, v.finish⟩, s1.left)
        | (.thrown, s1) => (.thrown, ⟨s1.mem, v.finish⟩, s1.left)
        | (.ok _, s1) =>
          let finish := v.finish + (n - elems_after)
          match uninitialized_copy .self position old_finish finish s1 with
          | (.undefined, s2) => (.undefined, ⟨s2.mem, finish⟩, s2.left)
          | (.thrown, s2) => (.thrown, ⟨s2.mem, finish⟩, s2.left)
          | (.ok _, s2) =>
            let finish := finish + elems_after
            match copy (.other src) first mid position s2 with
            | (.undefined, s3) => (.undefined, ⟨s3.mem, finish⟩, s3.left)
            | (.thrown, s3) => (.thrown, ⟨s3.mem, finish⟩, s3.left)
            | (.ok _, s3) => (.ok (), ⟨s3.mem, finish⟩, s3.left)
    else
      let old_size := v.size
      let len := old_size + max old_size n
      let new_start : List (Option T) := allocate len
      -- try { ... } with new_finish = new_start
      match uninitialized_copy (.other v.mem) v.begin position 0 ⟨new_start, left⟩ with
      | (.undefined, s1) => (.undefined, v, s1.left)
      | (.thrown, s1) => v.unwind 0 s1
      | (.ok new_finish, s1) =>
        match uninitialized_copy (.other src) first last new_finish s1 with
        | (.undefined, s2) => (.undefined, v, s2.left)
        | (.thrown, s2) => v.unwind new_finish s2
        | (.ok new_finish, s2) =>
          match uninitialized_copy (.other v.mem) position v.finish new_finish s2 with
          | (.undefined, s3) => (.undefined, v, s3.left)
          | (.thrown, s3) => v.unwind new_finish s3
          | (.ok new_finish, s3) => v.adopt new_finish s3
  else (.ok (), v, left)

/-- `range_initialize(first, last, input_iterator_tag)` (lines 174-179), the body of the range
constructor for a single-pass source: `push_back` of every value, from `vector()`. -/
def range_initialize_input (left : Option Nat) (r : List T) : Ret T Unit :=
  (new : vector T).push_back_all left r

/-- `range_initialize(first, last, forward_iterator_tag)` (lines 183-191), the body of the range
constructor for a multi-pass source `[first, last)` of the block `src`. -/
def range_initialize_forward (src : List (Option T)) (first last : Nat) (left : Option Nat) :
    Outcome (vector T) × Option Nat :=
  let n := last - first
  match allocate_and_copy n src first last left with
  | (.ok start, l1) => (.ok ⟨start, 0 + n⟩, l1)
  | (.thrown, l1) => (.thrown, l1)
  | (.undefined, l1) => (.undefined, l1)

end vector

/-- The vector objects of a program, by address. -/
abbrev Store (T : Type) := Nat → vector T

/-- `operator=(x)` (lines 219-241): `me` is the address of `*this` and `x` the address of the
argument. -/
def operator_assign {T : Type} (st : Store T) (left : Option Nat) (me x : Nat) :
    Outcome Unit × Store T × Option Nat :=
  if x ≠ me then
    match (st me).assign_from (st x) left with
    | (o, v1, l1) => (o, Function.update st me v1, l1)
  else (.ok (), st, left)

/-- Modelled from the spec: `equal(first1, last1, first2)`, a standard algorithm not under src/
(§6: element-wise equal): whether the
elements of `[first1, last1)` equal, one by one, those from `first2` on; `none` when a slot read
holds no object. -/
def equal {T : Type} [DecidableEq T] (m1 : List (Option T)) (m2 : List (Option T)) :
    Nat → Nat → Nat → Option Bool
  | 0, _, _ => some true
  | n + 1, first1, first2 =>
    match slot m1 first1, slot m2 first2 with
    | some a, some b => if a = b then equal m1 m2 n (first1 + 1) (first2 + 1) else some false
    | _, _ => none

/-- `operator==(x, y)` (lines 204-207). -/
def operator_eq {T : Type} [DecidableEq T] (x y : vector T) : Option Bool :=
  if x.size = y.size then equal x.mem y.mem (x.finish - x.begin) x.begin y.begin
  else some false

/-- Modelled from the spec: `lexicographical_compare(first1, last1, first2, last2)`, a standard
algorithm not under src/ (§6: lexicographic ordering comparison), over `<` of the element type
(`lt`), with `n1` and `n2` elements left in the two
ranges; `none` when a slot read holds no object. -/
def lexicographical_compare {T : Type} (lt : T → T → Bool) (m1 m2 : List (Option T)) :
    Nat → Nat → Nat → Nat → Option Bool
  | 0, n2, _, _ => some (decide (n2 ≠ 0))
  | _ + 1, 0, _, _ => some false
  | n1 + 1, n2 + 1, first1, first2 =>
    match slot m1 first1, slot m2 first2 with
    | some a, some b =>
      if lt a b then some true
      else if lt b a then some false
      else lexicographical_compare lt m1 m2 n1 n2 (first1 + 1) (first2 + 1)
    | _, _ => none

/-- `operator<(x, y)` (lines 209-212). -/
def operator_lt {T : Type} (lt : T → T → Bool) (x y : vector T) : Option Bool :=
  lexicographical_compare lt x.mem y.mem (x.finish - x.begin) (y.finish - y.begin) x.begin y.begin

/-- The copies left allow `n` more element copies. -/
def enough (left : Option Nat) (n : Nat) : Prop := ∀ j, left = some j → n ≤ j

/-- The copies left after `n` successful element copies. -/
def minus (left : Option Nat) (n : Nat) : Option Nat := left.map (fun j => j - n)

/-- The input range ending at `last` is not overwritten by writes at `cur` and above: it lies in
another block, or below `cur` in the block written. -/
def Src.clear {T : Type} (src : Src T) (last cur : Nat) : Prop :=
  match src with
  | .self => last ≤ cur
  | .other _ => True

/-- The input range starting at `first` is read before `copy` to `result` overwrites it: it
lies in another block, or `result` is not above `first` in the block written. -/
def Src.ahead {T : Type} (src : Src T) (first result : Nat) : Prop :=
  match src with
  | .self => result ≤ first
  | .other _ => True

/-- The buffer invariant of §3: `start <= finish <= limit` (`size() <= capacity()`), every slot
of `[start, finish)` holds a constructed object and every slot of `[finish, limit)` is raw. -/
def vector.valid {T : Type} (v : vector T) : Prop :=
  v.size ≤ v.capacity ∧ (v.mem.take v.finish).all Option.isSome = true ∧
    (v.mem.drop v.finish).all Option.isNone = true

instance {T : Type} (v : vector T) : Decidable v.valid := by
  unfold vector.valid; infer_instance

/-- A member function keeps the buffer invariant: the call returns when no element copy throws,
and whenever it returns the vector it leaves satisfies the invariant. -/
def keeps_valid {T α : Type} (run : Option Nat → Ret T α) : Prop :=
  (∃ r v1, run none = (.ok r, v1, none)) ∧
    ∀ left r v1 l1, run left = (.ok r, v1, l1) → v1.valid

/-- A constructor establishes the buffer invariant: it returns when no element copy throws, and
whenever it returns the vector constructed satisfies the invariant. -/
def constructs_valid {T : Type} (run : Option Nat → Outcome (vector T) × Option Nat) : Prop :=
  (∃ v, run none = (.ok v, none)) ∧ ∀ left v l1, run left = (.ok v, l1) → v.valid

/-- Two blocks have the same slots constructed and the same slots raw. -/
def same_shape {T : Type} (m' m : List (Option T)) : Prop :=
  m'.length = m.length ∧ ∀ i, slot m' i = none ↔ slot m i = none


/-! ## Slots -/

theorem slot_eq_some {T : Type} {m : List (Option T)} {i : Nat} {a : T} :
    slot m i = some a ↔ m[i]? = some (some a) := by
  unfold slot
  split
  · next h => simp [h]
  · next h =>
    constructor
    · intro h1; cases h1
    · intro h1; exact absurd h1 (h a)

theorem slot_lt {T : Type} {m : List (Option T)} {i : Nat} (h : slot m i ≠ none) :
    i < m.length := by
  by_contra hc
  apply h
  unfold slot
  rw [List.getElem?_eq_none (by omega)]

theorem slot_of_le {T : Type} {m : List (Option T)} {i : Nat} (h : m.length ≤ i) :
    slot m i = none := by
  by_contra hc
  have := slot_lt hc
  omega

theorem raw_of_slot {T : Type} {m : List (Option T)} {i : Nat} (hi : i < m.length)
    (h : slot m i = none) : m[i]? = some none := by
  rw [List.getElem?_eq_getElem hi]
  cases hx : m[i] with
  | none => rfl
  | some a =>
    have : slot m i = some a := slot_eq_some.2 (by rw [List.getElem?_eq_getElem hi, hx])
    rw [h] at this; cases this

theorem slot_set {T : Type} (m : List (Option T)) (q : Nat) (y : Option T) (i : Nat) :
    slot (m.set q y) i = if i = q ∧ q < m.length then y else slot m i := by
  unfold slot
  rw [List.getElem?_set]
  by_cases h : q = i
  · subst h
    by_cases hq : q < m.length
    · simp [hq]
      cases y <;> rfl
    · simp [hq]
      rw [List.getElem?_eq_none (by omega)]
  · have : ¬ (i = q ∧ q < m.length) := fun hh => h hh.1.symm
    simp [h, this]

theorem mem_ext {T : Type} {m m' : List (Option T)} (hl : m'.length = m.length)
    (hs : ∀ i, slot m' i = slot m i) : m' = m := by
  apply List.ext_getElem?
  intro i
  by_cases hi : i < m.length
  · cases hx : slot m i with
    | none =>
      rw [raw_of_slot hi hx, raw_of_slot (by omega) (by rw [hs, hx])]
    | some a =>
      rw [slot_eq_some.1 hx, slot_eq_some.1 (by rw [hs, hx])]
  · rw [List.getElem?_eq_none (by omega), List.getElem?_eq_none (by omega)]

/-! ## Element copies -/

theorem enough_none (n : Nat) : enough none n := by
  intro j h; cases h

theorem minus_none (n : Nat) : minus none n = none := rfl

theorem minus_zero (left : Option Nat) : minus left 0 = left := by
  cases left <;> simp [minus]

theorem minus_minus (left : Option Nat) (a b : Nat) : minus (minus left a) b = minus left (a + b) := by
  cases left <;> simp [minus, Nat.sub_sub]

theorem enough_mono {left : Option Nat} {a b : Nat} (h : enough left a) (hab : b ≤ a) :
    enough left b := fun j hj => Nat.le_trans hab (h j hj)

theorem enough_minus {left : Option Nat} {a b : Nat} (h : enough left (a + b)) :
    enough (minus left a) b := by
  intro j hj
  cases left with
  | none => cases hj
  | some k =>
    have := h k rfl
    simp [minus] at hj
    omega

theorem spend_enough {left : Option Nat} (h : enough left 1) : spend left = some (minus left 1) := by
  cases left with
  | none => rfl
  | some k =>
    have := h k rfl
    cases k with
    | zero => omega
    | succ k => simp [spend, minus]

theorem construct_ok {T : Type} (m : List (Option T)) (p : Nat) (x : T) (left : Option Nat)
    (hp : p < m.length) (hraw : slot m p = none) (hl : enough left 1) :
    construct p x ⟨m, left⟩ = (.ok (), ⟨m.set p (some x), minus left 1⟩) := by
  simp only [construct, raw_of_slot hp hraw, spend_enough hl]

theorem construct_thrown {T : Type} {m : List (Option T)} {p : Nat} (x : T)
    (hp : p < m.length) (hraw : slot m p = none) :
    construct p x ⟨m, some 0⟩ = (.thrown, ⟨m, some 0⟩) := by
  simp only [construct, raw_of_slot hp hraw, spend]

theorem assign_at_ok {T : Type} (m : List (Option T)) (p : Nat) (x : T) (left : Option Nat)
    (hlive : slot m p ≠ none) (hl : enough left 1) :
    assign_at p x ⟨m, left⟩ = (.ok (), ⟨m.set p (some x), minus left 1⟩) := by
  cases hs : slot m p with
  | none => exact absurd hs hlive
  | some b => simp only [assign_at, slot_eq_some.1 hs, spend_enough hl]

theorem destroy_ok {T : Type} {m : List (Option T)} {p : Nat} (left : Option Nat)
    (hlive : slot m p ≠ none) :
    destroy p ⟨m, left⟩ = (.ok (), ⟨m.set p none, left⟩) := by
  cases hs : slot m p with
  | none => exact absurd hs hlive
  | some b => simp only [destroy, slot_eq_some.1 hs]

theorem read_set {T : Type} {src : Src T} {last cur : Nat} (hc : src.clear last cur)
    (m : List (Option T)) {q j : Nat} (y : Option T) (hj : j < last) (hq : cur ≤ q) :
    src.read (m.set q y) j = src.read m j := by
  cases src with
  | self =>
    have : last ≤ cur := hc
    simp only [Src.read, slot_set]
    rw [if_neg (by omega)]
  | other s => rfl

theorem clear_mono {T : Type} {src : Src T} {last cur last' cur' : Nat}
    (hc : src.clear last cur) (h1 : last' ≤ last) (h2 : cur ≤ cur') : src.clear last' cur' := by
  cases src with
  | self =>
    have : last ≤ cur := hc
    exact (show last' ≤ cur' by omega)
  | other s => trivial

theorem destroy_loop_ok {T : Type} : ∀ (n first : Nat) (m : List (Option T)) (left : Option Nat),
    (∀ i, first ≤ i → i < first + n → slot m i ≠ none) →
    ∃ m', destroy_loop n first ⟨m, left⟩ = (.ok (), ⟨m', left⟩) ∧ m'.length = m.length ∧
      ∀ i, slot m' i = if first ≤ i ∧ i < first + n then none else slot m i := by
  intro n
  induction n with
  | zero =>
    intro first m left _
    refine ⟨m, rfl, rfl, fun i => ?_⟩
    rw [if_neg (by omega)]
  | succ n ih =>
    intro first m left hlive
    have h0 := hlive first (Nat.le_refl _) (by omega)
    have hlt := slot_lt h0
    obtain ⟨m', he, hl, hs⟩ := ih (first + 1) (m.set first none) left (by
      intro i h1 h2
      rw [slot_set, if_neg (by omega)]
      exact hlive i (by omega) (by omega))
    refine ⟨m', ?_, ?_, fun i => ?_⟩
    · simp only [destroy_loop, destroy_ok left h0, he]
    · rw [hl, List.length_set]
    · rw [hs i, slot_set]
      by_cases h1 : i = first
      · subst h1
        rw [if_neg (by omega), if_pos ⟨rfl, hlt⟩, if_pos (by omega)]
      · by_cases h2 : first + 1 ≤ i ∧ i < first + 1 + n
        · rw [if_pos h2, if_pos (by omega)]
        · rw [if_neg h2, if_neg (by omega), if_neg (by omega)]

theorem destroy_range_ok {T : Type} (first last : Nat) (m : List (Option T)) (left : Option Nat)
    (hlive : ∀ i, first ≤ i → i < last → slot m i ≠ none) :
    ∃ m', destroy_range first last ⟨m, left⟩ = (.ok (), ⟨m', left⟩) ∧ m'.length = m.length ∧
      ∀ i, slot m' i = if first ≤ i ∧ i < last then none else slot m i := by
  obtain ⟨m', he, hl, hs⟩ := destroy_loop_ok (last - first) first m left (by
    intro i h1 h2; exact hlive i h1 (by omega))
  refine ⟨m', he, hl, fun i => ?_⟩
  rw [hs i]
  by_cases h : first ≤ i ∧ i < last
  · rw [if_pos h, if_pos (by omega)]
  · rw [if_neg h, if_neg (by omega)]

/-! ## Construction into raw slots -/

theorem uninitialized_copy_loop_ok {T : Type} (src : Src T) :
    ∀ (n first cur : Nat) (m : List (Option T)) (left : Option Nat),
    cur + n ≤ m.length → (∀ i, cur ≤ i → i < cur + n → slot m i = none) →
    (∀ i, i < n → src.read m (first + i) ≠ none) → src.clear (first + n) cur → enough left n →
    ∃ m', uninitialized_copy_loop src n first cur ⟨m, left⟩ = (.ok (), cur + n, ⟨m', minus left n⟩) ∧
      m'.length = m.length ∧
      ∀ i, slot m' i = if cur ≤ i ∧ i < cur + n then src.read m (first + (i - cur)) else slot m i := by
  intro n
  induction n with
  | zero =>
    intro first cur m left _ _ _ _ _
    refine ⟨m, ?_, rfl, fun i => ?_⟩
    · simp only [uninitialized_copy_loop, minus_zero, Nat.add_zero]
    · rw [if_neg (by omega)]
  | succ n ih =>
    intro first cur m left hlen hraw hsrc hclear hen
    have h0 := hsrc 0 (by omega)
    rw [Nat.add_zero] at h0
    cases hr : src.read m first with
    | none => exact absurd hr h0
    | some a =>
      have hc : construct cur a ⟨m, left⟩ = (.ok (), ⟨m.set cur (some a), minus left 1⟩) :=
        construct_ok m cur a left (by omega) (hraw cur (Nat.le_refl _) (by omega)) (enough_mono hen (by omega))
      obtain ⟨m', he, hl, hs⟩ := ih (first + 1) (cur + 1) (m.set cur (some a)) (minus left 1)
        (by rw [List.length_set]; omega)
        (by
          intro i h1 h2
          rw [slot_set, if_neg (by omega)]
          exact hraw i (by omega) (by omega))
        (by
          intro i hi
          rw [read_set hclear m _ (by omega) (Nat.le_refl _)]
          have := hsrc (i + 1) (by omega)
          rwa [show first + (i + 1) = first + 1 + i by omega] at this)
        (clear_mono hclear (by omega) (by omega))
        (enough_minus (by rwa [Nat.add_comm] at hen))
      refine ⟨m', ?_, ?_, fun i => ?_⟩
      · simp only [uninitialized_copy_loop, hr, hc, he, minus_minus]
        rw [show cur + 1 + n = cur + (n + 1) by omega, Nat.add_comm 1 n]
      · rw [hl, List.length_set]
      · rw [hs i]
        by_cases h1 : i = cur
        · subst h1
          rw [if_neg (by omega), slot_set, if_pos ⟨rfl, by omega⟩, if_pos (by omega),
            Nat.sub_self, Nat.add_zero, hr]
        · by_cases h2 : cur + 1 ≤ i ∧ i < cur + 1 + n
          · rw [if_pos h2, if_pos (by omega), read_set hclear m _ (by omega) (Nat.le_refl _),
              show first + 1 + (i - (cur + 1)) = first + (i - cur) by omega]
          · rw [if_neg h2, if_neg (by omega), slot_set, if_neg (by omega)]

theorem uninitialized_copy_loop_thrown {T : Type} (src : Src T) :
    ∀ (n first cur : Nat) (m : List (Option T)) (j : Nat), j < n →
    cur + n ≤ m.length → (∀ i, cur ≤ i → i < cur + n → slot m i = none) →
    (∀ i, i < n → src.read m (first + i) ≠ none) → src.clear (first + n) cur →
    ∃ m', uninitialized_copy_loop src n first cur ⟨m, some j⟩ = (.thrown, cur + j, ⟨m', some 0⟩) ∧
      m'.length = m.length ∧
      ∀ i, slot m' i = if cur ≤ i ∧ i < cur + j then src.read m (first + (i - cur)) else slot m i := by
  intro n
  induction n with
  | zero => intro first cur m j hj; omega
  | succ n ih =>
    intro first cur m j hj hlen hraw hsrc hclear
    have h0 := hsrc 0 (by omega)
    rw [Nat.add_zero] at h0
    cases hr : src.read m first with
    | none => exact absurd hr h0
    | some a =>
      cases j with
      | zero =>
        refine ⟨m, ?_, rfl, fun i => ?_⟩
        · simp only [uninitialized_copy_loop, hr,
            construct_thrown a (show cur < m.length by omega) (hraw cur (Nat.le_refl _) (by omega)),
            Nat.add_zero]
        · rw [if_neg (by omega)]
      | succ j =>
        have hc : construct cur a ⟨m, some (j + 1)⟩ = (.ok (), ⟨m.set cur (some a), some j⟩) := by
          have := construct_ok m cur a (some (j + 1)) (show cur < m.length by omega)
            (hraw cur (Nat.le_refl _) (by omega)) (by intro k hk; cases hk; omega)
          simpa [minus] using this
        obtain ⟨m', he, hl, hs⟩ := ih (first + 1) (cur + 1) (m.set cur (some a)) j (by omega)
          (by rw [List.length_set]; omega)
          (by
            intro i h1 h2
            rw [slot_set, if_neg (by omega)]
            exact hraw i (by omega) (by omega))
          (by
            intro i hi
            rw [read_set hclear m _ (by omega) (Nat.le_refl _)]
            have := hsrc (i + 1) (by omega)
            rwa [show first + (i + 1) = first + 1 + i by omega] at this)
          (clear_mono hclear (by omega) (by omega))
        refine ⟨m', ?_, ?_, fun i => ?_⟩
        · simp only [uninitialized_copy_loop, hr, hc, he]
          rw [show cur + 1 + j = cur + (j + 1) by omega]
        · rw [hl, List.length_set]
        · rw [hs i]
          by_cases h1 : i = cur
          · subst h1
            rw [if_neg (by omega), slot_set, if_pos ⟨rfl, by omega⟩, if_pos (by omega),
              Nat.sub_self, Nat.add_zero, hr]
          · by_cases h2 : cur + 1 ≤ i ∧ i < cur + 1 + j
            · rw [if_pos h2, if_pos (by omega), read_set hclear m _ (by omega) (Nat.le_refl _),
                show first + 1 + (i - (cur + 1)) = first + (i - cur) by omega]
            · rw [if_neg h2, if_neg (by omega), slot_set, if_neg (by omega)]

/-- `uninitialized_copy` with enough copies left constructs the whole range. -/
theorem uninitialized_copy_ok {T : Type} (src : Src T) (first last result : Nat)
    (m : List (Option T)) (left : Option Nat) (hfl : first ≤ last)
    (hlen : result + (last - first) ≤ m.length)
    (hraw : ∀ i, result ≤ i → i < result + (last - first) → slot m i = none)
    (hsrc : ∀ i, first ≤ i → i < last → src.read m i ≠ none)
    (hclear : src.clear last result) (hen : enough left (last - first)) :
    ∃ m', uninitialized_copy src first last result ⟨m, left⟩ =
        (.ok (result + (last - first)), ⟨m', minus left (last - first)⟩) ∧
      m'.length = m.length ∧
      ∀ i, slot m' i = if result ≤ i ∧ i < result + (last - first)
        then src.read m (first + (i - result)) else slot m i := by
  obtain ⟨m', he, hl, hs⟩ := uninitialized_copy_loop_ok src (last - first) first result m left
    hlen hraw (fun i hi => hsrc _ (by omega) (by omega))
    (by rwa [show first + (last - first) = last by omega]) hen
  refine ⟨m', ?_, hl, hs⟩
  simp only [uninitialized_copy, if_neg (show ¬ last < first by omega), he]

/-- `uninitialized_copy` whose `(j+1)`-th construction throws leaves the block as it was. -/
theorem uninitialized_copy_thrown {T : Type} (src : Src T) (first last result : Nat)
    (m : List (Option T)) (j : Nat) (hj : j < last - first)
    (hlen : result + (last - first) ≤ m.length)
    (hraw : ∀ i, result ≤ i → i < result + (last - first) → slot m i = none)
    (hsrc : ∀ i, first ≤ i → i < last → src.read m i ≠ none)
    (hclear : src.clear last result) :
    uninitialized_copy src first last result ⟨m, some j⟩ = (.thrown, ⟨m, some 0⟩) := by
  obtain ⟨m', he, hl, hs⟩ := uninitialized_copy_loop_thrown src (last - first) first result m j
    hj hlen hraw (fun i hi => hsrc _ (by omega) (by omega))
    (by rwa [show first + (last - first) = last by omega])
  obtain ⟨m2, he2, hl2, hs2⟩ := destroy_range_ok result (result + j) m' (some 0) (by
    intro i h1 h2
    rw [hs i, if_pos ⟨h1, h2⟩]
    exact hsrc _ (by omega) (by omega))
  have hm : m2 = m := by
    apply mem_ext (by rw [hl2, hl])
    intro i
    rw [hs2 i, hs i]
    by_cases h : result ≤ i ∧ i < result + j
    · rw [if_pos h, hraw i h.1 (by omega)]
    · rw [if_neg h, if_neg h]
  simp only [uninitialized_copy, if_neg (show ¬ last < first by omega), he, he2, hm]

theorem uninitialized_fill_n_loop_ok {T : Type} (x : T) :
    ∀ (n cur : Nat) (m : List (Option T)) (left : Option Nat),
    cur + n ≤ m.length → (∀ i, cur ≤ i → i < cur + n → slot m i = none) → enough left n →
    ∃ m', uninitialized_fill_n_loop x n cur ⟨m, left⟩ = (.ok (), cur + n, ⟨m', minus left n⟩) ∧
      m'.length = m.length ∧
      ∀ i, slot m' i = if cur ≤ i ∧ i < cur + n then some x else slot m i := by
  intro n
  induction n with
  | zero =>
    intro cur m left _ _ _
    refine ⟨m, ?_, rfl, fun i => ?_⟩
    · simp only [uninitialized_fill_n_loop, minus_zero, Nat.add_zero]
    · rw [if_neg (by omega)]
  | succ n ih =>
    intro cur m left hlen hraw hen
    have hc := construct_ok m cur x left (by omega) (hraw cur (Nat.le_refl _) (by omega))
      (enough_mono hen (by omega))
    obtain ⟨m', he, hl, hs⟩ := ih (cur + 1) (m.set cur (some x)) (minus left 1)
      (by rw [List.length_set]; omega)
      (by
        intro i h1 h2
        rw [slot_set, if_neg (by omega)]
        exact hraw i (by omega) (by omega))
      (enough_minus (by rwa [Nat.add_comm] at hen))
    refine ⟨m', ?_, ?_, fun i => ?_⟩
    · simp only [uninitialized_fill_n_loop, hc, he, minus_minus]
      rw [show cur + 1 + n = cur + (n + 1) by omega, Nat.add_comm 1 n]
    · rw [hl, List.length_set]
    · rw [hs i, slot_set]
      split_ifs <;> first | rfl | omega

/-- `uninitialized_fill_n` with enough copies left constructs `n` copies of `x`. -/
theorem uninitialized_fill_n_ok {T : Type} (first n : Nat) (x : T) (m : List (Option T))
    (left : Option Nat) (hlen : first + n ≤ m.length)
    (hraw : ∀ i, first ≤ i → i < first + n → slot m i = none) (hen : enough left n) :
    ∃ m', uninitialized_fill_n first n x ⟨m, left⟩ = (.ok (first + n), ⟨m', minus left n⟩) ∧
      m'.length = m.length ∧
      ∀ i, slot m' i = if first ≤ i ∧ i < first + n then some x else slot m i := by
  obtain ⟨m', he, hl, hs⟩ := uninitialized_fill_n_loop_ok x n first m left hlen hraw hen
  exact ⟨m', by simp only [uninitialized_fill_n, he], hl, hs⟩

/-! ## Assignment to constructed slots -/

theorem read_set_ahead {T : Type} {src : Src T} {first q : Nat} (hc : src.ahead first q)
    (m : List (Option T)) {j : Nat} (y : Option T) (hj : first < j) :
    src.read (m.set q y) j = src.read m j := by
  cases src with
  | self =>
    have : q ≤ first := hc
    simp only [Src.read, slot_set]
    rw [if_neg (by omega)]
  | other s => rfl

theorem ahead_succ {T : Type} {src : Src T} {first result : Nat} (hc : src.ahead first result) :
    src.ahead (first + 1) (result + 1) := by
  cases src with
  | self =>
    have : result ≤ first := hc
    exact (show result + 1 ≤ first + 1 by omega)
  | other s => trivial

theorem copy_loop_ok {T : Type} (src : Src T) :
    ∀ (n first result : Nat) (m : List (Option T)) (left : Option Nat),
    (∀ i, result ≤ i → i < result + n → slot m i ≠ none) →
    (∀ i, i < n → src.read m (first + i) ≠ none) → src.ahead first result → enough left n →
    ∃ m', copy_loop src n first result ⟨m, left⟩ = (.ok (result + n), ⟨m', minus left n⟩) ∧
      m'.length = m.length ∧
      ∀ i, slot m' i =
        if result ≤ i ∧ i < result + n then src.read m (first + (i - result)) else slot m i := by
  intro n
  induction n with
  | zero =>
    intro first result m left _ _ _ _
    refine ⟨m, ?_, rfl, fun i => ?_⟩
    · simp only [copy_loop, minus_zero, Nat.add_zero]
    · rw [if_neg (by omega)]
  | succ n ih =>
    intro first result m left hlive hsrc hahead hen
    have h0 := hsrc 0 (by omega)
    rw [Nat.add_zero] at h0
    cases hr : src.read m first with
    | none => exact absurd hr h0
    | some a =>
      have hres := hlive result (Nat.le_refl _) (by omega)
      have hlt := slot_lt hres
      have hc := assign_at_ok m result a left hres (enough_mono hen (by omega))
      obtain ⟨m', he, hl, hs⟩ := ih (first + 1) (result + 1) (m.set result (some a))
        (minus left 1)
        (by
          intro i h1 h2
          rw [slot_set, if_neg (by omega)]
          exact hlive i (by omega) (by omega))
        (by
          intro i hi
          rw [read_set_ahead hahead m _ (by omega)]
          have := hsrc (i + 1) (by omega)
          rwa [show first + (i + 1) = first + 1 + i by omega] at this)
        (ahead_succ hahead) (enough_minus (by rwa [Nat.add_comm] at hen))
      refine ⟨m', ?_, ?_, fun i => ?_⟩
      · simp only [copy_loop, hr, hc, he, minus_minus]
        rw [show result + 1 + n = result + (n + 1) by omega, Nat.add_comm 1 n]
      · rw [hl, List.length_set]
      · rw [hs i]
        by_cases h1 : i = result
        · subst h1
          rw [if_neg (by omega), slot_set, if_pos ⟨rfl, hlt⟩, if_pos (by omega),
            Nat.sub_self, Nat.add_zero, hr]
        · by_cases h2 : result + 1 ≤ i ∧ i < result + 1 + n
          · rw [if_pos h2, if_pos (by omega), read_set_ahead hahead m _ (by omega),
              show first + 1 + (i - (result + 1)) = first + (i - result) by omega]
          · rw [if_neg h2, if_neg (by omega), slot_set, if_neg (by omega)]

/-- `copy` with enough copies left assigns the whole range. -/
theorem copy_ok {T : Type} (src : Src T) (first last result : Nat) (m : List (Option T))
    (left : Option Nat) (hfl : first ≤ last)
    (hlive : ∀ i, result ≤ i → i < result + (last - first) → slot m i ≠ none)
    (hsrc : ∀ i, first ≤ i → i < last → src.read m i ≠ none)
    (hahead : src.ahead first result) (hen : enough left (last - first)) :
    ∃ m', copy src first last result ⟨m, left⟩ =
        (.ok (result + (last - first)), ⟨m', minus left (last - first)⟩) ∧
      m'.length = m.length ∧
      ∀ i, slot m' i = if result ≤ i ∧ i < result + (last - first)
        then src.read m (first + (i - result)) else slot m i := by
  obtain ⟨m', he, hl, hs⟩ := copy_loop_ok src (last - first) first result m left hlive
    (fun i hi => hsrc _ (by omega) (by omega)) hahead hen
  refine ⟨m', ?_, hl, hs⟩
  simp only [copy, if_neg (show ¬ last < first by omega), he]

theorem copy_backward_loop_ok {T : Type} :
    ∀ (n last result : Nat) (m : List (Option T)) (left : Option Nat),
    n ≤ last → last ≤ result →
    (∀ i, last - n ≤ i → i < result → slot m i ≠ none) → enough left n →
    ∃ m', copy_backward_loop n last result ⟨m, left⟩ = (.ok (result - n), ⟨m', minus left n⟩) ∧
      m'.length = m.length ∧
      ∀ i, slot m' i =
        if result - n ≤ i ∧ i < result then slot m (i - (result - last)) else slot m i := by
  intro n
  induction n with
  | zero =>
    intro last result m left _ _ _ _
    refine ⟨m, ?_, rfl, fun i => ?_⟩
    · simp only [copy_backward_loop, minus_zero, Nat.sub_zero]
    · rw [if_neg (by omega)]
  | succ n ih =>
    intro last result m left hn hlr hlive hen
    have h0 := hlive (last - 1) (by omega) (by omega)
    cases hr : slot m (last - 1) with
    | none => exact absurd hr h0
    | some a =>
      have hres := hlive (result - 1) (by omega) (by omega)
      have hlt := slot_lt hres
      have hc := assign_at_ok m (result - 1) a left hres (enough_mono hen (by omega))
      obtain ⟨m', he, hl, hs⟩ := ih (last - 1) (result - 1) (m.set (result - 1) (some a))
        (minus left 1) (by omega) (by omega)
        (by
          intro i h1 h2
          rw [slot_set, if_neg (by omega)]
          exact hlive i (by omega) (by omega))
        (enough_minus (by rwa [Nat.add_comm] at hen))
      refine ⟨m', ?_, ?_, fun i => ?_⟩
      · simp only [copy_backward_loop, hr, hc, he, minus_minus]
        rw [if_neg (by omega), show result - 1 - n = result - (n + 1) by omega,
          Nat.add_comm 1 n]
      · rw [hl, List.length_set]
      · rw [hs i]
        by_cases h1 : i = result - 1
        · subst h1
          rw [if_neg (by omega), slot_set, if_pos ⟨rfl, hlt⟩, if_pos (by omega),
            show result - 1 - (result - last) = last - 1 by omega, hr]
        · by_cases h2 : result - 1 - n ≤ i ∧ i < result - 1
          · rw [if_pos h2, if_pos (by omega), slot_set, if_neg (by omega),
              show result - 1 - (last - 1) = result - last by omega]
          · rw [if_neg h2, if_neg (by omega), slot_set, if_neg (by omega)]

/-- `copy_backward` to a destination not below the source, with enough copies left. -/
theorem copy_backward_ok {T : Type} (first last result : Nat) (m : List (Option T))
    (left : Option Nat) (hfl : first ≤ last) (hlr : last ≤ result)
    (hlive : ∀ i, first ≤ i → i < result → slot m i ≠ none) (hen : enough left (last - first)) :
    ∃ m', copy_backward first last result ⟨m, left⟩ =
        (.ok (result - (last - first)), ⟨m', minus left (last - first)⟩) ∧
      m'.length = m.length ∧
      ∀ i, slot m' i = if result - (last - first) ≤ i ∧ i < result
        then slot m (i - (result - last)) else slot m i := by
  obtain ⟨m', he, hl, hs⟩ := copy_backward_loop_ok (last - first) last result m left
    (by omega) hlr (fun i h1 h2 => hlive i (by omega) h2) hen
  refine ⟨m', ?_, hl, hs⟩
  simp only [copy_backward, if_neg (show ¬ last < first by omega), he]

theorem fill_loop_ok {T : Type} (value : T) :
    ∀ (n first : Nat) (m : List (Option T)) (left : Option Nat),
    (∀ i, first ≤ i → i < first + n → slot m i ≠ none) → enough left n →
    ∃ m', fill_loop value n first ⟨m, left⟩ = (.ok (), ⟨m', minus left n⟩) ∧
      m'.length = m.length ∧
      ∀ i, slot m' i = if first ≤ i ∧ i < first + n then some value else slot m i := by
  intro n
  induction n with
  | zero =>
    intro first m left _ _
    refine ⟨m, ?_, rfl, fun i => ?_⟩
    · simp only [fill_loop, minus_zero]
    · rw [if_neg (by omega)]
  | succ n ih =>
    intro first m left hlive hen
    have hres := hlive first (Nat.le_refl _) (by omega)
    have hlt := slot_lt hres
    have hc := assign_at_ok m first value left hres (enough_mono hen (by omega))
    obtain ⟨m', he, hl, hs⟩ := ih (first + 1) (m.set first (some value)) (minus left 1)
      (by
        intro i h1 h2
        rw [slot_set, if_neg (by omega)]
        exact hlive i (by omega) (by omega))
      (enough_minus (by rwa [Nat.add_comm] at hen))
    refine ⟨m', ?_, ?_, fun i => ?_⟩
    · simp only [fill_loop, hc, he, minus_minus]
      rw [Nat.add_comm 1 n]
    · rw [hl, List.length_set]
    · rw [hs i, slot_set]
      split_ifs <;> first | rfl | omega

/-- `fill` with enough copies left assigns `value` to the whole range. -/
theorem fill_ok {T : Type} (first last : Nat) (value : T) (m : List (Option T))
    (left : Option Nat) (hfl : first ≤ last)
    (hlive : ∀ i, first ≤ i → i < last → slot m i ≠ none) (hen : enough left (last - first)) :
    ∃ m', fill first last value ⟨m, left⟩ = (.ok (), ⟨m', minus left (last - first)⟩) ∧
      m'.length = m.length ∧
      ∀ i, slot m' i = if first ≤ i ∧ i < last then some value else slot m i := by
  obtain ⟨m', he, hl, hs⟩ := fill_loop_ok value (last - first) first m left
    (fun i h1 h2 => hlive i h1 (by omega)) hen
  refine ⟨m', ?_, hl, fun i => ?_⟩
  · simp only [fill, if_neg (show ¬ last < first by omega), he]
  · rw [hs i]
    split_ifs <;> first | rfl | omega

/-! ## The buffer invariant -/

theorem slot_allocate {T : Type} (n i : Nat) : slot (allocate n : List (Option T)) i = none := by
  unfold slot allocate
  rw [List.getElem?_replicate]
  split_ifs <;> rfl

theorem length_allocate {T : Type} (n : Nat) : (allocate n : List (Option T)).length = n := by
  simp [allocate]

theorem slot_map_some {T : Type} (l : List T) (i : Nat) : slot (l.map some) i = l[i]? := by
  unfold slot
  rw [List.getElem?_map]
  cases l[i]? <;> rfl

theorem holds_iff {T : Type} (v : vector T) (l : List T) :
    v.holds l ↔ v.finish = l.length ∧ l.length ≤ v.mem.length ∧ ∀ i, slot v.mem i = l[i]? := by
  constructor
  · rintro ⟨hf, hm⟩
    have hlen : l.length ≤ v.mem.length := by
      have := congrArg List.length hm
      simp at this
      omega
    refine ⟨hf, hlen, fun i => ?_⟩
    rw [hm]
    unfold slot
    rw [List.getElem?_append, List.getElem?_map, List.getElem?_replicate]
    by_cases hi : i < l.length
    · simp [hi, List.getElem?_eq_getElem hi]
    · simp [hi, List.getElem?_eq_none (Nat.le_of_not_lt hi)]
  · rintro ⟨hf, hlen, hs⟩
    refine ⟨hf, ?_⟩
    apply Eq.symm
    apply mem_ext
    · simp; omega
    · intro i
      rw [hs i]
      unfold slot
      rw [List.getElem?_append, List.getElem?_map, List.getElem?_replicate]
      by_cases hi : i < l.length
      · simp [hi, List.getElem?_eq_getElem hi]
      · simp [hi, List.getElem?_eq_none (Nat.le_of_not_lt hi)]

theorem holds_slot {T : Type} {v : vector T} {l : List T} (h : v.holds l) (i : Nat) :
    slot v.mem i = l[i]? := ((holds_iff v l).1 h).2.2 i

theorem holds_live {T : Type} {v : vector T} {l : List T} (h : v.holds l) {i : Nat}
    (hi : i < l.length) : slot v.mem i ≠ none := by
  rw [holds_slot h, List.getElem?_eq_getElem hi]
  exact Option.some_ne_none _

theorem holds_raw {T : Type} {v : vector T} {l : List T} (h : v.holds l) {i : Nat}
    (hi : l.length ≤ i) : slot v.mem i = none := by
  rw [holds_slot h, List.getElem?_eq_none hi]

/-- Splicing `r` into `l` at `p`, index by index. -/
theorem getElem?_splice {T : Type} (l r : List T) (p : Nat) (hp : p ≤ l.length) (i : Nat) :
    (l.take p ++ r ++ l.drop p)[i]? =
      if i < p then l[i]? else if i < p + r.length then r[i - p]? else l[i - r.length]? := by
  have htl : (l.take p).length = p := by rw [List.length_take]; omega
  by_cases h1 : i < p
  · rw [if_pos h1, List.append_assoc, List.getElem?_append_left (by omega),
      List.getElem?_take_of_lt h1]
  · rw [if_neg h1, List.append_assoc, List.getElem?_append_right (by omega), htl]
    by_cases h2 : i < p + r.length
    · rw [if_pos h2, List.getElem?_append_left (by omega)]
    · rw [if_neg h2, List.getElem?_append_right (by omega), List.getElem?_drop]
      congr 1
      omega

/-! ## Growth of a full vector -/

theorem insert_aux_grow {T : Type} (v : vector T) (l : List T) (h : v.holds l)
    (hfull : v.finish = v.mem.length) (p : Nat) (hp : p ≤ l.length) (x : T) :
    ∃ v', v.insert_aux none p x = (.ok (), v', none) ∧ v'.holds (l.take p ++ [x] ++ l.drop p) ∧
      v'.mem.length = (if l.length ≠ 0 then 2 * l.length else 1) := by
  obtain ⟨hf, hcap, hsl⟩ := (holds_iff v l).1 h
  have hlen : l.length < (if l.length ≠ 0 then 2 * l.length else 1) := by
    split_ifs <;> omega
  generalize hL : (if l.length ≠ 0 then 2 * l.length else 1) = len at hlen ⊢
  obtain ⟨m1, he1, hl1, hs1⟩ := uninitialized_copy_ok (.other v.mem) 0 p 0 (allocate len) none
    (Nat.zero_le _) (by rw [length_allocate]; omega) (fun i _ _ => slot_allocate len i)
    (fun i _ hi => holds_live h (by omega)) trivial (enough_none _)
  simp only [Nat.zero_add, Nat.sub_zero, minus_none, Src.read, slot_allocate, length_allocate,
    Nat.zero_le, true_and] at he1 hl1 hs1
  have hc := construct_ok m1 p x none (by omega)
    (by rw [hs1, if_neg (by omega)]) (enough_none _)
  rw [minus_none] at hc
  obtain ⟨m3, he3, hl3, hs3⟩ := uninitialized_copy_ok (.other v.mem) p v.finish (p + 1)
    (m1.set p (some x)) none (by omega) (by rw [List.length_set]; omega)
    (fun i h1 h2 => by rw [slot_set, if_neg (by omega), hs1, if_neg (by omega)])
    (fun i _ hi => holds_live h (by omega)) trivial (enough_none _)
  simp only [minus_none, Src.read] at he3 hs3
  obtain ⟨m4, he4, _, _⟩ := destroy_range_ok 0 v.finish v.mem none
    (fun i _ hi => holds_live h (by omega))
  refine ⟨⟨m3, p + 1 + (v.finish - p)⟩, ?_, ?_, ?_⟩
  · simp only [vector.insert_aux, hfull, ne_eq, not_true_eq_false, if_false, vector.size,
      vector.begin, Nat.sub_zero]
    rw [← hfull, hf, hL, he1]
    simp only [hc]
    rw [← hf, he3]
    simp only [vector.adopt, vector.begin, he4]
  · rw [holds_iff]
    refine ⟨?_, ?_, fun i => ?_⟩
    · simp; omega
    · simp [hl3, hl1]; omega
    · have := getElem?_splice l [x] p hp i
      simp only [List.length_singleton] at this
      rw [this, hs3, slot_set, hs1, hsl, hsl, hf, hl1]
      split_ifs <;> first
        | rfl
        | omega
        | (congr 1; omega)
        | (rw [List.getElem?_eq_none (by omega)])
        | (rw [show i - p = 0 by omega]; rfl)
  · show m3.length = len
    rw [hl3, List.length_set, hl1]

/-- The growth branch of `insert_aux` when one of its `size + 1` constructions throws: the
exception propagates and the vector is left as it was. -/
theorem insert_aux_grow_thrown {T : Type} (v : vector T) (l : List T) (h : v.holds l)
    (hfull : v.finish = v.mem.length) (p : Nat) (hp : p ≤ l.length) (x : T) (j : Nat)
    (hj : j ≤ l.length) :
    v.insert_aux (some j) p x = (.thrown, v, some 0) := by
  obtain ⟨hf, hcap, hsl⟩ := (holds_iff v l).1 h
  have hlen : l.length < (if l.length ≠ 0 then 2 * l.length else 1) := by
    split_ifs <;> omega
  generalize hL : (if l.length ≠ 0 then 2 * l.length else 1) = len at hlen
  have hd0 : ∀ (m : List (Option T)) (left : Option Nat),
      destroy_range 0 0 ⟨m, left⟩ = (.ok (), ⟨m, left⟩) := fun m left => rfl
  simp only [vector.insert_aux, hfull, ne_eq, not_true_eq_false, if_false, vector.size,
    vector.begin, Nat.sub_zero]
  rw [← hfull, hf, hL]
  by_cases h1 : j < p
  · have he1 := uninitialized_copy_thrown (.other v.mem) 0 p 0 (allocate len) j (by omega)
      (by rw [length_allocate]; omega) (fun i _ _ => slot_allocate len i)
      (fun i _ hi => holds_live h (by omega)) trivial
    rw [he1]
    simp only [vector.unwind, hd0]
  · obtain ⟨m1, he1, hl1, hs1⟩ := uninitialized_copy_ok (.other v.mem) 0 p 0 (allocate len)
      (some j) (Nat.zero_le _) (by rw [length_allocate]; omega)
      (fun i _ _ => slot_allocate len i) (fun i _ hi => holds_live h (by omega)) trivial
      (by intro k hk; cases hk; omega)
    simp only [Nat.zero_add, Nat.sub_zero, minus, Option.map_some', Src.read, slot_allocate,
      length_allocate, Nat.zero_le, true_and] at he1 hl1 hs1
    rw [he1]
    have hraw : slot m1 p = none := by rw [hs1, if_neg (by omega)]
    by_cases h2 : j = p
    · subst h2
      rw [Nat.sub_self]
      simp only [construct_thrown x (show j < m1.length by omega) hraw]
      obtain ⟨m2, he2, _, _⟩ := destroy_range_ok 0 j m1 (some 0) (fun i _ hi => by
        rw [hs1, if_pos hi]; exact holds_live h (by omega))
      simp only [vector.unwind, he2]
    · have hc := construct_ok m1 p x (some (j - p)) (by omega) hraw
        (by intro k hk; cases hk; omega)
      simp only [minus, Option.map_some'] at hc
      simp only [hc]
      have he3 := uninitialized_copy_thrown (.other v.mem) p l.length (p + 1)
        (m1.set p (some x)) (j - p - 1) (by omega) (by rw [List.length_set]; omega)
        (fun i h1 h2 => by rw [slot_set, if_neg (by omega), hs1, if_neg (by omega)])
        (fun i _ hi => holds_live h (by omega)) trivial
      rw [he3]
      obtain ⟨m2, he2, _, _⟩ := destroy_range_ok 0 (p + 1) (m1.set p (some x)) (some 0)
        (fun i _ hi => by
          rw [slot_set, hs1]
          split_ifs
          · exact Option.some_ne_none _
          · exact holds_live h (by omega)
          · omega)
      simp only [vector.unwind, he2]

theorem holds_new {T : Type} : (vector.new : vector T).holds [] := by
  simp [vector.holds, vector.new]

theorem holds_size {T : Type} {v : vector T} {l : List T} (h : v.holds l) :
    v.size = l.length := by
  simp [vector.size, vector.begin, h.1]

theorem holds_elem {T : Type} {v : vector T} {l : List T} (h : v.holds l) (i : Nat) :
    v.elem i = l[i]? := by
  simp [vector.elem, vector.begin, holds_slot h]

theorem holds_le {T : Type} {v : vector T} {l : List T} (h : v.holds l) :
    l.length ≤ v.capacity := by
  have := ((holds_iff v l).1 h).2.1
  simpa [vector.capacity, vector.begin] using this

theorem holds_live_eq {T : Type} {v : vector T} {l : List T} (h : v.holds l) :
    v.live = l.map some := by
  obtain ⟨hf, hm⟩ := h
  unfold vector.live
  rw [hm, hf, List.take_left' (by simp)]

/-- `push_back` on a vector holding `l`: it returns, the vector holds `l ++ [x]`, and the
capacity is unchanged when there was room and `old_size != 0 ? 2 * old_size : 1` otherwise. -/
theorem push_back_holds {T : Type} (v : vector T) (l : List T) (h : v.holds l) (x : T) :
    ∃ v', v.push_back none x = (.ok (), v', none) ∧ v'.holds (l ++ [x]) ∧
      v'.capacity = if v.size = v.capacity then (if v.size ≠ 0 then 2 * v.size else 1)
        else v.capacity := by
  obtain ⟨hf, hcap, hsl⟩ := (holds_iff v l).1 h
  by_cases hfull : v.finish = v.mem.length
  · obtain ⟨v', he, hh, hl⟩ := insert_aux_grow v l h hfull l.length (Nat.le_refl _) x
    refine ⟨v', ?_, ?_, ?_⟩
    · simp only [vector.push_back, hfull, ne_eq, not_true_eq_false, if_false]
      rw [← hfull, hf, he]
    · simpa using hh
    · simp only [vector.capacity, vector.size, vector.begin, Nat.sub_zero, hfull, if_true]
      rw [hl, ← hfull, hf]
  · have hc := construct_ok v.mem v.finish x none (by omega)
      (holds_raw h (by omega)) (enough_none _)
    rw [minus_none] at hc
    refine ⟨⟨v.mem.set v.finish (some x), v.finish + 1⟩, ?_, ?_, ?_⟩
    · simp only [vector.push_back, ne_eq, hfull, not_false_eq_true, if_true, hc]
    · rw [holds_iff]
      refine ⟨by simp [hf], by simp; omega, fun i => ?_⟩
      rw [slot_set, hsl, List.getElem?_append, hf]
      split_ifs <;> first
        | rfl
        | omega
        | (rw [show i - l.length = 0 by omega]; rfl)
        | (rw [List.getElem?_eq_none (by omega), List.getElem?_eq_none (by simp; omega)])
    · simp only [vector.capacity, vector.size, vector.begin, Nat.sub_zero, List.length_set,
        if_neg hfull]

theorem push_back_all_holds {T : Type} (xs : List T) : ∀ (v : vector T) (l : List T), v.holds l →
    ∃ v', v.push_back_all none xs = (.ok (), v', none) ∧ v'.holds (l ++ xs) ∧
      v.capacity ≤ v'.capacity := by
  induction xs with
  | nil =>
    intro v l h
    exact ⟨v, rfl, by simpa using h, Nat.le_refl _⟩
  | cons x xs ih =>
    intro v l h
    obtain ⟨v1, he1, hh1, hc1⟩ := push_back_holds v l h x
    obtain ⟨v2, he2, hh2, hc2⟩ := ih v1 (l ++ [x]) hh1
    refine ⟨v2, ?_, by simpa using hh2, ?_⟩
    · simp only [vector.push_back_all, he1, he2]
    · have hle := holds_le h
      have hsz := holds_size h
      refine Nat.le_trans ?_ hc2
      rw [hc1]
      split_ifs <;> omega

/-! ## Insertion of `n` copies -/

theorem insert_n_in_place {T : Type} (v : vector T) (l : List T) (h : v.holds l) (p n : Nat)
    (x : T) (hp : p ≤ l.length) (hn : n ≠ 0) (hroom : n ≤ v.mem.length - v.finish) :
    ∃ v', v.insert_n none p n x = (.ok (), v', none) ∧
      v'.holds (l.take p ++ List.replicate n x ++ l.drop p) ∧ v'.mem.length = v.mem.length := by
  obtain ⟨hf, hcap, hsl⟩ := (holds_iff v l).1 h
  by_cases hea : v.finish - p > n
  · obtain ⟨m1, he1, hl1, hs1⟩ := uninitialized_copy_ok .self (v.finish - n) v.finish v.finish
      v.mem none (by omega) (by omega) (fun i h1 h2 => holds_raw h (by omega))
      (fun i h1 h2 => holds_live h (by omega)) (Nat.le_refl _) (enough_none _)
    obtain ⟨m2, he2, hl2, hs2⟩ := copy_backward_ok p (v.finish - n) v.finish m1 none
      (by omega) (by omega)
      (fun i h1 h2 => by rw [hs1, if_neg (by omega)]; exact holds_live h (by omega))
      (enough_none _)
    obtain ⟨m3, he3, hl3, hs3⟩ := fill_ok p (p + n) x m2 none (by omega)
      (fun i h1 h2 => by
        rw [hs2, if_neg (by omega), hs1, if_neg (by omega)]
        exact holds_live h (by omega))
      (enough_none _)
    simp only [minus_none] at he1 he2 he3
    refine ⟨⟨m3, v.finish + n⟩, ?_, ?_, ?_⟩
    · simp only [vector.insert_n, ne_eq, hn, not_false_eq_true, if_true, ge_iff_le, hroom, spend,
        gt_iff_lt, hea, he1, he2, he3]
    · rw [holds_iff]
      refine ⟨by simp; omega, by simp [hl3, hl2, hl1]; omega, fun i => ?_⟩
      have := getElem?_splice l (List.replicate n x) p hp i
      simp only [List.length_replicate] at this
      show slot m3 i = _
      rw [this]
      simp only [hs3, hs2, hs1, Src.read, hsl, hf, List.getElem?_replicate]
      split_ifs <;> first
        | rfl
        | omega
        | (congr 1; omega)
        | (rw [List.getElem?_eq_none (show l.length ≤ i by omega),
            List.getElem?_eq_none (show l.length ≤ i - n by omega)])
    · show m3.length = _
      rw [hl3, hl2, hl1]
  · obtain ⟨m1, he1, hl1, hs1⟩ := uninitialized_fill_n_ok v.finish (n - (v.finish - p)) x
      v.mem none (by omega) (fun i h1 h2 => holds_raw h (by omega)) (enough_none _)
    obtain ⟨m2, he2, hl2, hs2⟩ := uninitialized_copy_ok .self p v.finish
      (v.finish + (n - (v.finish - p))) m1 none (by omega) (by omega)
      (fun i h1 h2 => by rw [hs1, if_neg (by omega)]; exact holds_raw h (by omega))
      (fun i h1 h2 => by
        simp only [Src.read]
        rw [hs1, if_neg (by omega)]
        exact holds_live h (by omega))
      (show v.finish ≤ v.finish + (n - (v.finish - p)) by omega) (enough_none _)
    obtain ⟨m3, he3, hl3, hs3⟩ := fill_ok p v.finish x m2 none (by omega)
      (fun i h1 h2 => by
        rw [hs2, if_neg (by omega), hs1, if_neg (by omega)]
        exact holds_live h (by omega))
      (enough_none _)
    simp only [minus_none] at he1 he2 he3
    refine ⟨⟨m3, v.finish + (n - (v.finish - p)) + (v.finish - p)⟩, ?_, ?_, ?_⟩
    · simp only [vector.insert_n, ne_eq, hn, not_false_eq_true, if_true, ge_iff_le, hroom, spend,
        gt_iff_lt, hea, if_false, he1, he2, he3]
    · rw [holds_iff]
      refine ⟨by simp; omega, by simp [hl3, hl2, hl1]; omega, fun i => ?_⟩
      have := getElem?_splice l (List.replicate n x) p hp i
      simp only [List.length_replicate] at this
      show slot m3 i = _
      rw [this]
      simp only [hs3, hs2, hs1, Src.read, hsl, hf, List.getElem?_replicate]
      split_ifs <;> first
        | rfl
        | omega
        | (congr 1; omega)
        | (rw [List.getElem?_eq_none (show l.length ≤ i by omega),
            List.getElem?_eq_none (show l.length ≤ i - n by omega)])
    · show m3.length = _
      rw [hl3, hl2, hl1]

theorem insert_n_grow {T : Type} (v : vector T) (l : List T) (h : v.holds l) (p n : Nat)
    (x : T) (hp : p ≤ l.length) (hn : n ≠ 0) (hroom : v.mem.length - v.finish < n)
    (hfit : l.length + max l.length n < 2 ^ 64) :
    ∃ v', v.insert_n none p n x = (.ok (), v', none) ∧
      v'.holds (l.take p ++ List.replicate n x ++ l.drop p) ∧
      v'.mem.length = l.length + max l.length n := by
  obtain ⟨hf, hcap, hsl⟩ := (holds_iff v l).1 h
  have hmod := Nat.mod_eq_of_lt hfit
  generalize hL : l.length + max l.length n = len at hmod ⊢
  have hlen : l.length + n ≤ len := by omega
  obtain ⟨m1, he1, hl1, hs1⟩ := uninitialized_copy_ok (.other v.mem) 0 p 0 (allocate len) none
    (Nat.zero_le _) (by rw [length_allocate]; omega) (fun i _ _ => slot_allocate len i)
    (fun i _ hi => holds_live h (by omega)) trivial (enough_none _)
  simp only [Nat.zero_add, Nat.sub_zero, minus_none, Src.read, slot_allocate, length_allocate,
    Nat.zero_le, true_and] at he1 hl1 hs1
  obtain ⟨m2, he2, hl2, hs2⟩ := uninitialized_fill_n_ok p n x m1 none (by omega)
    (fun i h1 h2 => by rw [hs1, if_neg (by omega)]) (enough_none _)
  obtain ⟨m3, he3, hl3, hs3⟩ := uninitialized_copy_ok (.other v.mem) p v.finish (p + n)
    m2 none (by omega) (by omega)
    (fun i h1 h2 => by rw [hs2, if_neg (by omega), hs1, if_neg (by omega)])
    (fun i _ hi => holds_live h (by omega)) trivial (enough_none _)
  simp only [minus_none, Src.read] at he2 he3 hs3
  obtain ⟨m4, he4, _, _⟩ := destroy_range_ok 0 v.finish v.mem none
    (fun i _ hi => holds_live h (by omega))
  refine ⟨⟨m3, p + n + (v.finish - p)⟩, ?_, ?_, ?_⟩
  · simp only [vector.insert_n, ne_eq, hn, not_false_eq_true, if_true, ge_iff_le,
      if_neg (show ¬ n ≤ v.mem.length - v.finish by omega), vector.size, vector.begin,
      Nat.sub_zero]
    rw [hf, hL, hmod, he1]
    simp only [he2]
    rw [← hf, he3]
    simp only [vector.adopt, vector.begin, he4]
  · rw [holds_iff]
    refine ⟨by simp; omega, by simp [hl3, hl2, hl1]; omega, fun i => ?_⟩
    have := getElem?_splice l (List.replicate n x) p hp i
    simp only [List.length_replicate] at this
    show slot m3 i = _
    rw [this]
    simp only [hs3, hs2, hs1, hsl, hf, List.getElem?_replicate]
    split_ifs <;> first
      | rfl
      | omega
      | (congr 1; omega)
      | (symm; apply List.getElem?_eq_none; omega)
  · show m3.length = len
    rw [hl3, hl2, hl1]

/-! ## Erasure -/

/-- Cutting `[f, la)` out of `l`, index by index. -/
theorem getElem?_cut {T : Type} (l : List T) (f la : Nat) (hf : f ≤ l.length) (i : Nat) :
    (l.take f ++ l.drop la)[i]? = if i < f then l[i]? else l[la + (i - f)]? := by
  have htl : (l.take f).length = f := by rw [List.length_take]; omega
  by_cases h1 : i < f
  · rw [if_pos h1, List.getElem?_append_left (by omega), List.getElem?_take_of_lt h1]
  · rw [if_neg h1, List.getElem?_append_right (by omega), htl, List.getElem?_drop]

theorem erase_range_holds {T : Type} (v : vector T) (l : List T) (h : v.holds l) (f la : Nat)
    (hfl : f ≤ la) (hla : la ≤ l.length) :
    ∃ v', v.erase_range none f la = (.ok f, v', none) ∧ v'.holds (l.take f ++ l.drop la) ∧
      v'.mem.length = v.mem.length := by
  obtain ⟨hf, hcap, hsl⟩ := (holds_iff v l).1 h
  obtain ⟨m1, he1, hl1, hs1⟩ := copy_ok .self la v.finish f v.mem none (by omega)
    (fun i h1 h2 => holds_live h (by omega)) (fun i h1 h2 => holds_live h (by omega))
    (show f ≤ la from hfl) (enough_none _)
  obtain ⟨m2, he2, hl2, hs2⟩ := destroy_range_ok (f + (v.finish - la)) v.finish m1 none
    (fun i h1 h2 => by rw [hs1, if_neg (by omega)]; exact holds_live h (by omega))
  simp only [minus_none, Src.read] at he1 hs1
  refine ⟨⟨m2, v.finish - (la - f)⟩, ?_, ?_, ?_⟩
  · simp only [vector.erase_range, he1, he2]
  · rw [holds_iff]
    refine ⟨by simp; omega, by simp [hl2, hl1]; omega, fun i => ?_⟩
    show slot m2 i = _
    rw [getElem?_cut l f la (by omega) i]
    simp only [hs2, hs1, hsl, hf]
    split_ifs <;> first
      | rfl
      | omega
      | (congr 1; omega)
      | (symm; apply List.getElem?_eq_none; omega)
      | (rw [List.getElem?_eq_none (show l.length ≤ i by omega),
          List.getElem?_eq_none (show l.length ≤ la + (i - f) by omega)])
  · show m2.length = _
    rw [hl2, hl1]

/-! ## Assignment -/

theorem assign_from_holds {T : Type} (t x : vector T) (lt lx : List T) (ht : t.holds lt)
    (hx : x.holds lx) :
    ∃ t', t.assign_from x none = (.ok (), t', none) ∧ t'.holds lx ∧
      t'.mem.length = max t.mem.length lx.length := by
  obtain ⟨hft, hcapt, hst⟩ := (holds_iff t lt).1 ht
  obtain ⟨hfx, hcapx, hsx⟩ := (holds_iff x lx).1 hx
  by_cases h1 : x.size > t.capacity
  · have h1' : t.mem.length < lx.length := by
      simpa [vector.size, vector.capacity, vector.begin, hfx] using h1
    obtain ⟨m1, he1, hl1, hs1⟩ := uninitialized_copy_ok (.other x.mem) 0 x.finish 0
      (allocate (x.finish - 0)) none (Nat.zero_le _) (by rw [length_allocate]; omega)
      (fun i _ _ => slot_allocate _ i) (fun i _ hi => holds_live hx (by omega)) trivial
      (enough_none _)
    simp only [Nat.zero_add, Nat.sub_zero, minus_none, Src.read, slot_allocate, length_allocate,
      Nat.zero_le, true_and] at he1 hl1 hs1
    obtain ⟨m4, he4, _, _⟩ := destroy_range_ok 0 t.finish t.mem none
      (fun i _ hi => holds_live ht (by omega))
    refine ⟨⟨m1, 0 + x.size⟩, ?_, ?_, ?_⟩
    · simp only [vector.assign_from, h1, if_true, vector.allocate_and_copy, vector.begin,
        Nat.sub_zero, he1, he4]
    · rw [holds_iff]
      refine ⟨by simp [vector.size, vector.begin, hfx], by simp [hl1, hfx], fun i => ?_⟩
      show slot m1 i = _
      rw [hs1, hsx, hfx]
      split_ifs <;> first
        | rfl
        | (symm; apply List.getElem?_eq_none; omega)
    · show m1.length = _
      rw [hl1, hfx]
      omega
  · have h1' : lx.length ≤ t.mem.length := by
      simpa [vector.size, vector.capacity, vector.begin, hfx] using h1
    by_cases h2 : t.size ≥ x.size
    · have h2' : lx.length ≤ lt.length := by
        simpa [vector.size, vector.begin, hfx, hft] using h2
      obtain ⟨m1, he1, hl1, hs1⟩ := copy_ok (.other x.mem) 0 x.finish 0 t.mem none
        (Nat.zero_le _) (fun i _ hi => holds_live ht (by omega))
        (fun i _ hi => holds_live hx (by omega)) trivial (enough_none _)
      obtain ⟨m2, he2, hl2, hs2⟩ := destroy_range_ok (0 + (x.finish - 0)) t.finish m1 none
        (fun i h1 h2 => by rw [hs1, if_neg (by omega)]; exact holds_live ht (by omega))
      simp only [Nat.zero_add, Nat.sub_zero, minus_none, Src.read, Nat.zero_le, true_and]
        at he1 hs1 he2 hs2
      refine ⟨⟨m2, 0 + x.size⟩, ?_, ?_, ?_⟩
      · simp only [vector.assign_from, h1, if_false, h2, if_true, vector.begin, he1, he2]
      · rw [holds_iff]
        refine ⟨by simp [vector.size, vector.begin, hfx], by simp [hl2, hl1]; omega,
          fun i => ?_⟩
        show slot m2 i = _
        rw [hs2, hs1, hsx, hst, hfx, hft]
        split_ifs <;> first
          | rfl
          | omega
          | (symm; apply List.getElem?_eq_none; omega)
          | (rw [List.getElem?_eq_none (show lt.length ≤ i by omega),
              List.getElem?_eq_none (show lx.length ≤ i by omega)])
      · show m2.length = _
        rw [hl2, hl1]
        omega
    · have h2' : lt.length < lx.length := by
        simpa [vector.size, vector.begin, hfx, hft] using h2
      obtain ⟨m1, he1, hl1, hs1⟩ := copy_ok (.other x.mem) 0 (0 + t.finish) 0 t.mem none
        (Nat.zero_le _) (fun i _ hi => holds_live ht (by omega))
        (fun i _ hi => holds_live hx (by omega)) trivial (enough_none _)
      obtain ⟨m2, he2, hl2, hs2⟩ := uninitialized_copy_ok (.other x.mem) (0 + t.finish)
        x.finish t.finish m1 none (by omega) (by omega)
        (fun i h1 h2 => by rw [hs1, if_neg (by omega)]; exact holds_raw ht (by omega))
        (fun i _ hi => holds_live hx (by omega)) trivial (enough_none _)
      simp only [Nat.zero_add, Nat.sub_zero, minus_none, Src.read, Nat.zero_le, true_and]
        at he1 hs1 he2 hs2
      refine ⟨⟨m2, 0 + x.size⟩, ?_, ?_, ?_⟩
      · simp only [vector.assign_from, h1, if_false, h2]
        simp only [vector.begin, vector.size, Nat.sub_zero, Nat.zero_add, he1, he2]
      · rw [holds_iff]
        refine ⟨by simp [vector.size, vector.begin, hfx], by simp [hl2, hl1]; omega,
          fun i => ?_⟩
        show slot m2 i = _
        rw [hs2, hs1, hsx, hsx, hst, hfx, hft]
        split_ifs <;> first
          | rfl
          | omega
          | (congr 1; omega)
          | (rw [List.getElem?_eq_none (show lt.length ≤ i by omega),
              List.getElem?_eq_none (show lx.length ≤ i by omega)])
      · show m2.length = _
        rw [hl2, hl1]
        omega

theorem operator_assign_holds {T : Type} (st : Store T) (me x : Nat) (lt lx : List T)
    (ht : (st me).holds lt) (hx : (st x).holds lx) :
    ∃ st', operator_assign st none me x = (.ok (), st', none) ∧ (st' me).holds lx ∧
      st' x = st x ∧ (st' me).capacity = max (st me).capacity (st x).size := by
  by_cases hxm : x = me
  · subst hxm
    refine ⟨st, ?_, hx, rfl, ?_⟩
    · simp [operator_assign]
    · have := holds_le hx
      have := holds_size hx
      omega
  · obtain ⟨t', he, hh, hl⟩ := assign_from_holds (st me) (st x) lt lx ht hx
    refine ⟨Function.update st me t', ?_, ?_, ?_, ?_⟩
    · simp only [operator_assign, ne_eq, hxm, not_false_eq_true, if_true, he]
    · simpa using hh
    · simp [Function.update, hxm]
    · simp [vector.capacity, vector.begin, hl, holds_size hx]

/-! ## Successful calls do not depend on the copies left

A call that returns with some number of copies left returns the same result when copies never
throw. -/

theorem construct_erase {T : Type} (p : Nat) (x : T) (m : List (Option T)) (left : Option Nat)
    (u : Unit) (s : Raw T) (h : construct p x ⟨m, left⟩ = (.ok u, s)) :
    construct p x ⟨m, none⟩ = (.ok u, ⟨s.mem, none⟩) := by
  unfold construct at h ⊢
  simp only at h ⊢
  split at h
  · split at h
    · simp only [Prod.mk.injEq, Outcome.ok.injEq] at h
      rw [← h.2]
      rfl
    · simp at h
  · simp at h

theorem assign_at_erase {T : Type} (p : Nat) (x : T) (m : List (Option T)) (left : Option Nat)
    (u : Unit) (s : Raw T) (h : assign_at p x ⟨m, left⟩ = (.ok u, s)) :
    assign_at p x ⟨m, none⟩ = (.ok u, ⟨s.mem, none⟩) := by
  unfold assign_at at h ⊢
  simp only at h ⊢
  split at h
  · split at h
    · simp only [Prod.mk.injEq, Outcome.ok.injEq] at h
      rw [← h.2]
      rfl
    · simp at h
  · simp at h

theorem destroy_erase {T : Type} (p : Nat) (m : List (Option T)) (left : Option Nat)
    (u : Unit) (s : Raw T) (h : destroy p ⟨m, left⟩ = (.ok u, s)) :
    destroy p ⟨m, none⟩ = (.ok u, ⟨s.mem, none⟩) := by
  unfold destroy at h ⊢
  simp only at h ⊢
  split at h
  · simp only [Prod.mk.injEq, Outcome.ok.injEq] at h ⊢
    rw [← h.2]
    exact ⟨trivial, rfl⟩
  · simp at h

theorem destroy_loop_erase {T : Type} : ∀ (n first : Nat) (m : List (Option T))
    (left : Option Nat) (u : Unit) (s : Raw T),
    destroy_loop n first ⟨m, left⟩ = (.ok u, s) →
    destroy_loop n first ⟨m, none⟩ = (.ok u, ⟨s.mem, none⟩) := by
  intro n
  induction n with
  | zero =>
    intro first m left u s h
    simp only [destroy_loop, Prod.mk.injEq, Outcome.ok.injEq] at h ⊢
    rw [← h.2]
    exact ⟨trivial, rfl⟩
  | succ n ih =>
    intro first m left u s h
    unfold destroy_loop at h ⊢
    cases hd : destroy first ⟨m, left⟩ with
    | mk o s1 =>
      rw [hd] at h
      cases o with
      | ok a =>
        rw [destroy_erase first m left a s1 hd]
        exact ih _ _ _ _ _ h
      | thrown => simp at h
      | undefined => simp at h

theorem destroy_range_erase {T : Type} (first last : Nat) (m : List (Option T))
    (left : Option Nat) (u : Unit) (s : Raw T)
    (h : destroy_range first last ⟨m, left⟩ = (.ok u, s)) :
    destroy_range first last ⟨m, none⟩ = (.ok u, ⟨s.mem, none⟩) :=
  destroy_loop_erase _ _ _ _ _ _ h

theorem uninitialized_copy_loop_erase {T : Type} (src : Src T) :
    ∀ (n first cur : Nat) (m : List (Option T)) (left : Option Nat) (u : Unit) (c : Nat)
      (s : Raw T),
    uninitialized_copy_loop src n first cur ⟨m, left⟩ = (.ok u, c, s) →
    uninitialized_copy_loop src n first cur ⟨m, none⟩ = (.ok u, c, ⟨s.mem, none⟩) := by
  intro n
  induction n with
  | zero =>
    intro first cur m left u c s h
    simp only [uninitialized_copy_loop, Prod.mk.injEq, Outcome.ok.injEq] at h ⊢
    rw [← h.2.2]
    exact ⟨trivial, h.2.1, rfl⟩
  | succ n ih =>
    intro first cur m left u c s h
    unfold uninitialized_copy_loop at h ⊢
    simp only at h ⊢
    cases hr : src.read m first with
    | none => rw [hr] at h; simp at h
    | some a =>
      rw [hr] at h
      simp only at h ⊢
      cases hd : construct cur a ⟨m, left⟩ with
      | mk o s1 =>
        rw [hd] at h
        cases o with
        | ok b =>
          rw [construct_erase cur a m left b s1 hd]
          exact ih _ _ _ _ _ _ _ h
        | thrown => simp at h
        | undefined => simp at h

theorem uninitialized_copy_erase {T : Type} (src : Src T) (first last result : Nat)
    (m : List (Option T)) (left : Option Nat) (r : Nat) (s : Raw T)
    (h : uninitialized_copy src first last result ⟨m, left⟩ = (.ok r, s)) :
    uninitialized_copy src first last result ⟨m, none⟩ = (.ok r, ⟨s.mem, none⟩) := by
  unfold uninitialized_copy at h ⊢
  by_cases hc : last < first
  · rw [if_pos hc] at h; simp at h
  · rw [if_neg hc] at h ⊢
    cases hq : uninitialized_copy_loop src (last - first) first result ⟨m, left⟩ with
    | mk o rest =>
      cases rest with
      | mk c s1 =>
        rw [hq] at h
        cases o with
        | ok b =>
          rw [uninitialized_copy_loop_erase src _ _ _ _ _ b c s1 hq]
          cases h
          rfl
        | thrown =>
          simp only at h
          split at h <;> simp at h
        | undefined => simp at h

theorem uninitialized_fill_n_loop_erase {T : Type} (x : T) :
    ∀ (n cur : Nat) (m : List (Option T)) (left : Option Nat) (u : Unit) (c : Nat) (s : Raw T),
    uninitialized_fill_n_loop x n cur ⟨m, left⟩ = (.ok u, c, s) →
    uninitialized_fill_n_loop x n cur ⟨m, none⟩ = (.ok u, c, ⟨s.mem, none⟩) := by
  intro n
  induction n with
  | zero =>
    intro cur m left u c s h
    simp only [uninitialized_fill_n_loop, Prod.mk.injEq, Outcome.ok.injEq] at h ⊢
    rw [← h.2.2]
    exact ⟨trivial, h.2.1, rfl⟩
  | succ n ih =>
    intro cur m left u c s h
    unfold uninitialized_fill_n_loop at h ⊢
    cases hd : construct cur x ⟨m, left⟩ with
    | mk o s1 =>
      rw [hd] at h
      cases o with
      | ok b =>
        rw [construct_erase cur x m left b s1 hd]
        exact ih _ _ _ _ _ _ h
      | thrown => simp at h
      | undefined => simp at h

theorem uninitialized_fill_n_erase {T : Type} (first n : Nat) (x : T) (m : List (Option T))
    (left : Option Nat) (r : Nat) (s : Raw T)
    (h : uninitialized_fill_n first n x ⟨m, left⟩ = (.ok r, s)) :
    uninitialized_fill_n first n x ⟨m, none⟩ = (.ok r, ⟨s.mem, none⟩) := by
  unfold uninitialized_fill_n at h ⊢
  cases hq : uninitialized_fill_n_loop x n first ⟨m, left⟩ with
  | mk o rest =>
    cases rest with
    | mk c s1 =>
      rw [hq] at h
      cases o with
      | ok b =>
        rw [uninitialized_fill_n_loop_erase x _ _ _ _ b c s1 hq]
        cases h
        rfl
      | thrown =>
        simp only at h
        split at h <;> simp at h
      | undefined => simp at h

theorem copy_loop_erase {T : Type} (src : Src T) :
    ∀ (n first result : Nat) (m : List (Option T)) (left : Option Nat) (r : Nat) (s : Raw T),
    copy_loop src n first result ⟨m, left⟩ = (.ok r, s) →
    copy_loop src n first result ⟨m, none⟩ = (.ok r, ⟨s.mem, none⟩) := by
  intro n
  induction n with
  | zero =>
    intro first result m left r s h
    simp only [copy_loop, Prod.mk.injEq, Outcome.ok.injEq] at h ⊢
    rw [← h.2]
    exact ⟨h.1, rfl⟩
  | succ n ih =>
    intro first result m left r s h
    unfold copy_loop at h ⊢
    simp only at h ⊢
    cases hr : src.read m first with
    | none => rw [hr] at h; simp at h
    | some a =>
      rw [hr] at h
      simp only at h ⊢
      cases hd : assign_at result a ⟨m, left⟩ with
      | mk o s1 =>
        rw [hd] at h
        cases o with
        | ok b =>
          rw [assign_at_erase result a m left b s1 hd]
          exact ih _ _ _ _ _ _ h
        | thrown => simp at h
        | undefined => simp at h

theorem copy_erase {T : Type} (src : Src T) (first last result : Nat) (m : List (Option T))
    (left : Option Nat) (r : Nat) (s : Raw T)
    (h : copy src first last result ⟨m, left⟩ = (.ok r, s)) :
    copy src first last result ⟨m, none⟩ = (.ok r, ⟨s.mem, none⟩) := by
  unfold copy at h ⊢
  by_cases hc : last < first
  · rw [if_pos hc] at h; simp at h
  · rw [if_neg hc] at h ⊢
    exact copy_loop_erase src _ _ _ _ _ _ _ h

theorem copy_backward_loop_erase {T : Type} :
    ∀ (n last result : Nat) (m : List (Option T)) (left : Option Nat) (r : Nat) (s : Raw T),
    copy_backward_loop n last result ⟨m, left⟩ = (.ok r, s) →
    copy_backward_loop n last result ⟨m, none⟩ = (.ok r, ⟨s.mem, none⟩) := by
  intro n
  induction n with
  | zero =>
    intro last result m left r s h
    simp only [copy_backward_loop, Prod.mk.injEq, Outcome.ok.injEq] at h ⊢
    rw [← h.2]
    exact ⟨h.1, rfl⟩
  | succ n ih =>
    intro last result m left r s h
    unfold copy_backward_loop at h ⊢
    simp only at h ⊢
    by_cases hc : last = 0 ∨ result = 0
    · rw [if_pos hc] at h; simp at h
    · rw [if_neg hc] at h ⊢
      cases hr : slot m (last - 1) with
      | none => rw [hr] at h; simp at h
      | some a =>
        rw [hr] at h
        simp only at h ⊢
        cases hd : assign_at (result - 1) a ⟨m, left⟩ with
        | mk o s1 =>
          rw [hd] at h
          cases o with
          | ok b =>
            rw [assign_at_erase (result - 1) a m left b s1 hd]
            exact ih _ _ _ _ _ _ h
          | thrown => simp at h
          | undefined => simp at h

theorem copy_backward_erase {T : Type} (first last result : Nat) (m : List (Option T))
    (left : Option Nat) (r : Nat) (s : Raw T)
    (h : copy_backward first last result ⟨m, left⟩ = (.ok r, s)) :
    copy_backward first last result ⟨m, none⟩ = (.ok r, ⟨s.mem, none⟩) := by
  unfold copy_backward at h ⊢
  by_cases hc : last < first
  · rw [if_pos hc] at h; simp at h
  · rw [if_neg hc] at h ⊢
    exact copy_backward_loop_erase _ _ _ _ _ _ _ h

theorem fill_loop_erase {T : Type} (value : T) :
    ∀ (n first : Nat) (m : List (Option T)) (left : Option Nat) (u : Unit) (s : Raw T),
    fill_loop value n first ⟨m, left⟩ = (.ok u, s) →
    fill_loop value n first ⟨m, none⟩ = (.ok u, ⟨s.mem, none⟩) := by
  intro n
  induction n with
  | zero =>
    intro first m left u s h
    simp only [fill_loop, Prod.mk.injEq, Outcome.ok.injEq] at h ⊢
    rw [← h.2]
    exact ⟨trivial, rfl⟩
  | succ n ih =>
    intro first m left u s h
    unfold fill_loop at h ⊢
    cases hd : assign_at first value ⟨m, left⟩ with
    | mk o s1 =>
      rw [hd] at h
      cases o with
      | ok b =>
        rw [assign_at_erase first value m left b s1 hd]
        exact ih _ _ _ _ _ h
      | thrown => simp at h
      | undefined => simp at h

theorem fill_erase {T : Type} (first last : Nat) (value : T) (m : List (Option T))
    (left : Option Nat) (u : Unit) (s : Raw T)
    (h : fill first last value ⟨m, left⟩ = (.ok u, s)) :
    fill first last value ⟨m, none⟩ = (.ok u, ⟨s.mem, none⟩) := by
  unfold fill at h ⊢
  by_cases hc : last < first
  · rw [if_pos hc] at h; simp at h
  · rw [if_neg hc] at h ⊢
    exact fill_loop_erase value _ _ _ _ _ _ h

theorem unwind_not_ok {T : Type} (v : vector T) (new_finish : Nat) (s : Raw T) (u : Unit)
    (v1 : vector T) (l1 : Option Nat) : v.unwind new_finish s ≠ (.ok u, v1, l1) := by
  unfold vector.unwind
  split <;> simp

theorem adopt_erase {T : Type} (v : vector T) (new_finish : Nat) (m : List (Option T))
    (left : Option Nat) (u : Unit) (v1 : vector T) (l1 : Option Nat)
    (h : v.adopt new_finish ⟨m, left⟩ = (.ok u, v1, l1)) :
    v.adopt new_finish ⟨m, none⟩ = (.ok u, v1, none) := by
  unfold vector.adopt at h ⊢
  simp only at h ⊢
  rcases hq : destroy_range v.begin v.finish ⟨v.mem, left⟩ with ⟨o, m1, l2⟩
  rw [hq] at h
  cases o with
  | ok b =>
    rw [destroy_range_erase _ _ _ _ _ _ hq]
    cases h
    rfl
  | thrown => simp at h
  | undefined => simp at h

theorem insert_aux_erase {T : Type} (v : vector T) (left : Option Nat) (position : Nat) (x : T)
    (u : Unit) (v1 : vector T) (l1 : Option Nat)
    (h : v.insert_aux left position x = (.ok u, v1, l1)) :
    v.insert_aux none position x = (.ok u, v1, none) := by
  unfold vector.insert_aux at h ⊢
  by_cases hfull : v.finish ≠ v.mem.length
  · rw [if_pos hfull] at h ⊢
    cases hs : slot v.mem (v.finish - 1) with
    | none => rw [hs] at h; simp at h
    | some back =>
      rw [hs] at h
      simp only at h ⊢
      by_cases h0 : v.finish = 0
      · rw [if_pos h0] at h; simp at h
      · rw [if_neg h0] at h ⊢
        rcases hq1 : construct v.finish back ⟨v.mem, left⟩ with ⟨o1, m1, l2⟩
        rw [hq1] at h
        cases o1 with
        | thrown => simp at h
        | undefined => simp at h
        | ok b1 =>
          rw [construct_erase _ _ _ _ _ _ hq1]
          simp only at h ⊢
          cases hsp : spend l2 with
          | none => rw [hsp] at h; simp at h
          | some l3 =>
            rw [hsp] at h
            simp only [spend] at h ⊢
            rcases hq2 : copy_backward position (v.finish + 1 - 2) (v.finish + 1 - 1) ⟨m1, l3⟩
              with ⟨o2, m2, l4⟩
            rw [hq2] at h
            cases o2 with
            | thrown => simp at h
            | undefined => simp at h
            | ok b2 =>
              rw [copy_backward_erase _ _ _ _ _ _ _ hq2]
              simp only at h ⊢
              rcases hq3 : assign_at position x ⟨m2, l4⟩ with ⟨o3, m3, l5⟩
              rw [hq3] at h
              cases o3 with
              | thrown => simp at h
              | undefined => simp at h
              | ok b3 =>
                rw [assign_at_erase _ _ _ _ _ _ hq3]
                cases h
                rfl
  · rw [if_neg hfull] at h ⊢
    simp only at h ⊢
    generalize (if v.size ≠ 0 then 2 * v.size else 1) = len at h ⊢
    rcases hq1 : uninitialized_copy (.other v.mem) v.begin position 0 ⟨allocate len, left⟩
      with ⟨o1, m1, l2⟩
    rw [hq1] at h
    cases o1 with
    | thrown => exact absurd h (unwind_not_ok _ _ _ _ _ _)
    | undefined => simp at h
    | ok nf1 =>
      rw [uninitialized_copy_erase _ _ _ _ _ _ _ _ hq1]
      simp only at h ⊢
      rcases hq2 : construct nf1 x ⟨m1, l2⟩ with ⟨o2, m2, l3⟩
      rw [hq2] at h
      cases o2 with
      | thrown => exact absurd h (unwind_not_ok _ _ _ _ _ _)
      | undefined => simp at h
      | ok b2 =>
        rw [construct_erase _ _ _ _ _ _ hq2]
        simp only at h ⊢
        rcases hq3 : uninitialized_copy (.other v.mem) position v.finish (nf1 + 1) ⟨m2, l3⟩
          with ⟨o3, m3, l4⟩
        rw [hq3] at h
        cases o3 with
        | thrown => exact absurd h (unwind_not_ok _ _ _ _ _ _)
        | undefined => simp at h
        | ok nf3 =>
          rw [uninitialized_copy_erase _ _ _ _ _ _ _ _ hq3]
          exact adopt_erase _ _ _ _ _ _ _ h

theorem push_back_erase {T : Type} (v : vector T) (left : Option Nat) (x : T)
    (u : Unit) (v1 : vector T) (l1 : Option Nat)
    (h : v.push_back left x = (.ok u, v1, l1)) :
    v.push_back none x = (.ok u, v1, none) := by
  unfold vector.push_back at h ⊢
  by_cases hfull : v.finish ≠ v.mem.length
  · rw [if_pos hfull] at h ⊢
    rcases hq1 : construct v.finish x ⟨v.mem, left⟩ with ⟨o1, m1, l2⟩
    rw [hq1] at h
    cases o1 with
    | thrown => simp at h
    | undefined => simp at h
    | ok b1 =>
      rw [construct_erase _ _ _ _ _ _ hq1]
      cases h
      rfl
  · rw [if_neg hfull] at h ⊢
    exact insert_aux_erase _ _ _ _ _ _ _ h

theorem push_back_all_erase {T : Type} (xs : List T) : ∀ (v : vector T) (left : Option Nat)
    (u : Unit) (v1 : vector T) (l1 : Option Nat),
    v.push_back_all left xs = (.ok u, v1, l1) → v.push_back_all none xs = (.ok u, v1, none) := by
  induction xs with
  | nil =>
    intro v left u v1 l1 h
    unfold vector.push_back_all at h ⊢
    cases h
    rfl
  | cons x xs ih =>
    intro v left u v1 l1 h
    unfold vector.push_back_all at h ⊢
    rcases hq : v.push_back left x with ⟨o, v2, l2⟩
    rw [hq] at h
    cases o with
    | thrown => simp at h
    | undefined => simp at h
    | ok b =>
      rw [push_back_erase _ _ _ _ _ _ hq]
      exact ih _ _ _ _ _ h

theorem insert_erase {T : Type} (v : vector T) (left : Option Nat) (position : Nat) (x : T)
    (r : Nat) (v1 : vector T) (l1 : Option Nat)
    (h : v.insert left position x = (.ok r, v1, l1)) :
    v.insert none position x = (.ok r, v1, none) := by
  unfold vector.insert at h ⊢
  simp only at h ⊢
  by_cases hc : v.finish ≠ v.mem.length ∧ position = v.finish
  · rw [if_pos hc] at h ⊢
    rcases hq1 : construct v.finish x ⟨v.mem, left⟩ with ⟨o1, m1, l2⟩
    rw [hq1] at h
    cases o1 with
    | thrown => simp at h
    | undefined => simp at h
    | ok b1 =>
      rw [construct_erase _ _ _ _ _ _ hq1]
      cases h
      rfl
  · rw [if_neg hc] at h ⊢
    rcases hq1 : v.insert_aux left position x with ⟨o1, v2, l2⟩
    rw [hq1] at h
    cases o1 with
    | thrown => simp at h
    | undefined => simp at h
    | ok b1 =>
      rw [insert_aux_erase _ _ _ _ _ _ _ hq1]
      cases h
      rfl

theorem insert_n_erase {T : Type} (v : vector T) (left : Option Nat) (position n : Nat) (x : T)
    (u : Unit) (v1 : vector T) (l1 : Option Nat)
    (h : v.insert_n left position n x = (.ok u, v1, l1)) :
    v.insert_n none position n x = (.ok u, v1, none) := by
  unfold vector.insert_n at h ⊢
  by_cases hn : n ≠ 0
  · rw [if_pos hn] at h ⊢
    by_cases hroom : v.mem.length - v.finish ≥ n
    · rw [if_pos hroom] at h ⊢
      cases hsp : spend left with
      | none => rw [hsp] at h; simp at h
      | some l0 =>
        rw [hsp] at h
        simp only [spend] at h ⊢
        by_cases hea : v.finish - position > n
        · rw [if_pos hea] at h ⊢
          rcases hq1 : uninitialized_copy .self (v.finish - n) v.finish v.finish ⟨v.mem, l0⟩
            with ⟨o1, m1, l2⟩
          rw [hq1] at h
          cases o1 with
          | thrown => simp at h
          | undefined => simp at h
          | ok b1 =>
            rw [uninitialized_copy_erase _ _ _ _ _ _ _ _ hq1]
            simp only at h ⊢
            rcases hq2 : copy_backward position (v.finish - n) v.finish ⟨m1, l2⟩
              with ⟨o2, m2, l3⟩
            rw [hq2] at h
            cases o2 with
            | thrown => simp at h
            | undefined => simp at h
            | ok b2 =>
              rw [copy_backward_erase _ _ _ _ _ _ _ hq2]
              simp only at h ⊢
              rcases hq3 : fill position (position + n) x ⟨m2, l3⟩ with ⟨o3, m3, l4⟩
              rw [hq3] at h
              cases o3 with
              | thrown => simp at h
              | undefined => simp at h
              | ok b3 =>
                rw [fill_erase _ _ _ _ _ _ _ hq3]
                cases h
                rfl
        · rw [if_neg hea] at h ⊢
          rcases hq1 : uninitialized_fill_n v.finish (n - (v.finish - position)) x ⟨v.mem, l0⟩
            with ⟨o1, m1, l2⟩
          rw [hq1] at h
          cases o1 with
          | thrown => simp at h
          | undefined => simp at h
          | ok b1 =>
            rw [uninitialized_fill_n_erase _ _ _ _ _ _ _ hq1]
            simp only at h ⊢
            rcases hq2 : uninitialized_copy .self position v.finish
              (v.finish + (n - (v.finish - position))) ⟨m1, l2⟩ with ⟨o2, m2, l3⟩
            rw [hq2] at h
            cases o2 with
            | thrown => simp at h
            | undefined => simp at h
            | ok b2 =>
              rw [uninitialized_copy_erase _ _ _ _ _ _ _ _ hq2]
              simp only at h ⊢
              rcases hq3 : fill position v.finish x ⟨m2, l3⟩ with ⟨o3, m3, l4⟩
              rw [hq3] at h
              cases o3 with
              | thrown => simp at h
              | undefined => simp at h
              | ok b3 =>
                rw [fill_erase _ _ _ _ _ _ _ hq3]
                cases h
                rfl
    · rw [if_neg hroom] at h ⊢
      simp only at h ⊢
      generalize (v.size + max v.size n) % 2 ^ 64 = len at h ⊢
      rcases hq1 : uninitialized_copy (.other v.mem) v.begin position 0 ⟨allocate len, left⟩
        with ⟨o1, m1, l2⟩
      rw [hq1] at h
      cases o1 with
      | thrown => exact absurd h (unwind_not_ok _ _ _ _ _ _)
      | undefined => simp at h
      | ok nf1 =>
        rw [uninitialized_copy_erase _ _ _ _ _ _ _ _ hq1]
        simp only at h ⊢
        rcases hq2 : uninitialized_fill_n nf1 n x ⟨m1, l2⟩ with ⟨o2, m2, l3⟩
        rw [hq2] at h
        cases o2 with
        | thrown => exact absurd h (unwind_not_ok _ _ _ _ _ _)
        | undefined => simp at h
        | ok nf2 =>
          rw [uninitialized_fill_n_erase _ _ _ _ _ _ _ hq2]
          simp only at h ⊢
          rcases hq3 : uninitialized_copy (.other v.mem) position v.finish nf2 ⟨m2, l3⟩
            with ⟨o3, m3, l4⟩
          rw [hq3] at h
          cases o3 with
          | thrown => exact absurd h (unwind_not_ok _ _ _ _ _ _)
          | undefined => simp at h
          | ok nf3 =>
            rw [uninitialized_copy_erase _ _ _ _ _ _ _ _ hq3]
            exact adopt_erase _ _ _ _ _ _ _ h
  · rw [if_neg hn] at h ⊢
    cases h
    rfl

theorem erase_range_erase {T : Type} (v : vector T) (left : Option Nat) (first last : Nat)
    (r : Nat) (v1 : vector T) (l1 : Option Nat)
    (h : v.erase_range left first last = (.ok r, v1, l1)) :
    v.erase_range none first last = (.ok r, v1, none) := by
  unfold vector.erase_range at h ⊢
  rcases hq1 : copy .self last v.finish first ⟨v.mem, left⟩ with ⟨o1, m1, l2⟩
  rw [hq1] at h
  cases o1 with
  | thrown => simp at h
  | undefined => simp at h
  | ok i =>
    rw [copy_erase _ _ _ _ _ _ _ _ hq1]
    simp only at h ⊢
    rcases hq2 : destroy_range i v.finish ⟨m1, l2⟩ with ⟨o2, m2, l3⟩
    rw [hq2] at h
    cases o2 with
    | thrown => simp at h
    | undefined => simp at h
    | ok b2 =>
      rw [destroy_range_erase _ _ _ _ _ _ hq2]
      cases h
      rfl

theorem allocate_and_copy_erase {T : Type} (n : Nat) (src : List (Option T)) (first last : Nat)
    (left : Option Nat) (tmp : List (Option T)) (l1 : Option Nat)
    (h : vector.allocate_and_copy n src first last left = (.ok tmp, l1)) :
    vector.allocate_and_copy n src first last none = (.ok tmp, none) := by
  unfold vector.allocate_and_copy at h ⊢
  rcases hq1 : uninitialized_copy (.other src) first last 0 ⟨allocate n, left⟩
    with ⟨o1, m1, l2⟩
  rw [hq1] at h
  cases o1 with
  | thrown => simp at h
  | undefined => simp at h
  | ok b1 =>
    rw [uninitialized_copy_erase _ _ _ _ _ _ _ _ hq1]
    cases h
    rfl

theorem assign_from_erase {T : Type} (v x : vector T) (left : Option Nat)
    (u : Unit) (v1 : vector T) (l1 : Option Nat)
    (h : v.assign_from x left = (.ok u, v1, l1)) :
    v.assign_from x none = (.ok u, v1, none) := by
  unfold vector.assign_from at h ⊢
  by_cases h1 : x.size > v.capacity
  · rw [if_pos h1] at h ⊢
    rcases hq1 : vector.allocate_and_copy (x.finish - x.begin) x.mem x.begin x.finish left
      with ⟨o1, l2⟩
    rw [hq1] at h
    cases o1 with
    | thrown => simp at h
    | undefined => simp at h
    | ok tmp =>
      rw [allocate_and_copy_erase _ _ _ _ _ _ _ hq1]
      simp only at h ⊢
      rcases hq2 : destroy_range v.begin v.finish ⟨v.mem, l2⟩ with ⟨o2, m2, l3⟩
      rw [hq2] at h
      cases o2 with
      | thrown => simp at h
      | undefined => simp at h
      | ok b2 =>
        rw [destroy_range_erase _ _ _ _ _ _ hq2]
        cases h
        rfl
  · rw [if_neg h1] at h ⊢
    by_cases h2 : v.size ≥ x.size
    · rw [if_pos h2] at h ⊢
      rcases hq1 : copy (.other x.mem) x.begin x.finish v.begin ⟨v.mem, left⟩
        with ⟨o1, m1, l2⟩
      rw [hq1] at h
      cases o1 with
      | thrown => simp at h
      | undefined => simp at h
      | ok i =>
        rw [copy_erase _ _ _ _ _ _ _ _ hq1]
        simp only at h ⊢
        rcases hq2 : destroy_range i v.finish ⟨m1, l2⟩ with ⟨o2, m2, l3⟩
        rw [hq2] at h
        cases o2 with
        | thrown => simp at h
        | undefined => simp at h
        | ok b2 =>
          rw [destroy_range_erase _ _ _ _ _ _ hq2]
          cases h
          rfl
    · rw [if_neg h2] at h ⊢
      rcases hq1 : copy (.other x.mem) x.begin (x.begin + v.size) v.begin ⟨v.mem, left⟩
        with ⟨o1, m1, l2⟩
      rw [hq1] at h
      cases o1 with
      | thrown => simp at h
      | undefined => simp at h
      | ok i =>
        rw [copy_erase _ _ _ _ _ _ _ _ hq1]
        simp only at h ⊢
        rcases hq2 : uninitialized_copy (.other x.mem) (x.begin + v.size) x.finish v.finish
          ⟨m1, l2⟩ with ⟨o2, m2, l3⟩
        rw [hq2] at h
        cases o2 with
        | thrown => simp at h
        | undefined => simp at h
        | ok b2 =>
          rw [uninitialized_copy_erase _ _ _ _ _ _ _ _ hq2]
          cases h
          rfl

theorem operator_assign_erase {T : Type} (st : Store T) (left : Option Nat) (me x : Nat)
    (u : Unit) (st1 : Store T) (l1 : Option Nat)
    (h : operator_assign st left me x = (.ok u, st1, l1)) :
    operator_assign st none me x = (.ok u, st1, none) := by
  unfold operator_assign at h ⊢
  by_cases hx : x ≠ me
  · rw [if_pos hx] at h ⊢
    rcases hq1 : (st me).assign_from (st x) left with ⟨o1, v1, l2⟩
    rw [hq1] at h
    cases o1 with
    | thrown => simp at h
    | undefined => simp at h
    | ok b1 =>
      rw [assign_from_erase _ _ _ _ _ _ hq1]
      cases h
      rfl
  · rw [if_neg hx] at h ⊢
    cases h
    rfl

/-! ## The count of `insert(pos, n, x)` in `size_t`

A construction that succeeds wrote inside its block, so a growth that returns had room for every
element in the block of `len` slots: the sum `old_size + max(old_size, n)` did not wrap. -/

theorem construct_inside {T : Type} {p : Nat} {x : T} {s s1 : Raw T} {u : Unit}
    (h : construct p x s = (.ok u, s1)) : p < s.mem.length ∧ s1.mem.length = s.mem.length := by
  unfold construct at h
  split at h
  · next hm =>
    have hp : p < s.mem.length := by
      by_contra hc
      rw [List.getElem?_eq_none (by omega)] at hm
      cases hm
    cases hsp : spend s.left with
    | none => rw [hsp] at h; simp at h
    | some l0 =>
      rw [hsp] at h
      simp only [Prod.mk.injEq] at h
      rw [← h.2]
      exact ⟨hp, List.length_set _ _ _⟩
  · simp at h

theorem uninitialized_copy_loop_inside {T : Type} (src : Src T) :
    ∀ (n first cur : Nat) (s s1 : Raw T) (u : Unit) (r : Nat),
      uninitialized_copy_loop src n first cur s = (.ok u, r, s1) →
      r = cur + n ∧ s1.mem.length = s.mem.length ∧ (0 < n → cur + n ≤ s.mem.length) := by
  intro n
  induction n with
  | zero =>
    intro first cur s s1 u r h
    simp only [uninitialized_copy_loop, Prod.mk.injEq] at h
    obtain ⟨_, h1, h2⟩ := h
    subst h1 h2
    exact ⟨rfl, rfl, fun h0 => absurd h0 (Nat.lt_irrefl 0)⟩
  | succ n ih =>
    intro first cur s s1 u r h
    unfold uninitialized_copy_loop at h
    cases hr : src.read s.mem first with
    | none => rw [hr] at h; simp at h
    | some a =>
      rw [hr] at h
      simp only at h
      rcases hq : construct cur a s with ⟨o, s2⟩
      rw [hq] at h
      cases o with
      | thrown => simp at h
      | undefined => simp at h
      | ok u2 =>
        obtain ⟨hc1, hc2⟩ := construct_inside hq
        obtain ⟨h1, h2, h3⟩ := ih _ _ _ _ _ _ h
        refine ⟨by omega, by rw [h2, hc2], fun _ => ?_⟩
        by_cases h0 : 0 < n
        · have := h3 h0
          omega
        · omega

theorem uninitialized_copy_inside {T : Type} (src : Src T) (first last result : Nat)
    (s s1 : Raw T) (r : Nat) (h : uninitialized_copy src first last result s = (.ok r, s1)) :
    first ≤ last ∧ r = result + (last - first) ∧ s1.mem.length = s.mem.length ∧
      (first < last → r ≤ s.mem.length) := by
  unfold uninitialized_copy at h
  by_cases hlt : last < first
  · rw [if_pos hlt] at h
    simp at h
  · rw [if_neg hlt] at h
    rcases hq : uninitialized_copy_loop src (last - first) first result s with ⟨o, cur, s2⟩
    rw [hq] at h
    cases o with
    | thrown =>
      simp only at h
      split at h <;> simp at h
    | undefined => simp at h
    | ok u =>
      simp only [Prod.mk.injEq, Outcome.ok.injEq] at h
      obtain ⟨h1, h2, h3⟩ := uninitialized_copy_loop_inside src _ _ _ _ _ _ _ hq
      obtain ⟨hr, hs⟩ := h
      subst hr hs
      exact ⟨by omega, h1, h2, fun hfl => by have := h3 (by omega); omega⟩

theorem uninitialized_fill_n_loop_inside {T : Type} (x : T) :
    ∀ (n cur : Nat) (s s1 : Raw T) (u : Unit) (r : Nat),
      uninitialized_fill_n_loop x n cur s = (.ok u, r, s1) →
      r = cur + n ∧ s1.mem.length = s.mem.length ∧ (0 < n → cur + n ≤ s.mem.length) := by
  intro n
  induction n with
  | zero =>
    intro cur s s1 u r h
    simp only [uninitialized_fill_n_loop, Prod.mk.injEq] at h
    obtain ⟨_, h1, h2⟩ := h
    subst h1 h2
    exact ⟨rfl, rfl, fun h0 => absurd h0 (Nat.lt_irrefl 0)⟩
  | succ n ih =>
    intro cur s s1 u r h
    unfold uninitialized_fill_n_loop at h
    rcases hq : construct cur x s with ⟨o, s2⟩
    rw [hq] at h
    cases o with
    | thrown => simp at h
    | undefined => simp at h
    | ok u2 =>
      obtain ⟨hc1, hc2⟩ := construct_inside hq
      obtain ⟨h1, h2, h3⟩ := ih _ _ _ _ _ h
      refine ⟨by omega, by rw [h2, hc2], fun _ => ?_⟩
      by_cases h0 : 0 < n
      · have := h3 h0
        omega
      · omega

theorem uninitialized_fill_n_inside {T : Type} (first n : Nat) (x : T) (s s1 : Raw T) (r : Nat)
    (h : uninitialized_fill_n first n x s = (.ok r, s1)) :
    r = first + n ∧ s1.mem.length = s.mem.length ∧ (0 < n → r ≤ s.mem.length) := by
  unfold uninitialized_fill_n at h
  rcases hq : uninitialized_fill_n_loop x n first s with ⟨o, cur, s2⟩
  rw [hq] at h
  cases o with
  | thrown =>
    simp only at h
    split at h <;> simp at h
  | undefined => simp at h
  | ok u =>
    simp only [Prod.mk.injEq, Outcome.ok.injEq] at h
    obtain ⟨h1, h2, h3⟩ := uninitialized_fill_n_loop_inside x _ _ _ _ _ _ hq
    obtain ⟨hr, hs⟩ := h
    subst hr hs
    exact ⟨h1, h2, fun hn => by have := h3 hn; omega⟩

/-- A growing `insert(pos, n, x)` that returns computed its `len` without wrap-around. -/
theorem insert_n_fits {T : Type} (v : vector T) (left : Option Nat) (position n : Nat) (x : T)
    (u : Unit) (v1 : vector T) (l1 : Option Nat) (hn : n ≠ 0)
    (hroom : v.mem.length - v.finish < n)
    (h : v.insert_n left position n x = (.ok u, v1, l1)) :
    v.finish + max v.finish n < 2 ^ 64 := by
  unfold vector.insert_n at h
  rw [if_pos hn, if_neg (show ¬ v.mem.length - v.finish ≥ n by omega)] at h
  simp only [vector.size, vector.begin, Nat.sub_zero] at h
  rcases hq1 : uninitialized_copy (.other v.mem) 0 position 0
    ⟨allocate ((v.finish + max v.finish n) % 2 ^ 64), left⟩ with ⟨o1, s1⟩
  rw [hq1] at h
  cases o1 with
  | thrown => exact absurd h (unwind_not_ok _ _ _ _ _ _)
  | undefined => simp at h
  | ok nf1 =>
    obtain ⟨_, hr1, hl1, _⟩ := uninitialized_copy_inside _ _ _ _ _ _ _ hq1
    simp only at h
    rcases hq2 : uninitialized_fill_n nf1 n x s1 with ⟨o2, s2⟩
    rw [hq2] at h
    cases o2 with
    | thrown => exact absurd h (unwind_not_ok _ _ _ _ _ _)
    | undefined => simp at h
    | ok nf2 =>
      obtain ⟨hr2, hl2, hb2⟩ := uninitialized_fill_n_inside _ _ _ _ _ _ hq2
      simp only at h
      rcases hq3 : uninitialized_copy (.other v.mem) position v.finish nf2 s2 with ⟨o3, s3⟩
      rw [hq3] at h
      cases o3 with
      | thrown => exact absurd h (unwind_not_ok _ _ _ _ _ _)
      | undefined => simp at h
      | ok nf3 =>
        obtain ⟨hpf, hr3, hl3, hb3⟩ := uninitialized_copy_inside _ _ _ _ _ _ _ hq3
        have hb2' := hb2 (by omega)
        simp only [length_allocate] at hl1
        by_cases hpe : position < v.finish
        · have hb3' := hb3 hpe
          omega
        · omega

/-- Every `insert(pos, n, x)` that returns leaves the spliced elements, in the block it had when
there was room and in one of `old_size + max(old_size, n)` slots otherwise. -/
theorem insert_n_returned {T : Type} (v : vector T) (l : List T) (h : v.holds l) (p n : Nat)
    (x : T) (hp : p ≤ l.length) (left : Option Nat) (u : Unit) (v1 : vector T)
    (l1 : Option Nat) (h1 : v.insert_n left p n x = (.ok u, v1, l1)) :
    v1.holds (l.take p ++ List.replicate n x ++ l.drop p) ∧
      v1.mem.length = (if n ≤ v.mem.length - v.finish then v.mem.length
        else l.length + max l.length n) ∧
      v.insert_n none p n x = (.ok u, v1, none) := by
  have h2 := insert_n_erase v left p n x u v1 l1 h1
  refine ⟨?_, ?_, h2⟩
  · by_cases hn : n = 0
    · subst hn
      simp only [vector.insert_n, ne_eq, not_true_eq_false, if_false, Prod.mk.injEq] at h2
      rw [← h2.2.1]
      simpa using h
    · by_cases hroom : n ≤ v.mem.length - v.finish
      · obtain ⟨v', he, hh, _⟩ := insert_n_in_place v l h p n x hp hn hroom
        rw [he] at h2
        cases h2
        exact hh
      · have hfit := insert_n_fits v left p n x u v1 l1 hn (by omega) h1
        rw [h.1] at hfit
        obtain ⟨v', he, hh, _⟩ := insert_n_grow v l h p n x hp hn (by omega) hfit
        rw [he] at h2
        cases h2
        exact hh
  · by_cases hn : n = 0
    · subst hn
      simp only [vector.insert_n, ne_eq, not_true_eq_false, if_false, Prod.mk.injEq] at h2
      rw [← h2.2.1]
      simp
    · by_cases hroom : n ≤ v.mem.length - v.finish
      · obtain ⟨v', he, _, hl⟩ := insert_n_in_place v l h p n x hp hn hroom
        rw [he] at h2
        cases h2
        rw [if_pos hroom, hl]
      · have hfit := insert_n_fits v left p n x u v1 l1 hn (by omega) h1
        rw [h.1] at hfit
        obtain ⟨v', he, _, hl⟩ := insert_n_grow v l h p n x hp hn (by omega) hfit
        rw [he] at h2
        cases h2
        rw [if_neg hroom, hl]

/-! ## Comparison -/

theorem equal_spec {T : Type} [DecidableEq T] (m1 m2 : List (Option T)) :
    ∀ (l1 l2 : List T) (f1 f2 : Nat), (∀ i, slot m1 (f1 + i) = l1[i]?) →
    (∀ i, slot m2 (f2 + i) = l2[i]?) → l1.length = l2.length →
    equal m1 m2 l1.length f1 f2 = some (decide (l1 = l2)) := by
  intro l1
  induction l1 with
  | nil =>
    intro l2 f1 f2 _ _ hl
    cases l2 with
    | nil => simp [equal]
    | cons b u => simp at hl
  | cons a t ih =>
    intro l2 f1 f2 h1 h2 hl
    cases l2 with
    | nil => simp at hl
    | cons b u =>
      have ha : slot m1 f1 = some a := by simpa using h1 0
      have hb : slot m2 f2 = some b := by simpa using h2 0
      simp only [List.length_cons, equal, ha, hb]
      by_cases hab : a = b
      · subst hab
        rw [if_pos rfl, ih u (f1 + 1) (f2 + 1)
          (fun i => by rw [Nat.add_assoc, Nat.add_comm 1 i]; simpa using h1 (i + 1))
          (fun i => by rw [Nat.add_assoc, Nat.add_comm 1 i]; simpa using h2 (i + 1))
          (by simpa using hl)]
        simp
      · rw [if_neg hab]
        simp [hab]

theorem operator_eq_holds {T : Type} [DecidableEq T] (x y : vector T) (lx ly : List T)
    (hx : x.holds lx) (hy : y.holds ly) : operator_eq x y = some (decide (lx = ly)) := by
  have hsx := holds_size hx
  have hsy := holds_size hy
  unfold operator_eq
  by_cases hs : x.size = y.size
  · rw [if_pos hs]
    have hl : lx.length = ly.length := by rw [← hsx, ← hsy, hs]
    have := equal_spec x.mem y.mem lx ly 0 0
      (fun i => by rw [Nat.zero_add]; exact holds_slot hx i)
      (fun i => by rw [Nat.zero_add]; exact holds_slot hy i) hl
    simpa [vector.begin, hx.1] using this
  · rw [if_neg hs]
    have : lx ≠ ly := by
      intro h
      apply hs
      rw [hsx, hsy, h]
    simp [this]

theorem list_eq_iff_index {T : Type} (l1 l2 : List T) :
    l1 = l2 ↔ l1.length = l2.length ∧ ∀ i, i < l1.length → l1[i]? = l2[i]? := by
  constructor
  · rintro rfl
    exact ⟨rfl, fun _ _ => rfl⟩
  · rintro ⟨hl, h⟩
    apply List.ext_getElem?
    intro i
    by_cases hi : i < l1.length
    · exact h i hi
    · rw [List.getElem?_eq_none (by omega), List.getElem?_eq_none (by omega)]

theorem lexicographical_compare_spec {T : Type} (lt : T → T → Bool)
    (hirr : ∀ a, lt a a = false) (htri : ∀ a b, lt a b = false → lt b a = false → a = b)
    (m1 m2 : List (Option T)) :
    ∀ (l1 l2 : List T) (f1 f2 : Nat), (∀ i, slot m1 (f1 + i) = l1[i]?) →
    (∀ i, slot m2 (f2 + i) = l2[i]?) →
    ∃ b, lexicographical_compare lt m1 m2 l1.length l2.length f1 f2 = some b ∧
      (b = true ↔
        (∃ i, i < l1.length ∧ i < l2.length ∧ (∀ j, j < i → l1[j]? = l2[j]?) ∧
          ∃ a c, l1[i]? = some a ∧ l2[i]? = some c ∧ lt a c = true) ∨
        (l1.length < l2.length ∧ ∀ j, j < l1.length → l1[j]? = l2[j]?)) := by
  intro l1
  induction l1 with
  | nil =>
    intro l2 f1 f2 _ _
    refine ⟨decide (l2.length ≠ 0), by simp [lexicographical_compare], ?_⟩
    simp [List.length_pos]
  | cons a t ih =>
    intro l2 f1 f2 h1 h2
    cases l2 with
    | nil =>
      refine ⟨false, by simp [lexicographical_compare], ?_⟩
      simp
    | cons b u =>
      have ha : slot m1 f1 = some a := by simpa using h1 0
      have hb : slot m2 f2 = some b := by simpa using h2 0
      simp only [List.length_cons, lexicographical_compare, ha, hb]
      by_cases hab : lt a b = true
      · refine ⟨true, by simp [hab], ?_⟩
        simp only [true_iff]
        left
        exact ⟨0, by simp, by simp, fun j hj => by omega, a, b, by simp, by simp, hab⟩
      · by_cases hba : lt b a = true
        · refine ⟨false, by simp [hab, hba], ?_⟩
          simp only [Bool.false_eq_true, false_iff]
          rintro (⟨i, _, _, hpre, a', c', hi1, hi2, hlt⟩ | ⟨_, hpre⟩)
          · cases i with
            | zero =>
              simp at hi1 hi2
              subst hi1; subst hi2
              exact hab hlt
            | succ i =>
              have := hpre 0 (by omega)
              simp at this
              subst this
              rw [hirr] at hba
              cases hba
          · have := hpre 0 (by simp)
            simp at this
            subst this
            rw [hirr] at hba
            cases hba
        · have heq : a = b := htri a b (by simpa using hab) (by simpa using hba)
          subst heq
          obtain ⟨r, hr, hiff⟩ := ih u (f1 + 1) (f2 + 1)
            (fun i => by rw [Nat.add_assoc, Nat.add_comm 1 i]; simpa using h1 (i + 1))
            (fun i => by rw [Nat.add_assoc, Nat.add_comm 1 i]; simpa using h2 (i + 1))
          refine ⟨r, by simp [hab, hr], ?_⟩
          rw [hiff]
          constructor
          · rintro (⟨i, hi1, hi2, hpre, a', c', ha', hc', hlt⟩ | ⟨hlen, hpre⟩)
            · left
              refine ⟨i + 1, by omega, by omega, fun j hj => ?_, a', c', by simpa using ha',
                by simpa using hc', hlt⟩
              cases j with
              | zero => simp
              | succ j => simpa using hpre j (by omega)
            · right
              refine ⟨by omega, fun j hj => ?_⟩
              cases j with
              | zero => simp
              | succ j => simpa using hpre j (by omega)
          · rintro (⟨i, hi1, hi2, hpre, a', c', ha', hc', hlt⟩ | ⟨hlen, hpre⟩)
            · cases i with
              | zero =>
                simp at ha' hc'
                subst ha'; subst hc'
                rw [hirr] at hlt
                cases hlt
              | succ i =>
                left
                refine ⟨i, by omega, by omega, fun j hj => ?_, a', c', by simpa using ha',
                  by simpa using hc', hlt⟩
                simpa using hpre (j + 1) (by omega)
            · right
              refine ⟨by omega, fun j hj => ?_⟩
              simpa using hpre (j + 1) (by omega)

/-! ## Single-element operations in place -/

theorem insert_in_place {T : Type} (v : vector T) (l : List T) (h : v.holds l) (p : Nat) (x : T)
    (hp : p ≤ l.length) (hroom : v.finish ≠ v.mem.length) :
    ∃ v', v.insert none p x = (.ok p, v', none) ∧ v'.holds (l.take p ++ [x] ++ l.drop p) ∧
      v'.mem.length = v.mem.length := by
  obtain ⟨hf, hcap, hsl⟩ := (holds_iff v l).1 h
  by_cases hpe : p = v.finish
  · have hc := construct_ok v.mem v.finish x none (by omega) (holds_raw h (by omega))
      (enough_none _)
    rw [minus_none] at hc
    refine ⟨⟨v.mem.set v.finish (some x), v.finish + 1⟩, ?_, ?_, ?_⟩
    · simp only [vector.insert, ne_eq, hroom, not_false_eq_true, hpe, and_self, if_true, hc,
        vector.begin, Nat.sub_zero, Nat.zero_add]
    · rw [holds_iff]
      refine ⟨by simp; omega, by simp; omega, fun i => ?_⟩
      have := getElem?_splice l [x] p hp i
      simp only [List.length_singleton] at this
      show slot (v.mem.set v.finish (some x)) i = _
      rw [this, slot_set, hsl, hf]
      split_ifs <;> first
        | rfl
        | omega
        | (rw [show i - p = 0 by omega]; rfl)
        | (rw [List.getElem?_eq_none (show l.length ≤ i by omega),
            List.getElem?_eq_none (show l.length ≤ i - 1 by omega)])
    · simp
  · have hback : slot v.mem (v.finish - 1) ≠ none := holds_live h (by omega)
    cases hb : slot v.mem (v.finish - 1) with
    | none => exact absurd hb hback
    | some back =>
      have hc := construct_ok v.mem v.finish back none (by omega) (holds_raw h (by omega))
        (enough_none _)
      rw [minus_none] at hc
      have hs1 : ∀ i, slot (v.mem.set v.finish (some back)) i =
          if i = v.finish then some back else slot v.mem i := by
        intro i
        rw [slot_set]
        split_ifs <;> first | rfl | omega
      obtain ⟨m2, he2, hl2, hs2⟩ := copy_backward_ok p (v.finish + 1 - 2) (v.finish + 1 - 1)
        (v.mem.set v.finish (some back)) none (by omega) (by omega)
        (fun i h1 h2 => by rw [hs1, if_neg (by omega)]; exact holds_live h (by omega))
        (enough_none _)
      have hlive2 : slot m2 p ≠ none := by
        rw [hs2]
        split_ifs
        · rw [hs1, if_neg (by omega)]; exact holds_live h (by omega)
        · rw [hs1, if_neg (by omega)]; exact holds_live h (by omega)
      have hc3 := assign_at_ok m2 p x none hlive2 (enough_none _)
      simp only [minus_none] at he2 hc3
      have hb' : l[l.length - 1]? = some back := by rw [← hsl, ← hf, hb]
      refine ⟨⟨m2.set p (some x), v.finish + 1⟩, ?_, ?_, ?_⟩
      · have hcond : ¬ (v.finish ≠ v.mem.length ∧ p = v.finish) := fun hh => hpe hh.2
        simp only [vector.insert, if_neg hcond, vector.insert_aux, ne_eq, hroom,
          not_false_eq_true, if_true, hb, if_neg (show ¬ v.finish = 0 by omega), hc, spend,
          he2, hc3, vector.begin, Nat.sub_zero, Nat.zero_add, true_and, hpe, if_false]
      · rw [holds_iff]
        refine ⟨by simp; omega, by simp [hl2]; omega, fun i => ?_⟩
        have := getElem?_splice l [x] p hp i
        simp only [List.length_singleton] at this
        show slot (m2.set p (some x)) i = _
        rw [this, slot_set, hs2, hs1, hs1, hsl, hsl, hl2, List.length_set, hf]
        split_ifs <;> first
          | rfl
          | omega
          | (congr 1; omega)
          | (rw [show i - p = 0 by omega]; rfl)
            | (rw [show i - 1 = l.length - 1 by omega, hb'])
          | (rw [List.getElem?_eq_none (show l.length ≤ i by omega),
              List.getElem?_eq_none (show l.length ≤ i - 1 by omega)])
      · simp [hl2]

theorem pop_back_holds {T : Type} (v : vector T) (l : List T) (h : v.holds l) (hne : l ≠ []) :
    ∃ v', v.pop_back none = (.ok (), v', none) ∧ v'.holds l.dropLast ∧
      v'.mem.length = v.mem.length := by
  obtain ⟨hf, hcap, hsl⟩ := (holds_iff v l).1 h
  have hpos : 0 < l.length := List.length_pos.2 hne
  have hd := destroy_ok (m := v.mem) (p := v.finish - 1) none (holds_live h (by omega))
  refine ⟨⟨v.mem.set (v.finish - 1) none, v.finish - 1⟩, ?_, ?_, ?_⟩
  · simp only [vector.pop_back, if_neg (show ¬ v.finish = 0 by omega), hd]
  · rw [holds_iff]
    refine ⟨by simp; omega, by simp; omega, fun i => ?_⟩
    show slot (v.mem.set (v.finish - 1) none) i = _
    rw [slot_set, hsl, List.getElem?_dropLast, hf]
    split_ifs <;> first
      | rfl
      | omega
      | (apply List.getElem?_eq_none; omega)
  · simp

theorem erase_holds {T : Type} (v : vector T) (l : List T) (h : v.holds l) (p : Nat)
    (hp : p < l.length) :
    ∃ v', v.erase none p = (.ok p, v', none) ∧ v'.holds (l.take p ++ l.drop (p + 1)) ∧
      v'.mem.length = v.mem.length := by
  obtain ⟨hf, hcap, hsl⟩ := (holds_iff v l).1 h
  obtain ⟨m1, he1, hl1, hs1⟩ : ∃ m1, (if p + 1 ≠ v.finish
        then copy .self (p + 1) v.finish p ⟨v.mem, none⟩ else (.ok p, ⟨v.mem, none⟩)) =
        (.ok (p + (v.finish - (p + 1))), ⟨m1, none⟩) ∧ m1.length = v.mem.length ∧
      ∀ i, slot m1 i = if p ≤ i ∧ i < p + (v.finish - (p + 1))
        then slot v.mem (p + 1 + (i - p)) else slot v.mem i := by
    by_cases hlast : p + 1 = v.finish
    · refine ⟨v.mem, ?_, rfl, fun i => ?_⟩
      · rw [if_neg (not_not.2 hlast)]
        simp only [Prod.mk.injEq, Outcome.ok.injEq, and_true]
        omega
      · rw [if_neg (by omega)]
    · obtain ⟨m1, he1, hl1, hs1⟩ := copy_ok .self (p + 1) v.finish p v.mem none (by omega)
        (fun i h1 h2 => holds_live h (by omega)) (fun i h1 h2 => holds_live h (by omega))
        (show p ≤ p + 1 by omega) (enough_none _)
      refine ⟨m1, ?_, hl1, hs1⟩
      rw [if_pos hlast]
      simpa [minus_none] using he1
  have hd := destroy_ok (m := m1) (p := v.finish - 1) none (by
    rw [hs1, if_neg (by omega)]; exact holds_live h (by omega))
  refine ⟨⟨m1.set (v.finish - 1) none, v.finish - 1⟩, ?_, ?_, ?_⟩
  · simp only [vector.erase, he1, if_neg (show ¬ v.finish = 0 by omega), hd]
  · rw [holds_iff]
    refine ⟨by simp; omega, by simp [hl1]; omega, fun i => ?_⟩
    show slot (m1.set (v.finish - 1) none) i = _
    rw [getElem?_cut l p (p + 1) (by omega) i, slot_set, hs1, hsl, hsl, hl1, hf]
    split_ifs <;> first
      | rfl
      | omega
      | (congr 1; omega)
      | (symm; apply List.getElem?_eq_none; omega)
      | (rw [List.getElem?_eq_none (show l.length ≤ i by omega),
          List.getElem?_eq_none (show l.length ≤ p + 1 + (i - p) by omega)])
  · simp [hl1]

/-! ## Construction, reserve, resize, clear -/

theorem allocate_and_copy_holds {T : Type} (n : Nat) (src : List (Option T)) (first last : Nat)
    (hfl : first ≤ last) (hn : last - first ≤ n)
    (hsrc : ∀ i, first ≤ i → i < last → slot src i ≠ none) :
    ∃ m1, vector.allocate_and_copy n src first last none = (.ok m1, none) ∧ m1.length = n ∧
      ∀ i, slot m1 i = if i < last - first then slot src (first + i) else none := by
  obtain ⟨m1, he1, hl1, hs1⟩ := uninitialized_copy_ok (.other src) first last 0 (allocate n)
    none hfl (by rw [length_allocate]; omega) (fun i _ _ => slot_allocate n i)
    (fun i h1 h2 => hsrc i h1 h2) trivial (enough_none _)
  simp only [Nat.zero_add, Nat.sub_zero, minus_none, Src.read, slot_allocate, length_allocate,
    Nat.zero_le, true_and] at he1 hl1 hs1
  exact ⟨m1, by simp only [vector.allocate_and_copy, he1], hl1, hs1⟩

theorem reserve_holds {T : Type} (v : vector T) (l : List T) (h : v.holds l) (n : Nat) :
    ∃ v', v.reserve none n = (.ok (), v', none) ∧ v'.holds l ∧
      v'.mem.length = max v.mem.length n := by
  obtain ⟨hf, hcap, hsl⟩ := (holds_iff v l).1 h
  by_cases hc : v.capacity < n
  · have hc' : v.mem.length < n := by simpa [vector.capacity, vector.begin] using hc
    obtain ⟨m1, he1, hl1, hs1⟩ := allocate_and_copy_holds n v.mem 0 v.finish (Nat.zero_le _)
      (by omega) (fun i _ hi => holds_live h (by omega))
    obtain ⟨m4, he4, _, _⟩ := destroy_range_ok 0 v.finish v.mem none
      (fun i _ hi => holds_live h (by omega))
    refine ⟨⟨m1, 0 + v.size⟩, ?_, ?_, ?_⟩
    · simp only [vector.reserve, hc, if_true, vector.begin, he1, he4]
    · rw [holds_iff]
      refine ⟨by simp [vector.size, vector.begin, hf], by simp [hl1]; omega, fun i => ?_⟩
      show slot m1 i = _
      rw [hs1, Nat.sub_zero, Nat.zero_add, hsl, hf]
      split_ifs <;> first
        | rfl
        | (symm; apply List.getElem?_eq_none; omega)
    · show m1.length = _
      omega
  · have hc' : n ≤ v.mem.length := by simpa [vector.capacity, vector.begin] using hc
    refine ⟨v, ?_, h, ?_⟩
    · simp only [vector.reserve, hc, if_false]
    · omega

theorem fill_initialize_holds {T : Type} (n : Nat) (x : T) :
    ∃ v, vector.fill_initialize n x none = (.ok v, none) ∧ v.holds (List.replicate n x) ∧
      v.mem.length = n := by
  obtain ⟨m1, he1, hl1, hs1⟩ := uninitialized_fill_n_ok 0 n x (allocate n) none
    (by rw [length_allocate]; omega) (fun i _ _ => slot_allocate n i) (enough_none _)
  simp only [Nat.zero_add, minus_none, slot_allocate, length_allocate, Nat.zero_le, true_and]
    at he1 hl1 hs1
  refine ⟨⟨m1, 0 + n⟩, ?_, ?_, hl1⟩
  · simp only [vector.fill_initialize, vector.allocate_and_fill, he1]
  · rw [holds_iff]
    refine ⟨by simp, by simp [hl1], fun i => ?_⟩
    show slot m1 i = _
    rw [hs1, List.getElem?_replicate]

theorem copy_construct_holds {T : Type} (x : vector T) (lx : List T) (hx : x.holds lx) :
    ∃ v, vector.copy_construct x none = (.ok v, none) ∧ v.holds lx ∧
      v.mem.length = lx.length := by
  obtain ⟨hf, hcap, hsl⟩ := (holds_iff x lx).1 hx
  obtain ⟨m1, he1, hl1, hs1⟩ := allocate_and_copy_holds (x.finish - 0) x.mem 0 x.finish
    (Nat.zero_le _) (Nat.le_refl _) (fun i _ hi => holds_live hx (by omega))
  refine ⟨⟨m1, 0 + (x.finish - 0)⟩, ?_, ?_, ?_⟩
  · simp only [vector.copy_construct, vector.begin, he1]
  · rw [holds_iff]
    refine ⟨by simp [hf], by simp [hl1, hf], fun i => ?_⟩
    show slot m1 i = _
    rw [hs1, Nat.sub_zero, Nat.zero_add, hsl, hf]
    split_ifs <;> first
      | rfl
      | (symm; apply List.getElem?_eq_none; omega)
  · show m1.length = _
    omega

/-- The range `[first, last)` of the block `src` holds the values `r`. -/
theorem range_slot {T : Type} {src : List (Option T)} {first last : Nat} {r : List T}
    (hfl : first ≤ last) (hlast : last ≤ src.length)
    (hr : (src.drop first).take (last - first) = r.map some) :
    r.length = last - first ∧ ∀ i, i < last - first → slot src (first + i) = r[i]? := by
  have hlen : r.length = last - first := by
    have := congrArg List.length hr
    simp at this
    omega
  refine ⟨hlen, fun i hi => ?_⟩
  have h1 : ((src.drop first).take (last - first))[i]? = (r.map some)[i]? := by rw [hr]
  rw [List.getElem?_take_of_lt hi, List.getElem?_drop, List.getElem?_map] at h1
  unfold slot
  rw [h1]
  cases r[i]? <;> rfl

theorem range_initialize_forward_holds {T : Type} (src : List (Option T)) (first last : Nat)
    (r : List T) (hfl : first ≤ last) (hlast : last ≤ src.length)
    (hr : (src.drop first).take (last - first) = r.map some) :
    ∃ v, vector.range_initialize_forward src first last none = (.ok v, none) ∧ v.holds r ∧
      v.mem.length = r.length := by
  obtain ⟨hlen, hsr⟩ := range_slot hfl hlast hr
  obtain ⟨m1, he1, hl1, hs1⟩ := allocate_and_copy_holds (last - first) src first last hfl
    (Nat.le_refl _) (fun i h1 h2 => by
      have := hsr (i - first) (by omega)
      rw [show first + (i - first) = i by omega] at this
      rw [this, List.getElem?_eq_getElem (by omega)]
      exact Option.some_ne_none _)
  refine ⟨⟨m1, 0 + (last - first)⟩, ?_, ?_, ?_⟩
  · simp only [vector.range_initialize_forward, he1]
  · rw [holds_iff]
    refine ⟨by simp [hlen], by simp [hl1, hlen], fun i => ?_⟩
    show slot m1 i = _
    rw [hs1]
    split_ifs with hi
    · exact hsr i hi
    · symm; apply List.getElem?_eq_none; omega
  · show m1.length = _
    omega

theorem clear_holds {T : Type} (v : vector T) (l : List T) (h : v.holds l) :
    ∃ v', v.clear none = (.ok (), v', none) ∧ v'.holds [] ∧ v'.mem.length = v.mem.length := by
  obtain ⟨v', he, hh, hl⟩ := erase_range_holds v l h 0 v.finish (Nat.zero_le _) (by rw [h.1])
  refine ⟨v', ?_, ?_, hl⟩
  · simp only [vector.clear, vector.begin, he]
  · rw [h.1] at hh
    simpa using hh

theorem resize_holds {T : Type} (v : vector T) (l : List T) (h : v.holds l) (k : Nat) (x : T)
    (hfit : k ≤ v.mem.length ∨ max k (2 * l.length) < 2 ^ 64) :
    ∃ v', v.resize none k x = (.ok (), v', none) ∧
      v'.holds (l.take k ++ List.replicate (k - l.length) x) ∧
      (k ≤ l.length → v'.mem.length = v.mem.length) := by
  have hsz := holds_size h
  have hf := h.1
  by_cases hlt : k < v.size
  · obtain ⟨v', he, hh, hl⟩ := erase_range_holds v l h k v.finish (by omega) (by omega)
    refine ⟨v', ?_, ?_, fun _ => hl⟩
    · simp only [vector.resize, hlt, if_true, vector.begin, Nat.zero_add, he]
    · rw [hf, List.drop_length] at hh
      rw [show k - l.length = 0 by omega]
      simpa using hh
  · have hk : l.length ≤ k := by omega
    have htake : l.take k = l := List.take_of_length_le hk
    by_cases hn : k - v.size = 0
    · refine ⟨v, ?_, ?_, fun _ => rfl⟩
      · simp only [vector.resize, hlt, if_false, vector.insert_n, hn, ne_eq, not_true_eq_false]
      · rw [htake, show k - l.length = 0 by omega]
        simpa using h
    · have hsplice : l.take v.finish ++ List.replicate (k - v.size) x ++ l.drop v.finish =
          l.take k ++ List.replicate (k - l.length) x := by
        rw [hf, hsz, List.take_length, List.drop_length, htake]
        simp
      by_cases hroom : k - v.size ≤ v.mem.length - v.finish
      · obtain ⟨v', he, hh, hl⟩ := insert_n_in_place v l h v.finish (k - v.size) x
          (by omega) hn hroom
        refine ⟨v', ?_, ?_, fun _ => hl⟩
        · simp only [vector.resize, hlt, if_false, he]
        · rwa [hsplice] at hh
      · obtain ⟨v', he, hh, hl⟩ := insert_n_grow v l h v.finish (k - v.size) x
          (by omega) hn (by omega) (by omega)
        refine ⟨v', ?_, ?_, fun hle => ?_⟩
        · simp only [vector.resize, hlt, if_false, he]
        · rwa [hsplice] at hh
        · omega

/-! ## Range insertion -/

theorem range_insert_forward_in_place {T : Type} (v : vector T) (l : List T) (h : v.holds l)
    (p : Nat) (src : List (Option T)) (first last : Nat) (r : List T) (hp : p ≤ l.length)
    (hfl : first < last) (hlast : last ≤ src.length)
    (hr : (src.drop first).take (last - first) = r.map some)
    (hroom : last - first ≤ v.mem.length - v.finish) :
    ∃ v', v.range_insert_forward none p src first last = (.ok (), v', none) ∧
      v'.holds (l.take p ++ r ++ l.drop p) ∧ v'.mem.length = v.mem.length := by
  obtain ⟨hf, hcap, hsl⟩ := (holds_iff v l).1 h
  obtain ⟨hlen, hsr⟩ := range_slot (Nat.le_of_lt hfl) hlast hr
  have hsrc : ∀ i, first ≤ i → i < last → slot src i ≠ none := by
    intro i h1 h2
    have := hsr (i - first) (by omega)
    rw [show first + (i - first) = i by omega] at this
    rw [this, List.getElem?_eq_getElem (by omega)]
    exact Option.some_ne_none _
  have hne : first ≠ last := by omega
  by_cases hea : v.finish - p > last - first
  · obtain ⟨m1, he1, hl1, hs1⟩ := uninitialized_copy_ok .self (v.finish - (last - first))
      v.finish v.finish v.mem none (by omega) (by omega)
      (fun i h1 h2 => holds_raw h (by omega))
      (fun i h1 h2 => holds_live h (by omega)) (Nat.le_refl _) (enough_none _)
    obtain ⟨m2, he2, hl2, hs2⟩ := copy_backward_ok p (v.finish - (last - first)) v.finish m1
      none (by omega) (by omega)
      (fun i h1 h2 => by rw [hs1, if_neg (by omega)]; exact holds_live h (by omega))
      (enough_none _)
    obtain ⟨m3, he3, hl3, hs3⟩ := copy_ok (.other src) first last p m2 none (by omega)
      (fun i h1 h2 => by
        rw [hs2, if_neg (by omega), hs1, if_neg (by omega)]
        exact holds_live h (by omega))
      hsrc trivial (enough_none _)
    simp only [minus_none] at he1 he2 he3
    refine ⟨⟨m3, v.finish + (last - first)⟩, ?_, ?_, ?_⟩
    · simp only [vector.range_insert_forward, ne_eq, hne, not_false_eq_true, if_true, ge_iff_le,
        hroom, gt_iff_lt, hea, he1, he2, he3]
    · rw [holds_iff]
      refine ⟨by simp; omega, by simp [hl3, hl2, hl1]; omega, fun i => ?_⟩
      have := getElem?_splice l r p hp i
      show slot m3 i = _
      rw [this]
      simp only [hs3, hs2, hs1, Src.read, hsl, hf, hlen]
      split_ifs <;> first
        | rfl
        | omega
        | (congr 1; omega)
        | (exact hsr _ (by omega))
        | (rw [List.getElem?_eq_none (show l.length ≤ i by omega),
            List.getElem?_eq_none (show l.length ≤ i - (last - first) by omega)])
    · show m3.length = _
      rw [hl3, hl2, hl1]
  · obtain ⟨m1, he1, hl1, hs1⟩ := uninitialized_copy_ok (.other src) (first + (v.finish - p))
      last v.finish v.mem none (by omega) (by omega)
      (fun i h1 h2 => holds_raw h (by omega))
      (fun i h1 h2 => hsrc i (by omega) h2) trivial (enough_none _)
    obtain ⟨m2, he2, hl2, hs2⟩ := uninitialized_copy_ok .self p v.finish
      (v.finish + (last - first - (v.finish - p))) m1 none (by omega) (by omega)
      (fun i h1 h2 => by rw [hs1, if_neg (by omega)]; exact holds_raw h (by omega))
      (fun i h1 h2 => by
        simp only [Src.read]
        rw [hs1, if_neg (by omega)]
        exact holds_live h (by omega))
      (show v.finish ≤ v.finish + (last - first - (v.finish - p)) by omega) (enough_none _)
    obtain ⟨m3, he3, hl3, hs3⟩ := copy_ok (.other src) first (first + (v.finish - p)) p m2
      none (by omega)
      (fun i h1 h2 => by
        rw [hs2, if_neg (by omega), hs1, if_neg (by omega)]
        exact holds_live h (by omega))
      (fun i h1 h2 => hsrc i h1 (by omega)) trivial (enough_none _)
    simp only [minus_none] at he1 he2 he3
    refine ⟨⟨m3, v.finish + (last - first - (v.finish - p)) + (v.finish - p)⟩, ?_, ?_, ?_⟩
    · simp only [vector.range_insert_forward, ne_eq, hne, not_false_eq_true, if_true, ge_iff_le,
        hroom, gt_iff_lt, hea, if_false, he1, he2, he3]
    · rw [holds_iff]
      refine ⟨by simp; omega, by simp [hl3, hl2, hl1]; omega, fun i => ?_⟩
      have := getElem?_splice l r p hp i
      show slot m3 i = _
      rw [this]
      simp only [hs3, hs2, hs1, Src.read, hsl, hf, hlen]
      split_ifs <;> first
        | rfl
        | omega
        | (congr 1; omega)
        | (exact hsr _ (by omega))
        | (rw [show first + (l.length - p) + (i - l.length) = first + (i - p) by omega]
           exact hsr _ (by omega))
        | (rw [List.getElem?_eq_none (show l.length ≤ i by omega),
            List.getElem?_eq_none (show l.length ≤ i - (last - first) by omega)])
    · show m3.length = _
      rw [hl3, hl2, hl1]

theorem range_insert_forward_grow {T : Type} (v : vector T) (l : List T) (h : v.holds l)
    (p : Nat) (src : List (Option T)) (first last : Nat) (r : List T) (hp : p ≤ l.length)
    (hfl : first < last) (hlast : last ≤ src.length)
    (hr : (src.drop first).take (last - first) = r.map some)
    (hroom : v.mem.length - v.finish < last - first) :
    ∃ v', v.range_insert_forward none p src first last = (.ok (), v', none) ∧
      v'.holds (l.take p ++ r ++ l.drop p) ∧
      v'.mem.length = l.length + max l.length (last - first) := by
  obtain ⟨hf, hcap, hsl⟩ := (holds_iff v l).1 h
  obtain ⟨hlen, hsr⟩ := range_slot (Nat.le_of_lt hfl) hlast hr
  have hsrc : ∀ i, first ≤ i → i < last → slot src i ≠ none := by
    intro i h1 h2
    have := hsr (i - first) (by omega)
    rw [show first + (i - first) = i by omega] at this
    rw [this, List.getElem?_eq_getElem (by omega)]
    exact Option.some_ne_none _
  have hne : first ≠ last := by omega
  generalize hL : l.length + max l.length (last - first) = len
  have hlen' : l.length + (last - first) ≤ len := by omega
  obtain ⟨m1, he1, hl1, hs1⟩ := uninitialized_copy_ok (.other v.mem) 0 p 0 (allocate len) none
    (Nat.zero_le _) (by rw [length_allocate]; omega) (fun i _ _ => slot_allocate len i)
    (fun i _ hi => holds_live h (by omega)) trivial (enough_none _)
  simp only [Nat.zero_add, Nat.sub_zero, minus_none, Src.read, slot_allocate, length_allocate,
    Nat.zero_le, true_and] at he1 hl1 hs1
  obtain ⟨m2, he2, hl2, hs2⟩ := uninitialized_copy_ok (.other src) first last p m1 none
    (by omega) (by omega) (fun i h1 h2 => by rw [hs1, if_neg (by omega)]) hsrc trivial
    (enough_none _)
  obtain ⟨m3, he3, hl3, hs3⟩ := uninitialized_copy_ok (.other v.mem) p v.finish
    (p + (last - first)) m2 none (by omega) (by omega)
    (fun i h1 h2 => by rw [hs2, if_neg (by omega), hs1, if_neg (by omega)])
    (fun i _ hi => holds_live h (by omega)) trivial (enough_none _)
  simp only [minus_none, Src.read] at he2 he3 hs2 hs3
  obtain ⟨m4, he4, _, _⟩ := destroy_range_ok 0 v.finish v.mem none
    (fun i _ hi => holds_live h (by omega))
  refine ⟨⟨m3, p + (last - first) + (v.finish - p)⟩, ?_, ?_, ?_⟩
  · simp only [vector.range_insert_forward, ne_eq, hne, not_false_eq_true, if_true, ge_iff_le,
      if_neg (show ¬ last - first ≤ v.mem.length - v.finish by omega), vector.size,
      vector.begin, Nat.sub_zero]
    rw [hf, hL, he1]
    simp only [he2]
    rw [← hf, he3]
    simp only [vector.adopt, vector.begin, he4]
  · rw [holds_iff]
    refine ⟨by simp; omega, by simp [hl3, hl2, hl1]; omega, fun i => ?_⟩
    have := getElem?_splice l r p hp i
    show slot m3 i = _
    rw [this]
    simp only [hs3, hs2, hs1, hsl, hf, hlen]
    split_ifs <;> first
      | rfl
      | omega
      | (congr 1; omega)
      | (exact hsr _ (by omega))
      | (symm; apply List.getElem?_eq_none; omega)
  · show m3.length = len
    rw [hl3, hl2, hl1]

theorem insert_holds {T : Type} (v : vector T) (l : List T) (h : v.holds l) (p : Nat) (x : T)
    (hp : p ≤ l.length) :
    ∃ v', v.insert none p x = (.ok p, v', none) ∧ v'.holds (l.take p ++ [x] ++ l.drop p) := by
  by_cases hfull : v.finish = v.mem.length
  · obtain ⟨v', he, hh, _⟩ := insert_aux_grow v l h hfull p hp x
    refine ⟨v', ?_, hh⟩
    simp only [vector.insert, hfull, ne_eq, not_true_eq_false, false_and, if_false, he,
      vector.begin, Nat.sub_zero, Nat.zero_add]
  · obtain ⟨v', he, hh, _⟩ := insert_in_place v l h p x hp hfull
    exact ⟨v', he, hh⟩

theorem splice_step {T : Type} (l : List T) (p : Nat) (x : T) (rest : List T)
    (hp : p ≤ l.length) :
    (l.take p ++ [x] ++ l.drop p).take (p + 1) ++ rest ++ (l.take p ++ [x] ++ l.drop p).drop (p + 1)
      = l.take p ++ (x :: rest) ++ l.drop p := by
  have hlen : (l.take p ++ [x]).length = p + 1 := by
    rw [List.length_append, List.length_take, List.length_singleton]
    omega
  rw [List.take_left' hlen, List.drop_left' hlen]
  simp

theorem range_insert_input_holds {T : Type} (r : List T) : ∀ (v : vector T) (l : List T)
    (p : Nat), v.holds l → p ≤ l.length →
    ∃ v', v.range_insert_input none p r = (.ok (), v', none) ∧
      v'.holds (l.take p ++ r ++ l.drop p) := by
  induction r with
  | nil =>
    intro v l p h _
    exact ⟨v, rfl, by simpa using h⟩
  | cons x rest ih =>
    intro v l p h hp
    obtain ⟨v1, he1, hh1⟩ := insert_holds v l h p x hp
    obtain ⟨v2, he2, hh2⟩ := ih v1 (l.take p ++ [x] ++ l.drop p) (p + 1) hh1 (by
      simp
      omega)
    refine ⟨v2, ?_, ?_⟩
    · simp only [vector.range_insert_input, he1, he2]
    · rwa [splice_step l p x rest hp] at hh2

theorem range_insert_input_erase {T : Type} (r : List T) : ∀ (v : vector T) (left : Option Nat)
    (pos : Nat) (u : Unit) (v1 : vector T) (l1 : Option Nat),
    v.range_insert_input left pos r = (.ok u, v1, l1) →
    v.range_insert_input none pos r = (.ok u, v1, none) := by
  induction r with
  | nil =>
    intro v left pos u v1 l1 h
    unfold vector.range_insert_input at h ⊢
    cases h
    rfl
  | cons x rest ih =>
    intro v left pos u v1 l1 h
    unfold vector.range_insert_input at h ⊢
    rcases hq : v.insert left pos x with ⟨o, v2, l2⟩
    rw [hq] at h
    cases o with
    | thrown => simp at h
    | undefined => simp at h
    | ok b =>
      rw [insert_erase _ _ _ _ _ _ _ hq]
      exact ih _ _ _ _ _ _ h

theorem range_insert_forward_erase {T : Type} (v : vector T) (left : Option Nat)
    (position : Nat) (src : List (Option T)) (first last : Nat)
    (u : Unit) (v1 : vector T) (l1 : Option Nat)
    (h : v.range_insert_forward left position src first last = (.ok u, v1, l1)) :
    v.range_insert_forward none position src first last = (.ok u, v1, none) := by
  unfold vector.range_insert_forward at h ⊢
  by_cases hn : first ≠ last
  · rw [if_pos hn] at h ⊢
    simp only at h ⊢
    by_cases hroom : v.mem.length - v.finish ≥ last - first
    · rw [if_pos hroom] at h ⊢
      by_cases hea : v.finish - position > last - first
      · rw [if_pos hea] at h ⊢
        rcases hq1 : uninitialized_copy .self (v.finish - (last - first)) v.finish v.finish
          ⟨v.mem, left⟩ with ⟨o1, m1, l2⟩
        rw [hq1] at h
        cases o1 with
        | thrown => simp at h
        | undefined => simp at h
        | ok b1 =>
          rw [uninitialized_copy_erase _ _ _ _ _ _ _ _ hq1]
          simp only at h ⊢
          rcases hq2 : copy_backward position (v.finish - (last - first)) v.finish ⟨m1, l2⟩
            with ⟨o2, m2, l3⟩
          rw [hq2] at h
          cases o2 with
          | thrown => simp at h
          | undefined => simp at h
          | ok b2 =>
            rw [copy_backward_erase _ _ _ _ _ _ _ hq2]
            simp only at h ⊢
            rcases hq3 : copy (.other src) first last position ⟨m2, l3⟩ with ⟨o3, m3, l4⟩
            rw [hq3] at h
            cases o3 with
            | thrown => simp at h
            | undefined => simp at h
            | ok b3 =>
              rw [copy_erase _ _ _ _ _ _ _ _ hq3]
              cases h
              rfl
      · rw [if_neg hea] at h ⊢
        rcases hq1 : uninitialized_copy (.other src) (first + (v.finish - position)) last
          v.finish ⟨v.mem, left⟩ with ⟨o1, m1, l2⟩
        rw [hq1] at h
        cases o1 with
        | thrown => simp at h
        | undefined => simp at h
        | ok b1 =>
          rw [uninitialized_copy_erase _ _ _ _ _ _ _ _ hq1]
          simp only at h ⊢
          rcases hq2 : uninitialized_copy .self position v.finish
            (v.finish + (last - first - (v.finish - position))) ⟨m1, l2⟩ with ⟨o2, m2, l3⟩
          rw [hq2] at h
          cases o2 with
          | thrown => simp at h
          | undefined => simp at h
          | ok b2 =>
            rw [uninitialized_copy_erase _ _ _ _ _ _ _ _ hq2]
            simp only at h ⊢
            rcases hq3 : copy (.other src) first (first + (v.finish - position)) position
              ⟨m2, l3⟩ with ⟨o3, m3, l4⟩
            rw [hq3] at h
            cases o3 with
            | thrown => simp at h
            | undefined => simp at h
            | ok b3 =>
              rw [copy_erase _ _ _ _ _ _ _ _ hq3]
              cases h
              rfl
    · rw [if_neg hroom] at h ⊢
      generalize v.size + max v.size (last - first) = len at h ⊢
      rcases hq1 : uninitialized_copy (.other v.mem) v.begin position 0 ⟨allocate len, left⟩
        with ⟨o1, m1, l2⟩
      rw [hq1] at h
      cases o1 with
      | thrown => exact absurd h (unwind_not_ok _ _ _ _ _ _)
      | undefined => simp at h
      | ok nf1 =>
        rw [uninitialized_copy_erase _ _ _ _ _ _ _ _ hq1]
        simp only at h ⊢
        rcases hq2 : uninitialized_copy (.other src) first last nf1 ⟨m1, l2⟩
          with ⟨o2, m2, l3⟩
        rw [hq2] at h
        cases o2 with
        | thrown => exact absurd h (unwind_not_ok _ _ _ _ _ _)
        | undefined => simp at h
        | ok nf2 =>
          rw [uninitialized_copy_erase _ _ _ _ _ _ _ _ hq2]
          simp only at h ⊢
          rcases hq3 : uninitialized_copy (.other v.mem) position v.finish nf2 ⟨m2, l3⟩
            with ⟨o3, m3, l4⟩
          rw [hq3] at h
          cases o3 with
          | thrown => exact absurd h (unwind_not_ok _ _ _ _ _ _)
          | undefined => simp at h
          | ok nf3 =>
            rw [uninitialized_copy_erase _ _ _ _ _ _ _ _ hq3]
            exact adopt_erase _ _ _ _ _ _ _ h
  · rw [if_neg hn] at h ⊢
    cases h
    rfl

theorem resize_erase {T : Type} (v : vector T) (left : Option Nat) (new_size : Nat) (x : T)
    (u : Unit) (v1 : vector T) (l1 : Option Nat)
    (h : v.resize left new_size x = (.ok u, v1, l1)) :
    v.resize none new_size x = (.ok u, v1, none) := by
  unfold vector.resize at h ⊢
  by_cases hlt : new_size < v.size
  · rw [if_pos hlt] at h ⊢
    rcases hq : v.erase_range left (v.begin + new_size) v.finish with ⟨o, v2, l2⟩
    rw [hq] at h
    cases o with
    | thrown => simp at h
    | undefined => simp at h
    | ok b =>
      rw [erase_range_erase _ _ _ _ _ _ _ hq]
      cases h
      rfl
  · rw [if_neg hlt] at h ⊢
    exact insert_n_erase _ _ _ _ _ _ _ _ h

theorem clear_erase {T : Type} (v : vector T) (left : Option Nat)
    (u : Unit) (v1 : vector T) (l1 : Option Nat)
    (h : v.clear left = (.ok u, v1, l1)) : v.clear none = (.ok u, v1, none) := by
  unfold vector.clear at h ⊢
  rcases hq : v.erase_range left v.begin v.finish with ⟨o, v2, l2⟩
  rw [hq] at h
  cases o with
  | thrown => simp at h
  | undefined => simp at h
  | ok b =>
    rw [erase_range_erase _ _ _ _ _ _ _ hq]
    cases h
    rfl

theorem reserve_erase {T : Type} (v : vector T) (left : Option Nat) (n : Nat)
    (u : Unit) (v1 : vector T) (l1 : Option Nat)
    (h : v.reserve left n = (.ok u, v1, l1)) : v.reserve none n = (.ok u, v1, none) := by
  unfold vector.reserve at h ⊢
  by_cases hc : v.capacity < n
  · rw [if_pos hc] at h ⊢
    simp only at h ⊢
    rcases hq1 : vector.allocate_and_copy n v.mem v.begin v.finish left with ⟨o1, l2⟩
    rw [hq1] at h
    cases o1 with
    | thrown => simp at h
    | undefined => simp at h
    | ok tmp =>
      rw [allocate_and_copy_erase _ _ _ _ _ _ _ hq1]
      simp only at h ⊢
      rcases hq2 : destroy_range v.begin v.finish ⟨v.mem, l2⟩ with ⟨o2, m2, l3⟩
      rw [hq2] at h
      cases o2 with
      | thrown => simp at h
      | undefined => simp at h
      | ok b2 =>
        rw [destroy_range_erase _ _ _ _ _ _ hq2]
        cases h
        rfl
  · rw [if_neg hc] at h ⊢
    cases h
    rfl

theorem pop_back_erase {T : Type} (v : vector T) (left : Option Nat)
    (u : Unit) (v1 : vector T) (l1 : Option Nat)
    (h : v.pop_back left = (.ok u, v1, l1)) : v.pop_back none = (.ok u, v1, none) := by
  unfold vector.pop_back at h ⊢
  by_cases h0 : v.finish = 0
  · rw [if_pos h0] at h; simp at h
  · rw [if_neg h0] at h ⊢
    simp only at h ⊢
    rcases hq : destroy (v.finish - 1) ⟨v.mem, left⟩ with ⟨o, m1, l2⟩
    rw [hq] at h
    cases o with
    | thrown => simp at h
    | undefined => simp at h
    | ok b =>
      rw [destroy_erase _ _ _ _ _ hq]
      cases h
      rfl

theorem erase_erase {T : Type} (v : vector T) (left : Option Nat) (position : Nat)
    (r : Nat) (v1 : vector T) (l1 : Option Nat)
    (h : v.erase left position = (.ok r, v1, l1)) : v.erase none position = (.ok r, v1, none) := by
  unfold vector.erase at h ⊢
  have key : ∀ (o1 : Outcome Nat) (m1 : List (Option T)) (l2 : Option Nat),
      (if position + 1 ≠ v.finish then copy Src.self (position + 1) v.finish position
          ⟨v.mem, left⟩ else (.ok position, ⟨v.mem, left⟩)) = (o1, ⟨m1, l2⟩) →
      ∀ b, o1 = .ok b →
      (if position + 1 ≠ v.finish then copy Src.self (position + 1) v.finish position
          ⟨v.mem, none⟩ else (.ok position, ⟨v.mem, none⟩)) = (.ok b, ⟨m1, none⟩) := by
    intro o1 m1 l2 hq b hb
    subst hb
    by_cases hc : position + 1 ≠ v.finish
    · rw [if_pos hc] at hq ⊢
      exact copy_erase _ _ _ _ _ _ _ _ hq
    · rw [if_neg hc] at hq ⊢
      cases hq
      rfl
  rcases hq : (if position + 1 ≠ v.finish then copy Src.self (position + 1) v.finish position
      ⟨v.mem, left⟩ else (.ok position, ⟨v.mem, left⟩)) with ⟨o1, m1, l2⟩
  rw [hq] at h
  cases o1 with
  | thrown => simp at h
  | undefined => simp at h
  | ok b1 =>
    rw [key _ _ _ hq b1 rfl]
    simp only at h ⊢
    by_cases h0 : v.finish = 0
    · rw [if_pos h0] at h; simp at h
    · rw [if_neg h0] at h ⊢
      rcases hq2 : destroy (v.finish - 1) ⟨m1, l2⟩ with ⟨o2, m2, l3⟩
      rw [hq2] at h
      cases o2 with
      | thrown => simp at h
      | undefined => simp at h
      | ok b2 =>
        rw [destroy_erase _ _ _ _ _ hq2]
        cases h
        rfl

/-! ## The invariant, slot by slot -/

theorem valid_iff {T : Type} (v : vector T) :
    v.valid ↔ v.finish ≤ v.mem.length ∧ (∀ i, i < v.finish → slot v.mem i ≠ none) ∧
      (∀ i, v.finish ≤ i → slot v.mem i = none) := by
  unfold vector.valid
  simp only [vector.size, vector.capacity, vector.begin, Nat.sub_zero, List.all_eq_true]
  constructor
  · rintro ⟨hle, h1, h2⟩
    refine ⟨hle, fun i hi => ?_, fun i hi => ?_⟩
    · have hmem : v.mem[i]? = some (v.mem.get ⟨i, by omega⟩) :=
        List.getElem?_eq_getElem (by omega)
      have := h1 (v.mem.get ⟨i, by omega⟩) (by
        rw [List.mem_iff_getElem?]
        exact ⟨i, by rw [List.getElem?_take_of_lt hi, hmem]⟩)
      unfold slot
      rw [hmem]
      cases hx : v.mem.get ⟨i, by omega⟩ with
      | none => rw [hx] at this; simp at this
      | some a => simp
    · by_cases hlen : i < v.mem.length
      · have hmem : v.mem[i]? = some (v.mem.get ⟨i, hlen⟩) := List.getElem?_eq_getElem hlen
        have := h2 (v.mem.get ⟨i, hlen⟩) (by
          rw [List.mem_iff_getElem?]
          exact ⟨i - v.finish, by
            rw [List.getElem?_drop, show v.finish + (i - v.finish) = i by omega, hmem]⟩)
        unfold slot
        rw [hmem]
        cases hx : v.mem.get ⟨i, hlen⟩ with
        | none => rfl
        | some a => rw [hx] at this; simp at this
      · exact slot_of_le (by omega)
  · rintro ⟨hle, h1, h2⟩
    refine ⟨hle, fun o ho => ?_, fun o ho => ?_⟩
    · rw [List.mem_iff_getElem?] at ho
      obtain ⟨i, hi⟩ := ho
      have hlt : i < v.finish := by
        by_contra hc
        rw [List.getElem?_take_eq_none (by omega)] at hi
        cases hi
      rw [List.getElem?_take_of_lt hlt] at hi
      cases o with
      | some a => rfl
      | none => exact absurd (by unfold slot; rw [hi]) (h1 i hlt)
    · rw [List.mem_iff_getElem?] at ho
      obtain ⟨i, hi⟩ := ho
      rw [List.getElem?_drop] at hi
      cases o with
      | none => rfl
      | some a =>
        have := h2 (v.finish + i) (by omega)
        rw [slot_eq_some.2 hi] at this
        cases this

theorem valid_of_holds {T : Type} {v : vector T} {l : List T} (h : v.holds l) : v.valid := by
  rw [valid_iff]
  obtain ⟨hf, hcap, _⟩ := (holds_iff v l).1 h
  exact ⟨by omega, fun i hi => holds_live h (by omega), fun i hi => holds_raw h (by omega)⟩

theorem exists_list_of_live {T : Type} (m : List (Option T)) : ∀ f : Nat,
    (∀ i, i < f → slot m i ≠ none) →
    ∃ l : List T, l.length = f ∧ ∀ i, i < f → slot m i = l[i]? := by
  intro f
  induction f with
  | zero => intro _; exact ⟨[], rfl, fun i hi => by omega⟩
  | succ f ih =>
    intro hlive
    obtain ⟨l, hl, hs⟩ := ih (fun i hi => hlive i (by omega))
    cases ha : slot m f with
    | none => exact absurd ha (hlive f (by omega))
    | some a =>
      refine ⟨l ++ [a], by simp [hl], fun i hi => ?_⟩
      by_cases hif : i < f
      · rw [hs i hif, List.getElem?_append_left (by omega)]
      · have : i = f := by omega
        subst this
        rw [ha, List.getElem?_append_right (by omega), hl, Nat.sub_self]
        rfl

theorem holds_of_valid {T : Type} {v : vector T} (h : v.valid) : ∃ l, v.holds l := by
  rw [valid_iff] at h
  obtain ⟨hle, h1, h2⟩ := h
  obtain ⟨l, hl, hs⟩ := exists_list_of_live v.mem v.finish h1
  refine ⟨l, (holds_iff v l).2 ⟨hl.symm, by omega, fun i => ?_⟩⟩
  by_cases hi : i < v.finish
  · exact hs i hi
  · rw [h2 i (by omega), List.getElem?_eq_none (by omega)]

theorem valid_size_le {T : Type} {v : vector T} (h : v.valid) : v.size ≤ v.capacity := h.1

/-! ## Calls in which a copy may throw -/

theorem same_shape_refl {T : Type} (m : List (Option T)) : same_shape m m :=
  ⟨rfl, fun _ => Iff.rfl⟩

theorem same_shape_trans {T : Type} {m1 m2 m3 : List (Option T)} (h12 : same_shape m1 m2)
    (h23 : same_shape m2 m3) : same_shape m1 m3 :=
  ⟨h12.1.trans h23.1, fun i => (h12.2 i).trans (h23.2 i)⟩

theorem same_shape_set {T : Type} (m : List (Option T)) (p : Nat) (x : T)
    (hlive : slot m p ≠ none) : same_shape (m.set p (some x)) m := by
  refine ⟨List.length_set _ _ _, fun i => ?_⟩
  rw [slot_set]
  by_cases hi : i = p ∧ p < m.length
  · rw [if_pos hi, hi.1]
    simp [hlive]
  · rw [if_neg hi]

theorem read_same_shape {T : Type} (src : Src T) {m' m : List (Option T)}
    (h : same_shape m' m) (j : Nat) : src.read m' j ≠ none ↔ src.read m j ≠ none := by
  cases src with
  | self => exact not_congr (h.2 j)
  | other s => exact Iff.rfl

theorem valid_of_same_shape {T : Type} {m' m : List (Option T)} (h : same_shape m' m)
    (f : Nat) (hv : (⟨m, f⟩ : vector T).valid) : (⟨m', f⟩ : vector T).valid := by
  rw [valid_iff] at hv ⊢
  obtain ⟨hle, h1, h2⟩ := hv
  refine ⟨by rw [h.1]; exact hle, fun i hi => ?_, fun i hi => ?_⟩
  · exact fun hc => h1 i hi ((h.2 i).1 hc)
  · exact (h.2 i).2 (h2 i hi)

theorem assign_at_any {T : Type} (m : List (Option T)) (p : Nat) (x : T) (left : Option Nat)
    (hlive : slot m p ≠ none) :
    ∃ o m' l', assign_at p x ⟨m, left⟩ = (o, ⟨m', l'⟩) ∧ (o = .ok () ∨ o = .thrown) ∧
      same_shape m' m := by
  cases hs : slot m p with
  | none => exact absurd hs hlive
  | some b =>
    cases hsp : spend left with
    | none =>
      exact ⟨.thrown, m, left, by simp only [assign_at, slot_eq_some.1 hs, hsp], Or.inr rfl,
        same_shape_refl m⟩
    | some l =>
      exact ⟨.ok (), m.set p (some x), l, by simp only [assign_at, slot_eq_some.1 hs, hsp],
        Or.inl rfl, same_shape_set m p x hlive⟩

theorem fill_loop_any {T : Type} (value : T) :
    ∀ (n first : Nat) (m : List (Option T)) (left : Option Nat),
    (∀ i, first ≤ i → i < first + n → slot m i ≠ none) →
    ∃ o m' l', fill_loop value n first ⟨m, left⟩ = (o, ⟨m', l'⟩) ∧
      (o = .ok () ∨ o = .thrown) ∧ same_shape m' m := by
  intro n
  induction n with
  | zero =>
    intro first m left _
    exact ⟨.ok (), m, left, rfl, Or.inl rfl, same_shape_refl m⟩
  | succ n ih =>
    intro first m left hlive
    obtain ⟨o1, m1, l1, he1, ho1, hsh1⟩ := assign_at_any m first value left
      (hlive first (Nat.le_refl _) (by omega))
    rcases ho1 with rfl | rfl
    · obtain ⟨o2, m2, l2, he2, ho2, hsh2⟩ := ih (first + 1) m1 l1 (fun i h1 h2 hc =>
        hlive i (by omega) (by omega) ((hsh1.2 i).1 hc))
      exact ⟨o2, m2, l2, by simp only [fill_loop, he1, he2], ho2, same_shape_trans hsh2 hsh1⟩
    · exact ⟨.thrown, m1, l1, by simp only [fill_loop, he1], Or.inr rfl, hsh1⟩

theorem fill_any {T : Type} (first last : Nat) (value : T) (m : List (Option T))
    (left : Option Nat) (hfl : first ≤ last)
    (hlive : ∀ i, first ≤ i → i < last → slot m i ≠ none) :
    ∃ o m' l', fill first last value ⟨m, left⟩ = (o, ⟨m', l'⟩) ∧
      (o = .ok () ∨ o = .thrown) ∧ same_shape m' m := by
  obtain ⟨o, m', l', he, ho, hsh⟩ := fill_loop_any value (last - first) first m left
    (fun i h1 h2 => hlive i h1 (by omega))
  exact ⟨o, m', l', by simp only [fill, if_neg (show ¬ last < first by omega), he], ho, hsh⟩

theorem copy_loop_any {T : Type} (src : Src T) :
    ∀ (n first result : Nat) (m : List (Option T)) (left : Option Nat),
    (∀ i, result ≤ i → i < result + n → slot m i ≠ none) →
    (∀ i, i < n → src.read m (first + i) ≠ none) →
    ∃ o m' l', copy_loop src n first result ⟨m, left⟩ = (o, ⟨m', l'⟩) ∧
      (o = .ok (result + n) ∨ o = .thrown) ∧ same_shape m' m := by
  intro n
  induction n with
  | zero =>
    intro first result m left _ _
    exact ⟨.ok result, m, left, rfl, Or.inl rfl, same_shape_refl m⟩
  | succ n ih =>
    intro first result m left hlive hsrc
    have h0 := hsrc 0 (by omega)
    rw [Nat.add_zero] at h0
    cases hr : src.read m first with
    | none => exact absurd hr h0
    | some a =>
      obtain ⟨o1, m1, l1, he1, ho1, hsh1⟩ := assign_at_any m result a left
        (hlive result (Nat.le_refl _) (by omega))
      rcases ho1 with rfl | rfl
      · obtain ⟨o2, m2, l2, he2, ho2, hsh2⟩ := ih (first + 1) (result + 1) m1 l1
          (fun i h1 h2 hc => hlive i (by omega) (by omega) ((hsh1.2 i).1 hc))
          (fun i hi => by
            rw [read_same_shape src hsh1, show first + 1 + i = first + (i + 1) by omega]
            exact hsrc (i + 1) (by omega))
        refine ⟨o2, m2, l2, by simp only [copy_loop, hr, he1, he2], ?_,
          same_shape_trans hsh2 hsh1⟩
        rw [show result + (n + 1) = result + 1 + n by omega]
        exact ho2
      · exact ⟨.thrown, m1, l1, by simp only [copy_loop, hr, he1], Or.inr rfl, hsh1⟩

theorem copy_any {T : Type} (src : Src T) (first last result : Nat) (m : List (Option T))
    (left : Option Nat) (hfl : first ≤ last)
    (hlive : ∀ i, result ≤ i → i < result + (last - first) → slot m i ≠ none)
    (hsrc : ∀ i, first ≤ i → i < last → src.read m i ≠ none) :
    ∃ o m' l', copy src first last result ⟨m, left⟩ = (o, ⟨m', l'⟩) ∧
      (o = .ok (result + (last - first)) ∨ o = .thrown) ∧ same_shape m' m := by
  obtain ⟨o, m', l', he, ho, hsh⟩ := copy_loop_any src (last - first) first result m left hlive
    (fun i hi => hsrc _ (by omega) (by omega))
  exact ⟨o, m', l', by simp only [copy, if_neg (show ¬ last < first by omega), he], ho, hsh⟩

theorem copy_backward_loop_any {T : Type} :
    ∀ (n last result : Nat) (m : List (Option T)) (left : Option Nat),
    n ≤ last → last ≤ result → (∀ i, last - n ≤ i → i < result → slot m i ≠ none) →
    ∃ o m' l', copy_backward_loop n last result ⟨m, left⟩ = (o, ⟨m', l'⟩) ∧
      (o = .ok (result - n) ∨ o = .thrown) ∧ same_shape m' m := by
  intro n
  induction n with
  | zero =>
    intro last result m left _ _ _
    exact ⟨.ok result, m, left, rfl, Or.inl rfl, same_shape_refl m⟩
  | succ n ih =>
    intro last result m left hn hlr hlive
    have h0 := hlive (last - 1) (by omega) (by omega)
    cases hr : slot m (last - 1) with
    | none => exact absurd hr h0
    | some a =>
      obtain ⟨o1, m1, l1, he1, ho1, hsh1⟩ := assign_at_any m (result - 1) a left
        (hlive (result - 1) (by omega) (by omega))
      have hcond : ¬ (last = 0 ∨ result = 0) := by omega
      rcases ho1 with rfl | rfl
      · obtain ⟨o2, m2, l2, he2, ho2, hsh2⟩ := ih (last - 1) (result - 1) m1 l1 (by omega)
          (by omega) (fun i h1 h2 hc => hlive i (by omega) (by omega) ((hsh1.2 i).1 hc))
        refine ⟨o2, m2, l2, by simp only [copy_backward_loop, if_neg hcond, hr, he1, he2], ?_,
          same_shape_trans hsh2 hsh1⟩
        rw [show result - (n + 1) = result - 1 - n by omega]
        exact ho2
      · exact ⟨.thrown, m1, l1, by simp only [copy_backward_loop, if_neg hcond, hr, he1],
          Or.inr rfl, hsh1⟩

theorem copy_backward_any {T : Type} (first last result : Nat) (m : List (Option T))
    (left : Option Nat) (hfl : first ≤ last) (hlr : last ≤ result)
    (hlive : ∀ i, first ≤ i → i < result → slot m i ≠ none) :
    ∃ o m' l', copy_backward first last result ⟨m, left⟩ = (o, ⟨m', l'⟩) ∧
      (o = .ok (result - (last - first)) ∨ o = .thrown) ∧ same_shape m' m := by
  obtain ⟨o, m', l', he, ho, hsh⟩ := copy_backward_loop_any (last - first) last result m left
    (by omega) hlr (fun i h1 h2 => hlive i (by omega) h2)
  exact ⟨o, m', l', by simp only [copy_backward, if_neg (show ¬ last < first by omega), he],
    ho, hsh⟩

theorem uninitialized_fill_n_loop_thrown {T : Type} (x : T) :
    ∀ (n cur : Nat) (m : List (Option T)) (j : Nat), j < n →
    cur + n ≤ m.length → (∀ i, cur ≤ i → i < cur + n → slot m i = none) →
    ∃ m', uninitialized_fill_n_loop x n cur ⟨m, some j⟩ = (.thrown, cur + j, ⟨m', some 0⟩) ∧
      m'.length = m.length ∧
      ∀ i, slot m' i = if cur ≤ i ∧ i < cur + j then some x else slot m i := by
  intro n
  induction n with
  | zero => intro cur m j hj; omega
  | succ n ih =>
    intro cur m j hj hlen hraw
    cases j with
    | zero =>
      refine ⟨m, ?_, rfl, fun i => ?_⟩
      · simp only [uninitialized_fill_n_loop,
          construct_thrown x (show cur < m.length by omega) (hraw cur (Nat.le_refl _) (by omega)),
          Nat.add_zero]
      · rw [if_neg (by omega)]
    | succ j =>
      have hc : construct cur x ⟨m, some (j + 1)⟩ = (.ok (), ⟨m.set cur (some x), some j⟩) := by
        have := construct_ok m cur x (some (j + 1)) (show cur < m.length by omega)
          (hraw cur (Nat.le_refl _) (by omega)) (by intro k hk; cases hk; omega)
        simpa [minus] using this
      obtain ⟨m', he, hl, hs⟩ := ih (cur + 1) (m.set cur (some x)) j (by omega)
        (by rw [List.length_set]; omega)
        (by
          intro i h1 h2
          rw [slot_set, if_neg (by omega)]
          exact hraw i (by omega) (by omega))
      refine ⟨m', ?_, ?_, fun i => ?_⟩
      · simp only [uninitialized_fill_n_loop, hc, he]
        rw [show cur + 1 + j = cur + (j + 1) by omega]
      · rw [hl, List.length_set]
      · rw [hs i, slot_set]
        split_ifs <;> first | rfl | omega

/-- `uninitialized_fill_n` whose `(j+1)`-th construction throws leaves the block as it was. -/
theorem uninitialized_fill_n_thrown {T : Type} (first n : Nat) (x : T) (m : List (Option T))
    (j : Nat) (hj : j < n) (hlen : first + n ≤ m.length)
    (hraw : ∀ i, first ≤ i → i < first + n → slot m i = none) :
    uninitialized_fill_n first n x ⟨m, some j⟩ = (.thrown, ⟨m, some 0⟩) := by
  obtain ⟨m', he, hl, hs⟩ := uninitialized_fill_n_loop_thrown x n first m j hj hlen hraw
  obtain ⟨m2, he2, hl2, hs2⟩ := destroy_range_ok first (first + j) m' (some 0) (by
    intro i h1 h2
    rw [hs i, if_pos ⟨h1, h2⟩]
    exact Option.some_ne_none _)
  have hm : m2 = m := by
    apply mem_ext (by rw [hl2, hl])
    intro i
    rw [hs2 i, hs i]
    by_cases h : first ≤ i ∧ i < first + j
    · rw [if_pos h, hraw i h.1 (by omega)]
    · rw [if_neg h, if_neg h]
  simp only [uninitialized_fill_n, he, he2, hm]

theorem enough_or_short (left : Option Nat) (n : Nat) :
    enough left n ∨ ∃ j, left = some j ∧ j < n := by
  cases left with
  | none => exact Or.inl (enough_none n)
  | some j =>
    by_cases h : n ≤ j
    · exact Or.inl (fun k hk => by cases hk; exact h)
    · exact Or.inr ⟨j, rfl, by omega⟩

/-- `uninitialized_copy`, whatever the copies left: it constructs the whole range, or it throws
and leaves the block as it was. -/
theorem uninitialized_copy_any {T : Type} (src : Src T) (first last result : Nat)
    (m : List (Option T)) (left : Option Nat) (hfl : first ≤ last)
    (hlen : result + (last - first) ≤ m.length)
    (hraw : ∀ i, result ≤ i → i < result + (last - first) → slot m i = none)
    (hsrc : ∀ i, first ≤ i → i < last → src.read m i ≠ none)
    (hclear : src.clear last result) :
    (∃ m', uninitialized_copy src first last result ⟨m, left⟩ =
        (.ok (result + (last - first)), ⟨m', minus left (last - first)⟩) ∧
      m'.length = m.length ∧
      ∀ i, slot m' i = if result ≤ i ∧ i < result + (last - first)
        then src.read m (first + (i - result)) else slot m i) ∨
    uninitialized_copy src first last result ⟨m, left⟩ = (.thrown, ⟨m, some 0⟩) := by
  rcases enough_or_short left (last - first) with hen | ⟨j, rfl, hj⟩
  · exact Or.inl (uninitialized_copy_ok src first last result m left hfl hlen hraw hsrc hclear hen)
  · exact Or.inr (uninitialized_copy_thrown src first last result m j hj hlen hraw hsrc hclear)

/-- `uninitialized_fill_n`, whatever the copies left: it constructs the `n` copies, or it throws
and leaves the block as it was. -/
theorem uninitialized_fill_n_any {T : Type} (first n : Nat) (x : T) (m : List (Option T))
    (left : Option Nat) (hlen : first + n ≤ m.length)
    (hraw : ∀ i, first ≤ i → i < first + n → slot m i = none) :
    (∃ m', uninitialized_fill_n first n x ⟨m, left⟩ = (.ok (first + n), ⟨m', minus left n⟩) ∧
      m'.length = m.length ∧
      ∀ i, slot m' i = if first ≤ i ∧ i < first + n then some x else slot m i) ∨
    uninitialized_fill_n first n x ⟨m, left⟩ = (.thrown, ⟨m, some 0⟩) := by
  rcases enough_or_short left n with hen | ⟨j, rfl, hj⟩
  · exact Or.inl (uninitialized_fill_n_ok first n x m left hlen hraw hen)
  · exact Or.inr (uninitialized_fill_n_thrown first n x m j hj hlen hraw)

theorem construct_any {T : Type} (m : List (Option T)) (p : Nat) (x : T) (left : Option Nat)
    (hp : p < m.length) (hraw : slot m p = none) :
    (∃ l', construct p x ⟨m, left⟩ = (.ok (), ⟨m.set p (some x), l'⟩)) ∨
    construct p x ⟨m, left⟩ = (.thrown, ⟨m, left⟩) := by
  cases hsp : spend left with
  | none => exact Or.inr (by simp only [construct, raw_of_slot hp hraw, hsp])
  | some l => exact Or.inl ⟨l, by simp only [construct, raw_of_slot hp hraw, hsp]⟩

/-! ## Basic failure safety of the in-place paths -/

theorem erase_range_basic {T : Type} (v : vector T) (hv : v.valid) (f la : Nat) (hfl : f ≤ la)
    (hla : la ≤ v.finish) (left : Option Nat) :
    ∃ o v' l', v.erase_range left f la = (o, v', l') ∧ (o = .ok f ∨ o = .thrown) ∧
      v'.valid ∧ v'.mem.length = v.mem.length := by
  obtain ⟨hle, h1, h2⟩ := (valid_iff v).1 hv
  obtain ⟨o1, m1, l1, he1, ho1, hsh1⟩ := copy_any .self la v.finish f v.mem left hla
    (fun i h3 h4 => h1 i (by omega)) (fun i h3 h4 => h1 i h4)
  rcases ho1 with rfl | rfl
  · obtain ⟨m2, he2, hl2, hs2⟩ := destroy_range_ok (f + (v.finish - la)) v.finish m1 l1
      (fun i h3 h4 hc => h1 i h4 ((hsh1.2 i).1 hc))
    refine ⟨.ok f, ⟨m2, v.finish - (la - f)⟩, l1, by simp only [vector.erase_range, he1, he2],
      Or.inl rfl, ?_, by show m2.length = _; rw [hl2, hsh1.1]⟩
    rw [valid_iff]
    refine ⟨by show v.finish - (la - f) ≤ m2.length; rw [hl2, hsh1.1]; omega,
      fun i hi => ?_, fun i hi => ?_⟩
    · show slot m2 i ≠ none
      have hi' : i < v.finish - (la - f) := hi
      rw [hs2, if_neg (by omega)]
      exact fun hc => h1 i (by omega) ((hsh1.2 i).1 hc)
    · show slot m2 i = none
      have hi' : v.finish - (la - f) ≤ i := hi
      rw [hs2]
      split_ifs with hc
      · rfl
      · exact (hsh1.2 i).2 (h2 i (by omega))
  · exact ⟨.thrown, ⟨m1, v.finish⟩, l1, by simp only [vector.erase_range, he1], Or.inr rfl,
      valid_of_same_shape hsh1 v.finish hv, hsh1.1⟩

theorem valid_extend {T : Type} (v : vector T) (m1 : List (Option T)) (k : Nat)
    (hk : v.finish + k ≤ v.mem.length) (hl1 : m1.length = v.mem.length)
    (hs1 : ∀ i, slot m1 i = none ↔ ¬ (i < v.finish + k)) :
    (⟨m1, v.finish + k⟩ : vector T).valid := by
  rw [valid_iff]
  refine ⟨by show v.finish + k ≤ m1.length; omega, fun i hi hc => ?_, fun i hi => ?_⟩
  · exact (hs1 i).1 hc hi
  · exact (hs1 i).2 (by
      have : v.finish + k ≤ i := hi
      omega)

theorem insert_n_basic {T : Type} (v : vector T) (hv : v.valid) (p n : Nat) (x : T)
    (hp : p ≤ v.finish) (hn : n ≠ 0) (hroom : n ≤ v.mem.length - v.finish)
    (left : Option Nat) :
    ∃ o v' l', v.insert_n left p n x = (o, v', l') ∧ (o = .ok () ∨ o = .thrown) ∧
      v'.valid ∧ v'.mem.length = v.mem.length := by
  obtain ⟨hle, h1, h2⟩ := (valid_iff v).1 hv
  cases hsp : spend left with
  | none =>
    exact ⟨.thrown, v, left, by
      simp only [vector.insert_n, ne_eq, hn, not_false_eq_true, if_true, ge_iff_le, hroom, hsp],
      Or.inr rfl, hv, rfl⟩
  | some l0 =>
    by_cases hea : v.finish - p > n
    · rcases uninitialized_copy_any .self (v.finish - n) v.finish v.finish v.mem l0 (by omega)
        (by omega) (fun i h3 h4 => h2 i h3) (fun i h3 h4 => h1 i h4) (Nat.le_refl _)
        with ⟨m1, he1, hl1, hs1⟩ | he1
      · have hlive1 : ∀ i, slot m1 i = none ↔ ¬ (i < v.finish + n) := by
          intro i
          rw [hs1]
          split_ifs with hc
          · simp only [Src.read]
            constructor
            · intro hcc; exact absurd hcc (h1 _ (by omega))
            · intro hcc; omega
          · by_cases hi : i < v.finish
            · constructor
              · intro hcc; exact absurd hcc (h1 i hi)
              · intro hcc; omega
            · constructor
              · intro _; omega
              · intro _; exact h2 i (by omega)
        have hv1 := valid_extend v m1 n (by omega) hl1 hlive1
        obtain ⟨o2, m2, l2, he2, ho2, hsh2⟩ := copy_backward_any p (v.finish - n) v.finish m1
          (minus l0 (v.finish - (v.finish - n))) (by omega) (by omega)
          (fun i h3 h4 hc => (hlive1 i).1 hc (by omega))
        rcases ho2 with rfl | rfl
        · obtain ⟨o3, m3, l3, he3, ho3, hsh3⟩ := fill_any p (p + n) x m2 l2 (by omega)
            (fun i h3 h4 hc => (hlive1 i).1 ((hsh2.2 i).1 hc) (by omega))
          refine ⟨o3, ⟨m3, v.finish + n⟩, l3, ?_, ho3,
            valid_of_same_shape (same_shape_trans hsh3 hsh2) _ hv1, by
              show m3.length = _; rw [hsh3.1, hsh2.1, hl1]⟩
          simp only [vector.insert_n, ne_eq, hn, not_false_eq_true, if_true, ge_iff_le, hroom,
            hsp, gt_iff_lt, hea, he1, he2, he3]
          rcases ho3 with rfl | rfl <;> rfl
        · refine ⟨.thrown, ⟨m2, v.finish + n⟩, l2, ?_, Or.inr rfl,
            valid_of_same_shape hsh2 _ hv1, by show m2.length = _; rw [hsh2.1, hl1]⟩
          simp only [vector.insert_n, ne_eq, hn, not_false_eq_true, if_true, ge_iff_le, hroom,
            hsp, gt_iff_lt, hea, he1, he2]
      · refine ⟨.thrown, v, some 0, ?_, Or.inr rfl, hv, rfl⟩
        simp only [vector.insert_n, ne_eq, hn, not_false_eq_true, if_true, ge_iff_le, hroom,
          hsp, gt_iff_lt, hea, he1]
    · rcases uninitialized_fill_n_any v.finish (n - (v.finish - p)) x v.mem l0 (by omega)
        (fun i h3 h4 => h2 i h3) with ⟨m1, he1, hl1, hs1⟩ | he1
      · have hlive1 : ∀ i, slot m1 i = none ↔ ¬ (i < v.finish + (n - (v.finish - p))) := by
          intro i
          rw [hs1]
          split_ifs with hc
          · simp
            omega
          · by_cases hi : i < v.finish
            · constructor
              · intro hcc; exact absurd hcc (h1 i hi)
              · intro hcc; omega
            · constructor
              · intro _; omega
              · intro _; exact h2 i (by omega)
        have hv1 := valid_extend v m1 (n - (v.finish - p)) (by omega) hl1 hlive1
        rcases uninitialized_copy_any .self p v.finish (v.finish + (n - (v.finish - p))) m1
          (minus l0 (n - (v.finish - p))) hp (by omega)
          (fun i h3 h4 => (hlive1 i).2 (by omega))
          (fun i h3 h4 hc => (hlive1 i).1 hc (by omega))
          (show v.finish ≤ v.finish + (n - (v.finish - p)) by omega)
          with ⟨m2, he2, hl2, hs2⟩ | he2
        · have hlive2 : ∀ i, slot m2 i = none ↔ ¬ (i < v.finish + n) := by
            intro i
            rw [hs2]
            split_ifs with hc
            · simp only [Src.read]
              constructor
              · intro hcc; exact absurd ((hlive1 _).1 hcc) (by omega)
              · intro hcc; omega
            · rw [hlive1]
              omega
          have hv2 := valid_extend v m2 n (by omega) (by rw [hl2, hl1]) hlive2
          obtain ⟨o3, m3, l3, he3, ho3, hsh3⟩ := fill_any p v.finish x m2
            (minus (minus l0 (n - (v.finish - p))) (v.finish - p)) hp
            (fun i h3 h4 hc => (hlive2 i).1 hc (by omega))
          refine ⟨o3, ⟨m3, v.finish + (n - (v.finish - p)) + (v.finish - p)⟩, l3, ?_, ho3,
            ?_, by show m3.length = _; rw [hsh3.1, hl2, hl1]⟩
          · simp only [vector.insert_n, ne_eq, hn, not_false_eq_true, if_true, ge_iff_le, hroom,
              hsp, gt_iff_lt, hea, if_false, he1, he2, he3]
            rcases ho3 with rfl | rfl <;> rfl
          · rw [show v.finish + (n - (v.finish - p)) + (v.finish - p) = v.finish + n by omega]
            exact valid_of_same_shape hsh3 _ hv2
        · refine ⟨.thrown, ⟨m1, v.finish + (n - (v.finish - p))⟩, some 0, ?_, Or.inr rfl,
            hv1, hl1⟩
          simp only [vector.insert_n, ne_eq, hn, not_false_eq_true, if_true, ge_iff_le, hroom,
            hsp, gt_iff_lt, hea, if_false, he1, he2]
      · refine ⟨.thrown, v, some 0, ?_, Or.inr rfl, hv, rfl⟩
        simp only [vector.insert_n, ne_eq, hn, not_false_eq_true, if_true, ge_iff_le, hroom,
          hsp, gt_iff_lt, hea, if_false, he1]

theorem insert_basic {T : Type} (v : vector T) (hv : v.valid) (p : Nat) (x : T)
    (hp : p ≤ v.finish) (hroom : v.finish ≠ v.mem.length) (left : Option Nat) :
    ∃ o v' l', v.insert left p x = (o, v', l') ∧ (o = .ok p ∨ o = .thrown) ∧
      v'.valid ∧ v'.mem.length = v.mem.length := by
  obtain ⟨hle, h1, h2⟩ := (valid_iff v).1 hv
  have hext : ∀ a : T, (⟨v.mem.set v.finish (some a), v.finish + 1⟩ : vector T).valid := by
    intro a
    apply valid_extend v _ 1 (by omega) (List.length_set _ _ _)
    intro i
    rw [slot_set]
    split_ifs with hc
    · simp
      omega
    · by_cases hi : i < v.finish
      · constructor
        · intro hcc; exact absurd hcc (h1 i hi)
        · intro hcc; omega
      · constructor
        · intro _; omega
        · intro _; exact h2 i (by omega)
  by_cases hpe : p = v.finish
  · have hcond : v.finish ≠ v.mem.length ∧ p = v.finish := ⟨hroom, hpe⟩
    rcases construct_any v.mem v.finish x left (by omega) (h2 _ (Nat.le_refl _))
      with ⟨l', he⟩ | he
    · refine ⟨.ok p, ⟨v.mem.set v.finish (some x), v.finish + 1⟩, l', ?_, Or.inl rfl, hext x,
        List.length_set _ _ _⟩
      simp only [vector.insert, if_pos hcond, he, vector.begin, Nat.sub_zero, Nat.zero_add]
    · refine ⟨.thrown, v, left, ?_, Or.inr rfl, hv, rfl⟩
      simp only [vector.insert, if_pos hcond, he]
  · have hcond : ¬ (v.finish ≠ v.mem.length ∧ p = v.finish) := fun hh => hpe hh.2
    have hins : ∀ (o : Outcome Unit) (v1 : vector T) (l1 : Option Nat),
        v.insert_aux left p x = (o, v1, l1) → (o = .ok () ∨ o = .thrown) →
        ∃ o', v.insert left p x = (o', v1, l1) ∧ (o' = .ok p ∨ o' = .thrown) := by
      intro o v1 l1 he ho
      rcases ho with rfl | rfl
      · exact ⟨.ok p, by
          simp only [vector.insert, if_neg hcond, he, vector.begin, Nat.sub_zero, Nat.zero_add],
          Or.inl rfl⟩
      · exact ⟨.thrown, by simp only [vector.insert, if_neg hcond, he], Or.inr rfl⟩
    suffices haux : ∃ o v' l', v.insert_aux left p x = (o, v', l') ∧
        (o = .ok () ∨ o = .thrown) ∧ v'.valid ∧ v'.mem.length = v.mem.length by
      obtain ⟨o, v', l', he, ho, hvv, hll⟩ := haux
      obtain ⟨o', he', ho'⟩ := hins o v' l' he ho
      exact ⟨o', v', l', he', ho', hvv, hll⟩
    have hback : slot v.mem (v.finish - 1) ≠ none := h1 _ (by omega)
    cases hb : slot v.mem (v.finish - 1) with
    | none => exact absurd hb hback
    | some back =>
      have h0 : ¬ v.finish = 0 := by omega
      rcases construct_any v.mem v.finish back left (by omega) (h2 _ (Nat.le_refl _))
        with ⟨l1, he1⟩ | he1
      · have hv1 := hext back
        have hlive1 : ∀ i, i < v.finish + 1 → slot (v.mem.set v.finish (some back)) i ≠ none :=
          ((valid_iff _).1 hv1).2.1
        cases hsp : spend l1 with
        | none =>
          refine ⟨.thrown, ⟨v.mem.set v.finish (some back), v.finish + 1⟩, l1, ?_, Or.inr rfl,
            hv1, List.length_set _ _ _⟩
          simp only [vector.insert_aux, ne_eq, hroom, not_false_eq_true, if_true, hb,
            if_neg h0, he1, hsp]
        | some l2 =>
          obtain ⟨o2, m2, l3, he2, ho2, hsh2⟩ := copy_backward_any p (v.finish + 1 - 2)
            (v.finish + 1 - 1) (v.mem.set v.finish (some back)) l2 (by omega) (by omega)
            (fun i h3 h4 => hlive1 i (by omega))
          rcases ho2 with rfl | rfl
          · obtain ⟨o3, m3, l4, he3, ho3, hsh3⟩ := assign_at_any m2 p x l3
              (fun hc => hlive1 p (by omega) ((hsh2.2 p).1 hc))
            refine ⟨o3, ⟨m3, v.finish + 1⟩, l4, ?_, ho3,
              valid_of_same_shape (same_shape_trans hsh3 hsh2) _ hv1, by
                show m3.length = _; rw [hsh3.1, hsh2.1, List.length_set]⟩
            simp only [vector.insert_aux, ne_eq, hroom, not_false_eq_true, if_true, hb,
              if_neg h0, he1, hsp, he2, he3]
            rcases ho3 with rfl | rfl <;> rfl
          · refine ⟨.thrown, ⟨m2, v.finish + 1⟩, l3, ?_, Or.inr rfl,
              valid_of_same_shape hsh2 _ hv1, by
                show m2.length = _; rw [hsh2.1, List.length_set]⟩
            simp only [vector.insert_aux, ne_eq, hroom, not_false_eq_true, if_true, hb,
              if_neg h0, he1, hsp, he2]
      · refine ⟨.thrown, v, left, ?_, Or.inr rfl, hv, rfl⟩
        simp only [vector.insert_aux, ne_eq, hroom, not_false_eq_true, if_true, hb,
          if_neg h0, he1]

theorem fill_initialize_erase {T : Type} (n : Nat) (value : T) (left : Option Nat)
    (v : vector T) (l1 : Option Nat)
    (h : vector.fill_initialize n value left = (.ok v, l1)) :
    vector.fill_initialize n value none = (.ok v, none) := by
  unfold vector.fill_initialize vector.allocate_and_fill at h ⊢
  rcases hq1 : uninitialized_fill_n 0 n value ⟨allocate n, left⟩ with ⟨o1, m1, l2⟩
  rw [hq1] at h
  cases o1 with
  | thrown => simp at h
  | undefined => simp at h
  | ok b1 =>
    rw [uninitialized_fill_n_erase _ _ _ _ _ _ _ hq1]
    cases h
    rfl

theorem copy_construct_erase {T : Type} (x : vector T) (left : Option Nat)
    (v : vector T) (l1 : Option Nat)
    (h : vector.copy_construct x left = (.ok v, l1)) :
    vector.copy_construct x none = (.ok v, none) := by
  unfold vector.copy_construct at h ⊢
  rcases hq1 : vector.allocate_and_copy (x.finish - x.begin) x.mem x.begin x.finish left
    with ⟨o1, l2⟩
  rw [hq1] at h
  cases o1 with
  | thrown => simp at h
  | undefined => simp at h
  | ok tmp =>
    rw [allocate_and_copy_erase _ _ _ _ _ _ _ hq1]
    cases h
    rfl

theorem range_initialize_forward_erase {T : Type} (src : List (Option T)) (first last : Nat)
    (left : Option Nat) (v : vector T) (l1 : Option Nat)
    (h : vector.range_initialize_forward src first last left = (.ok v, l1)) :
    vector.range_initialize_forward src first last none = (.ok v, none) := by
  unfold vector.range_initialize_forward at h ⊢
  simp only at h ⊢
  rcases hq1 : vector.allocate_and_copy (last - first) src first last left with ⟨o1, l2⟩
  rw [hq1] at h
  cases o1 with
  | thrown => simp at h
  | undefined => simp at h
  | ok tmp =>
    rw [allocate_and_copy_erase _ _ _ _ _ _ _ hq1]
    cases h
    rfl

/-! ## Capacity after appends -/

theorem push_back_all_capacity {T : Type} (xs : List T) : ∀ (v : vector T) (l : List T),
    v.holds l →
    ((l.length = 0 ∧ v.capacity = 0) ∨
      ∃ k, v.capacity = 2 ^ k ∧ l.length ≤ v.capacity ∧ v.capacity < 2 * l.length) →
    ∃ v', v.push_back_all none xs = (.ok (), v', none) ∧ v'.holds (l ++ xs) ∧
      (((l ++ xs).length = 0 ∧ v'.capacity = 0) ∨
        ∃ k, v'.capacity = 2 ^ k ∧ (l ++ xs).length ≤ v'.capacity ∧
          v'.capacity < 2 * (l ++ xs).length) := by
  induction xs with
  | nil =>
    intro v l h hj
    exact ⟨v, rfl, by simpa using h, by simpa using hj⟩
  | cons x xs ih =>
    intro v l h hj
    obtain ⟨v1, he1, hh1, hc1⟩ := push_back_holds v l h x
    have hsz := holds_size h
    have hj1 : ((l ++ [x]).length = 0 ∧ v1.capacity = 0) ∨
        ∃ k, v1.capacity = 2 ^ k ∧ (l ++ [x]).length ≤ v1.capacity ∧
          v1.capacity < 2 * (l ++ [x]).length := by
      right
      rw [List.length_append, List.length_singleton, hc1, hsz]
      rcases hj with ⟨h0, hcap⟩ | ⟨k, hk, hle, hlt⟩
      · refine ⟨0, ?_, ?_, ?_⟩ <;> simp [h0, hcap]
      · by_cases hfull : l.length = v.capacity
        · refine ⟨k + 1, ?_, ?_, ?_⟩
          · rw [if_pos hfull, if_pos (by omega), Nat.pow_succ, ← hk]
            omega
          · rw [if_pos hfull, if_pos (by omega)]
            omega
          · rw [if_pos hfull, if_pos (by omega)]
            omega
        · refine ⟨k, ?_, ?_, ?_⟩
          · rw [if_neg hfull, hk]
          · rw [if_neg hfull]
            omega
          · rw [if_neg hfull]
            omega
    obtain ⟨v2, he2, hh2, hj2⟩ := ih v1 (l ++ [x]) hh1 hj1
    refine ⟨v2, ?_, by simpa using hh2, by simpa using hj2⟩
    simp only [vector.push_back_all, he1, he2]

theorem pow_two_least {c k n : Nat} (hc : c = 2 ^ k) (hlt : c < 2 * n) (j : Nat)
    (hj : n ≤ 2 ^ j) : c ≤ 2 ^ j := by
  rcases Nat.lt_or_ge j k with hjk | hjk
  · have h1 : 2 ^ (j + 1) ≤ 2 ^ k := Nat.pow_le_pow_right (by omega) hjk
    rw [Nat.pow_succ] at h1
    omega
  · rw [hc]
    exact Nat.pow_le_pow_right (by omega) hjk

/-! ## Whole operations -/

theorem insert_n_holds {T : Type} (v : vector T) (l : List T) (h : v.holds l) (p n : Nat)
    (x : T) (hp : p ≤ l.length)
    (hfit : n ≤ v.mem.length - v.finish ∨ l.length + max l.length n < 2 ^ 64) :
    ∃ v', v.insert_n none p n x = (.ok (), v', none) ∧
      v'.holds (l.take p ++ List.replicate n x ++ l.drop p) := by
  by_cases hn : n = 0
  · subst hn
    refine ⟨v, by simp [vector.insert_n], ?_⟩
    simpa using h
  · by_cases hroom : n ≤ v.mem.length - v.finish
    · obtain ⟨v', he, hh, _⟩ := insert_n_in_place v l h p n x hp hn hroom
      exact ⟨v', he, hh⟩
    · obtain ⟨v', he, hh, _⟩ := insert_n_grow v l h p n x hp hn (by omega) (by omega)
      exact ⟨v', he, hh⟩

/-- A `resize(k, x)` that returns had room or computed its new capacity without wrap-around. -/
theorem resize_fits {T : Type} (v : vector T) (l : List T) (h : v.holds l) (k : Nat)
    (x : T) (left : Option Nat) (u : Unit) (v1 : vector T) (l1 : Option Nat)
    (h1 : v.resize left k x = (.ok u, v1, l1)) :
    k ≤ v.mem.length ∨ max k (2 * l.length) < 2 ^ 64 := by
  have hf := h.1
  have hle : v.finish ≤ v.mem.length := by
    have := holds_le h
    simp only [vector.size, vector.capacity, vector.begin, Nat.sub_zero] at this
    omega
  by_cases hk : k ≤ v.mem.length
  · exact Or.inl hk
  · right
    have hlt : ¬ k < v.size := by
      simp only [vector.size, vector.begin, Nat.sub_zero]
      omega
    have h3 : v.insert_n left v.finish (k - v.size) x = (.ok u, v1, l1) := by
      simpa only [vector.resize, if_neg hlt] using h1
    have := insert_n_fits v left v.finish (k - v.size) x u v1 l1
      (by simp only [vector.size, vector.begin, Nat.sub_zero]; omega)
      (by simp only [vector.size, vector.begin, Nat.sub_zero]; omega) h3
    simp only [vector.size, vector.begin, Nat.sub_zero] at this
    omega

/-- Every `resize(k, x)` that returns leaves the first `k` elements, padded with `x`. -/
theorem resize_returned {T : Type} (v : vector T) (l : List T) (h : v.holds l) (k : Nat)
    (x : T) (left : Option Nat) (u : Unit) (v1 : vector T) (l1 : Option Nat)
    (h1 : v.resize left k x = (.ok u, v1, l1)) :
    v1.holds (l.take k ++ List.replicate (k - l.length) x) := by
  obtain ⟨v', he, hh, _⟩ := resize_holds v l h k x (resize_fits v l h k x left u v1 l1 h1)
  have h2 := resize_erase v left k x u v1 l1 h1
  rw [he] at h2
  cases h2
  exact hh

theorem range_insert_forward_holds {T : Type} (v : vector T) (l : List T) (h : v.holds l)
    (p : Nat) (src : List (Option T)) (first last : Nat) (r : List T) (hp : p ≤ l.length)
    (hfl : first ≤ last) (hlast : last ≤ src.length)
    (hr : (src.drop first).take (last - first) = r.map some) :
    ∃ v', v.range_insert_forward none p src first last = (.ok (), v', none) ∧
      v'.holds (l.take p ++ r ++ l.drop p) ∧
      v'.mem.length = (if r.length ≤ v.mem.length - v.finish then v.mem.length
        else l.length + max l.length r.length) ∧
      (r = [] → v' = v) := by
  obtain ⟨hlen, _⟩ := range_slot hfl hlast hr
  by_cases he : first = last
  · have hr0 : r = [] := List.length_eq_zero.1 (by omega)
    subst hr0
    refine ⟨v, by simp [vector.range_insert_forward, he], by simpa using h, by simp,
      fun _ => rfl⟩
  · have hne : r ≠ [] := by
      intro h0
      rw [h0] at hlen
      simp at hlen
      omega
    by_cases hroom : last - first ≤ v.mem.length - v.finish
    · obtain ⟨v', he', hh, hl⟩ := range_insert_forward_in_place v l h p src first last r hp
        (by omega) hlast hr hroom
      exact ⟨v', he', hh, by rw [hlen, if_pos hroom, hl], fun h0 => absurd h0 hne⟩
    · obtain ⟨v', he', hh, hl⟩ := range_insert_forward_grow v l h p src first last r hp
        (by omega) hlast hr (by omega)
      exact ⟨v', he', hh, by rw [hlen, if_neg hroom, hl], fun h0 => absurd h0 hne⟩

theorem keeps_valid_of {T α : Type} {run : Option Nat → Ret T α} {r : α} {v' : vector T}
    (hnone : run none = (.ok r, v', none)) (hv : v'.valid)
    (herase : ∀ left r1 v1 l1, run left = (.ok r1, v1, l1) → run none = (.ok r1, v1, none)) :
    keeps_valid run := by
  refine ⟨⟨r, v', hnone⟩, fun left r1 v1 l1 h => ?_⟩
  have h2 := herase left r1 v1 l1 h
  rw [hnone] at h2
  cases h2
  exact hv

theorem constructs_valid_of {T : Type} {run : Option Nat → Outcome (vector T) × Option Nat}
    {v' : vector T} (hnone : run none = (.ok v', none)) (hv : v'.valid)
    (herase : ∀ left v1 l1, run left = (.ok v1, l1) → run none = (.ok v1, none)) :
    constructs_valid run := by
  refine ⟨⟨v', hnone⟩, fun left v1 l1 h => ?_⟩
  have h2 := herase left v1 l1 h
  rw [hnone] at h2
  cases h2
  exact hv

/-! ## Claims

In the statements below `left = none` is a run in which no element copy throws; the last
conjunct of a statement about a successful call covers every other run that returns: whatever
the copies left, a call that returns leaves the same vector. -/

/-- C1: starting from `vector()` and calling `push_back(x1)`, ..., `push_back(xn)` in order: when
no copy throws every call returns, and the vector then has `size() = n`, `capacity() >= n` and
`operator[](i)` equal to the `(i+1)`-th value appended, for every index (no object at an index
from `n` on); any run in which the `n` calls return leaves that vector.  Appending 1, 2, 3 gives
the live range `[1,2,3]` with size 3 and capacity at least 3. -/
theorem push_back_appends_in_order {T : Type} :
    (∀ xs : List T, ∃ v : vector T,
      (vector.new : vector T).push_back_all none xs = (.ok (), v, none) ∧
      v.size = xs.length ∧ xs.length ≤ v.capacity ∧ (∀ i, v.elem i = xs[i]?) ∧
      ∀ left v1 l1, (vector.new : vector T).push_back_all left xs = (.ok (), v1, l1) → v1 = v) ∧
    (∃ v : vector Nat, (vector.new : vector Nat).push_back_all none [1, 2, 3] = (.ok (), v, none) ∧
      v.live = [some 1, some 2, some 3] ∧ v.size = 3 ∧ 3 ≤ v.capacity) := by
  constructor
  · intro xs
    obtain ⟨v, he, hh, _⟩ := push_back_all_holds xs (vector.new : vector T) [] holds_new
    rw [List.nil_append] at hh
    refine ⟨v, he, holds_size hh, holds_le hh, holds_elem hh, fun left v1 l1 h1 => ?_⟩
    have h2 := push_back_all_erase xs _ left () v1 l1 h1
    rw [he] at h2
    cases h2
    rfl
  · exact ⟨⟨[some 1, some 2, some 3, none], 3⟩, by decide, by decide, by decide, by decide⟩

/-- C2: a full vector (`size() = capacity()`, the empty unallocated vector included) holding
`l`, and `push_back(x)` during which the `k`-th element construction into the new buffer throws
(`k - 1` copies succeed), `1 <= k <= size() + 1`: the call ends by the propagating exception and
the vector is exactly the one before the call (same block, same `finish`: same size, capacity
and elements). -/
theorem push_back_grow_failure_leaves_vector {T : Type} (v : vector T) (l : List T) (x : T)
    (k : Nat) (h : v.holds l) (hfull : v.size = v.capacity) (hk1 : 1 ≤ k)
    (hk2 : k ≤ v.size + 1) :
    v.push_back (some (k - 1)) x = (.thrown, v, some 0) := by
  have hf : v.finish = v.mem.length := by
    simpa [vector.size, vector.capacity, vector.begin] using hfull
  have hsz := holds_size h
  simp only [vector.push_back, hf, ne_eq, not_true_eq_false, if_false]
  rw [← hf]
  exact insert_aux_grow_thrown v l h hf v.finish (by rw [h.1]) x (k - 1) (by omega)

/-- C2 at `[1,2]` (full, capacity 2), `push_back(3)`, the third construction throwing. -/
theorem push_back_grow_failure_leaves_vector_witness :
    (⟨[some 1, some 2], 2⟩ : vector Nat).push_back (some (3 - 1)) 3 =
      (.thrown, ⟨[some 1, some 2], 2⟩, some 0) :=
  push_back_grow_failure_leaves_vector ⟨[some 1, some 2], 2⟩ [1, 2] 3 3 (by decide) (by decide)
    (by decide) (by decide)

/-- C3: a vector holding `l`, a position `p <= size()`, `n >= 1` with
`capacity() - size() >= n`, and a value `x`: when no copy throws `insert(begin() + p, n, x)`
returns and leaves the elements `l[0..p)`, then `n` copies of `x`, then `l[p..)` in order,
`size()` grown by exactly `n` and `capacity()` unchanged (whichever of `elems_after > n`,
`elems_after <= n` holds); any call that returns leaves that vector. -/
theorem insert_n_copies_in_place {T : Type} (v : vector T) (l : List T) (p n : Nat) (x : T)
    (h : v.holds l) (hp : p ≤ v.size) (hn : 1 ≤ n) (hroom : n ≤ v.capacity - v.size) :
    ∃ v', v.insert_n none p n x = (.ok (), v', none) ∧
      v'.holds (l.take p ++ List.replicate n x ++ l.drop p) ∧
      v'.size = v.size + n ∧ v'.capacity = v.capacity ∧
      ∀ left v1 l1, v.insert_n left p n x = (.ok (), v1, l1) → v1 = v' := by
  have hsz := holds_size h
  obtain ⟨v', he, hh, hl⟩ := insert_n_in_place v l h p n x (by omega) (by omega)
    (by simpa [vector.capacity, vector.size, vector.begin] using hroom)
  refine ⟨v', he, hh, ?_, ?_, fun left v1 l1 h1 => ?_⟩
  · rw [holds_size hh, hsz]
    simp
    omega
  · simp [vector.capacity, vector.begin, hl]
  · have h2 := insert_n_erase v left p n x () v1 l1 h1
    rw [he] at h2
    cases h2
    rfl

/-- C3 at `[1,2,3]` with capacity 5: one copy of 9 at position 0 (`elems_after > n`) and two
copies of 9 at position 2 (`elems_after <= n`). -/
theorem insert_n_copies_in_place_witness :
    (∃ v', (⟨[some 1, some 2, some 3, none, none], 3⟩ : vector Nat).insert_n none 0 1 9 =
        (.ok (), v', none) ∧
      v'.holds ([1, 2, 3].take 0 ++ List.replicate 1 9 ++ [1, 2, 3].drop 0) ∧
      v'.size = (⟨[some 1, some 2, some 3, none, none], 3⟩ : vector Nat).size + 1 ∧
      v'.capacity = (⟨[some 1, some 2, some 3, none, none], 3⟩ : vector Nat).capacity) ∧
    (∃ v', (⟨[some 1, some 2, some 3, none, none], 3⟩ : vector Nat).insert_n none 2 2 9 =
        (.ok (), v', none) ∧
      v'.holds ([1, 2, 3].take 2 ++ List.replicate 2 9 ++ [1, 2, 3].drop 2) ∧
      v'.size = (⟨[some 1, some 2, some 3, none, none], 3⟩ : vector Nat).size + 2 ∧
      v'.capacity = (⟨[some 1, some 2, some 3, none, none], 3⟩ : vector Nat).capacity) :=
  ⟨(insert_n_copies_in_place ⟨[some 1, some 2, some 3, none, none], 3⟩ [1, 2, 3] 0 1 9
      (by decide) (by decide) (by decide) (by decide)).imp
        (fun _ hw => ⟨hw.1, hw.2.1, hw.2.2.1, hw.2.2.2.1⟩),
    (insert_n_copies_in_place ⟨[some 1, some 2, some 3, none, none], 3⟩ [1, 2, 3] 2 2 9
      (by decide) (by decide) (by decide) (by decide)).imp
        (fun _ hw => ⟨hw.1, hw.2.1, hw.2.2.1, hw.2.2.2.1⟩)⟩

/-- C4: a vector holding `l` and indices `f <= la <= size()`: when no copy throws
`erase(begin() + f, begin() + la)` returns the position `f` and leaves `size()` lowered by
`la - f`, the elements `l[0..f)` followed by `l[la..)` in order, and `capacity()` unchanged; any
call that returns returns `f` and leaves that vector. -/
theorem erase_range_closes_gap {T : Type} (v : vector T) (l : List T) (f la : Nat)
    (h : v.holds l) (hfl : f ≤ la) (hla : la ≤ v.size) :
    ∃ v', v.erase_range none f la = (.ok f, v', none) ∧ v'.size = v.size - (la - f) ∧
      v'.holds (l.take f ++ l.drop la) ∧ v'.capacity = v.capacity ∧
      ∀ left r v1 l1, v.erase_range left f la = (.ok r, v1, l1) → r = f ∧ v1 = v' := by
  have hsz := holds_size h
  obtain ⟨v', he, hh, hl⟩ := erase_range_holds v l h f la hfl (by omega)
  refine ⟨v', he, ?_, hh, ?_, fun left r v1 l1 h1 => ?_⟩
  · rw [holds_size hh, hsz]
    simp
    omega
  · simp [vector.capacity, vector.begin, hl]
  · have h2 := erase_range_erase v left f la r v1 l1 h1
    rw [he] at h2
    cases h2
    exact ⟨rfl, rfl⟩

/-- C4 at `[1,99,99,2,3]` (capacity 6), erasing `[0,2)`: the vector then holds `[99,2,3]`. -/
theorem erase_range_closes_gap_witness :
    ∃ v', (⟨[some 1, some 99, some 99, some 2, some 3, none], 5⟩ : vector Nat).erase_range
        none 0 2 = (.ok 0, v', none) ∧
      v'.size = (⟨[some 1, some 99, some 99, some 2, some 3, none], 5⟩ : vector Nat).size
        - (2 - 0) ∧
      v'.holds [99, 2, 3] ∧
      v'.capacity = (⟨[some 1, some 99, some 99, some 2, some 3, none], 5⟩ : vector Nat).capacity :=
  (erase_range_closes_gap ⟨[some 1, some 99, some 99, some 2, some 3, none], 5⟩
    [1, 99, 99, 2, 3] 0 2 (by decide) (by decide) (by decide)).imp
      (fun _ hw => ⟨hw.1, hw.2.1, hw.2.2.1, hw.2.2.2.1⟩)

/-- C5: the target at address `me` holding `lt` and the source at address `x` holding `lx`:
when no copy throws `operator=` returns, the target then has the size and, index by index, the
elements of the source (it holds `lx`), and the source object is unchanged; this covers the
three cases of `operator=` and self-assignment (`x = me`); any call that returns leaves the same
objects. -/
theorem assignment_copies_contents {T : Type} (st : Store T) (me x : Nat) (lt lx : List T)
    (ht : (st me).holds lt) (hx : (st x).holds lx) :
    ∃ st', operator_assign st none me x = (.ok (), st', none) ∧
      (st' me).size = (st x).size ∧ (∀ i, (st' me).elem i = (st x).elem i) ∧
      (st' me).holds lx ∧ st' x = st x ∧
      ∀ left st1 l1, operator_assign st left me x = (.ok (), st1, l1) → st1 = st' := by
  obtain ⟨st', he, hh, hsrc, _⟩ := operator_assign_holds st me x lt lx ht hx
  refine ⟨st', he, ?_, fun i => ?_, hh, hsrc, fun left st1 l1 h1 => ?_⟩
  · rw [holds_size hh, holds_size hx]
  · rw [holds_elem hh, holds_elem hx]
  · have h2 := operator_assign_erase st left me x () st1 l1 h1
    rw [he] at h2
    cases h2
    rfl

/-- C5 at `a` = five copies of 7 (`vector(5, 7)`, at address 0) and the empty `b` (at address
1): `b = a` leaves `b` holding `[7,7,7,7,7]`. -/
theorem assignment_copies_contents_witness :
    vector.fill_initialize 5 7 none = (.ok ⟨List.replicate 5 (some 7), 5⟩, none) ∧
    ∃ st', operator_assign
        (fun i => if i = 0 then (⟨List.replicate 5 (some 7), 5⟩ : vector Nat) else vector.new)
        none 1 0 = (.ok (), st', none) ∧
      (st' 1).size = (⟨List.replicate 5 (some 7), 5⟩ : vector Nat).size ∧
      (∀ i, (st' 1).elem i = (⟨List.replicate 5 (some 7), 5⟩ : vector Nat).elem i) ∧
      (st' 1).holds [7, 7, 7, 7, 7] ∧
      st' 0 = (⟨List.replicate 5 (some 7), 5⟩ : vector Nat) :=
  ⟨by decide, (assignment_copies_contents
    (fun i => if i = 0 then (⟨List.replicate 5 (some 7), 5⟩ : vector Nat) else vector.new)
    1 0 [] [7, 7, 7, 7, 7] (by decide) (by decide)).imp
      (fun _ hw => ⟨hw.1, hw.2.1, hw.2.2.1, hw.2.2.2.1, hw.2.2.2.2.1⟩)⟩

/-- C6: the target at address `me` and the source at address `x`, each holding some elements:
when no copy throws `operator=` returns and the capacity of the target is then
`max(old capacity, source size)`; so it equals the capacity before whenever the source size is
at most the capacity of the target; any call that returns leaves the same objects. -/
theorem assignment_capacity {T : Type} (st : Store T) (me x : Nat) (lt lx : List T)
    (ht : (st me).holds lt) (hx : (st x).holds lx) :
    ∃ st', operator_assign st none me x = (.ok (), st', none) ∧
      (st' me).capacity = max (st me).capacity (st x).size ∧
      ((st x).size ≤ (st me).capacity → (st' me).capacity = (st me).capacity) ∧
      ∀ left st1 l1, operator_assign st left me x = (.ok (), st1, l1) → st1 = st' := by
  obtain ⟨st', he, _, _, hc⟩ := operator_assign_holds st me x lt lx ht hx
  refine ⟨st', he, hc, fun hle => ?_, fun left st1 l1 h1 => ?_⟩
  · rw [hc]
    omega
  · have h2 := operator_assign_erase st left me x () st1 l1 h1
    rw [he] at h2
    cases h2
    rfl

/-- C6 at the target `[1]` with capacity 4 (address 1) and the source `[7,8,9]` (address 0):
the capacity stays 4. -/
theorem assignment_capacity_witness :
    ∃ st', operator_assign
        (fun i => if i = 0 then (⟨[some 7, some 8, some 9], 3⟩ : vector Nat)
          else ⟨[some 1, none, none, none], 1⟩)
        none 1 0 = (.ok (), st', none) ∧
      (st' 1).capacity = max (⟨[some 1, none, none, none], 1⟩ : vector Nat).capacity
        (⟨[some 7, some 8, some 9], 3⟩ : vector Nat).size ∧
      (st' 1).capacity = 4 :=
  (assignment_capacity
    (fun i => if i = 0 then (⟨[some 7, some 8, some 9], 3⟩ : vector Nat)
      else ⟨[some 1, none, none, none], 1⟩)
    1 0 [1] [7, 8, 9] (by decide) (by decide)).imp
      (fun _ hw => ⟨hw.1, hw.2.1, hw.2.2.1 (by decide)⟩)

/-- C7: a full vector (`size() = capacity() = c`) holding `l`, a position `p <= size()` and a
value `x`: when no copy throws `insert(begin() + p, x)` returns the position `p` and
`push_back(x)` returns, and each leaves `capacity() = max(2 * c, 1)`, `size() = c + 1` and the
elements `l[0..p)`, `x`, `l[p..c)` (`p = c` for `push_back`); any such call that returns leaves
that vector. -/
theorem single_insert_growth {T : Type} (v : vector T) (l : List T) (p : Nat) (x : T)
    (h : v.holds l) (hfull : v.size = v.capacity) (hp : p ≤ v.size) :
    (∃ v', v.insert none p x = (.ok p, v', none) ∧ v'.holds (l.take p ++ [x] ++ l.drop p) ∧
      v'.capacity = max (2 * v.capacity) 1 ∧ v'.size = v.capacity + 1 ∧
      ∀ left r v1 l1, v.insert left p x = (.ok r, v1, l1) → r = p ∧ v1 = v') ∧
    (∃ v', v.push_back none x = (.ok (), v', none) ∧ v'.holds (l ++ [x]) ∧
      v'.capacity = max (2 * v.capacity) 1 ∧ v'.size = v.capacity + 1 ∧
      ∀ left v1 l1, v.push_back left x = (.ok (), v1, l1) → v1 = v') := by
  have hf : v.finish = v.mem.length := by
    simpa [vector.size, vector.capacity, vector.begin] using hfull
  have hsz := holds_size h
  have hmax : (if l.length ≠ 0 then 2 * l.length else 1) = max (2 * v.capacity) 1 := by
    rw [← hfull, hsz]
    split_ifs <;> omega
  constructor
  · obtain ⟨v', he, hh, hl⟩ := insert_aux_grow v l h hf p (by omega) x
    have he' : v.insert none p x = (.ok p, v', none) := by
      simp only [vector.insert, hf, ne_eq, not_true_eq_false, false_and, if_false, he,
        vector.begin, Nat.sub_zero, Nat.zero_add]
    refine ⟨v', he', hh, ?_, ?_, fun left r v1 l1 h1 => ?_⟩
    · rw [← hmax, ← hl]; simp [vector.capacity, vector.begin]
    · rw [holds_size hh, ← hfull, hsz]
      simp
      omega
    · have h2 := insert_erase v left p x r v1 l1 h1
      rw [he'] at h2
      cases h2
      exact ⟨rfl, rfl⟩
  · obtain ⟨v', he, hh, hc⟩ := push_back_holds v l h x
    refine ⟨v', he, hh, ?_, ?_, fun left v1 l1 h1 => ?_⟩
    · rw [hc, if_pos hfull, hsz, hmax]
    · rw [holds_size hh, ← hfull, hsz]
      simp
    · have h2 := push_back_erase v left x () v1 l1 h1
      rw [he] at h2
      cases h2
      rfl

/-- C7 at the full vector `[1,2]`: inserting 9 at position 1 and appending 9. -/
theorem single_insert_growth_witness :
    (∃ v', (⟨[some 1, some 2], 2⟩ : vector Nat).insert none 1 9 = (.ok 1, v', none) ∧
      v'.holds [1, 9, 2] ∧ v'.capacity = 4 ∧ v'.size = 3) ∧
    (∃ v', (⟨[some 1, some 2], 2⟩ : vector Nat).push_back none 9 = (.ok (), v', none) ∧
      v'.holds [1, 2, 9] ∧ v'.capacity = 4 ∧ v'.size = 3) :=
  ⟨(single_insert_growth ⟨[some 1, some 2], 2⟩ [1, 2] 1 9 (by decide) (by decide)
      (by decide)).1.imp (fun _ hw => ⟨hw.1, hw.2.1, hw.2.2.1, hw.2.2.2.1⟩),
    (single_insert_growth ⟨[some 1, some 2], 2⟩ [1, 2] 1 9 (by decide) (by decide)
      (by decide)).2.imp (fun _ hw => ⟨hw.1, hw.2.1, hw.2.2.1, hw.2.2.2.1⟩)⟩

/-- C8: a vector holding `l`, a position `p <= size()`, `n >= 1` with
`capacity() - size() < n`, and a value `x`. Every call `insert(begin() + p, n, x)` that returns
leaves `capacity() = old_size + max(old_size, n)`, `size() = old_size + n` and the elements
`l[0..p)`, then `n` copies of `x`, then `l[p..)`. The call returns when no copy throws and
`old_size + max(old_size, n)`, which line 299 computes in `size_type`, is below `2^64`; all the
calls that return leave one and the same vector. Where the sum wraps no call returns: on
`[1,2,3]` with `n = 2^64 - 1` the block allocated has 2 slots and the fill leaves it. -/
theorem insert_n_copies_growth {T : Type} (v : vector T) (l : List T) (p n : Nat) (x : T)
    (h : v.holds l) (hp : p ≤ v.size) (hn : 1 ≤ n) (hroom : v.capacity - v.size < n) :
    (∀ left v1 l1, v.insert_n left p n x = (.ok (), v1, l1) →
      v1.capacity = v.size + max v.size n ∧ v1.size = v.size + n ∧
      v1.holds (l.take p ++ List.replicate n x ++ l.drop p)) ∧
    (v.size + max v.size n < 2 ^ 64 →
      ∃ v', v.insert_n none p n x = (.ok (), v', none) ∧
        ∀ left v1 l1, v.insert_n left p n x = (.ok (), v1, l1) → v1 = v') ∧
    (⟨[some 1, some 2, some 3], 3⟩ : vector Nat).insert_n none 1 (2 ^ 64 - 1) 99 =
      (.undefined, ⟨[some 1, some 2, some 3], 3⟩, none) := by
  have hsz := holds_size h
  have hroom' : ¬ n ≤ v.mem.length - v.finish := by
    simp only [vector.capacity, vector.size, vector.begin, Nat.sub_zero] at hroom
    omega
  refine ⟨fun left v1 l1 h1 => ?_, fun hfit => ?_, by decide⟩
  · obtain ⟨hh, hl, _⟩ := insert_n_returned v l h p n x (by omega) left () v1 l1 h1
    rw [if_neg hroom'] at hl
    refine ⟨?_, ?_, hh⟩
    · simp [vector.capacity, vector.begin, hl, hsz]
    · rw [holds_size hh, hsz]
      simp
      omega
  · obtain ⟨v', he, _, _⟩ := insert_n_grow v l h p n x (by omega) (by omega) (by omega)
      (by rw [← hsz]; exact hfit)
    refine ⟨v', he, fun left v1 l1 h1 => ?_⟩
    have h2 := insert_n_erase v left p n x () v1 l1 h1
    rw [he] at h2
    cases h2
    rfl

/-- C8 at `[1,2,3]` built by three appends (capacity 4): two copies of 99 at position 1 give
`[1,99,99,2,3]` with capacity 6. -/
theorem insert_n_copies_growth_witness :
    (vector.new : vector Nat).push_back_all none [1, 2, 3] =
      (.ok (), ⟨[some 1, some 2, some 3, none], 3⟩, none) ∧
    ∃ v', (⟨[some 1, some 2, some 3, none], 3⟩ : vector Nat).insert_n none 1 2 99 =
        (.ok (), v', none) ∧
      v'.capacity = 6 ∧ v'.size = 5 ∧ v'.holds [1, 99, 99, 2, 3] :=
  ⟨by decide,
    ((insert_n_copies_growth ⟨[some 1, some 2, some 3, none], 3⟩ [1, 2, 3] 1 2 99
      (by decide) (by decide) (by decide) (by decide)).2.1 (by decide)).imp
      (fun _ hw => ⟨hw.1,
        ((insert_n_copies_growth ⟨[some 1, some 2, some 3, none], 3⟩ [1, 2, 3] 1 2 99
          (by decide) (by decide) (by decide) (by decide)).1 none _ none hw.1)⟩)⟩

/-- C9: after any sequence of `push_back` calls on `vector()`, one more `push_back`: when no
copy throws all the calls return, the last one does not lower `capacity()`, and when the capacity
before it is nonzero the capacity after it is at most twice that; any run in which the calls
return goes through the same vectors. -/
theorem push_back_capacity_monotone_doubling {T : Type} (xs : List T) (x : T) :
    ∃ v v' : vector T, (vector.new : vector T).push_back_all none xs = (.ok (), v, none) ∧
      v.push_back none x = (.ok (), v', none) ∧
      v.capacity ≤ v'.capacity ∧ (v.capacity = 0 ∨ v'.capacity ≤ 2 * v.capacity) ∧
      ∀ left v1 l1 v2 l2, (vector.new : vector T).push_back_all left xs = (.ok (), v1, l1) →
        v1.push_back l1 x = (.ok (), v2, l2) → v1 = v ∧ v2 = v' := by
  obtain ⟨v, he, hh, _⟩ := push_back_all_holds xs (vector.new : vector T) [] holds_new
  obtain ⟨v', he', _, hc⟩ := push_back_holds v ([] ++ xs) hh x
  have hle := holds_le hh
  have hsz := holds_size hh
  refine ⟨v, v', he, he', ?_, ?_, fun left v1 l1 v2 l2 h1 h2 => ?_⟩
  · rw [hc]; split_ifs <;> omega
  · rw [hc]; split_ifs <;> omega
  · have h3 := push_back_all_erase xs _ left () v1 l1 h1
    rw [he] at h3
    cases h3
    have h4 := push_back_erase v l1 x () v2 l2 h2
    rw [he'] at h4
    cases h4
    exact ⟨rfl, rfl⟩

/-- C11: two vectors holding `lx` and `ly`: `x == y` is evaluated without reading a raw slot,
and it is true if and only if `x.size() = y.size()` and `x[i]` equals `y[i]` at every index
`i < x.size()`; vectors of different sizes are not equal, and the capacities play no role: the
answer is whether the two element sequences are the same. -/
theorem equality_is_elementwise {T : Type} [DecidableEq T] (x y : vector T) (lx ly : List T)
    (hx : x.holds lx) (hy : y.holds ly) :
    ∃ b, operator_eq x y = some b ∧
      (b = true ↔ x.size = y.size ∧ ∀ i, i < x.size → x.elem i = y.elem i) ∧
      (x.size ≠ y.size → b = false) ∧ (b = true ↔ lx = ly) := by
  have hsx := holds_size hx
  have hsy := holds_size hy
  refine ⟨decide (lx = ly), operator_eq_holds x y lx ly hx hy, ?_, ?_, by simp⟩
  · rw [decide_eq_true_iff, list_eq_iff_index, hsx, hsy]
    constructor
    · rintro ⟨hl, h⟩
      exact ⟨hl, fun i hi => by rw [holds_elem hx, holds_elem hy]; exact h i hi⟩
    · rintro ⟨hl, h⟩
      exact ⟨hl, fun i hi => by rw [← holds_elem hx, ← holds_elem hy]; exact h i hi⟩
  · intro hne
    rw [decide_eq_false_iff_not]
    intro h
    apply hne
    rw [hsx, hsy, h]

/-- C11 at `[1,2]` with capacity 3 and `[1,2]` with capacity 2: equal. -/
theorem equality_is_elementwise_witness :
    ∃ b, operator_eq (⟨[some 1, some 2, none], 2⟩ : vector Nat) ⟨[some 1, some 2], 2⟩ = some b ∧
      b = true :=
  (equality_is_elementwise (⟨[some 1, some 2, none], 2⟩ : vector Nat) ⟨[some 1, some 2], 2⟩
    [1, 2] [1, 2] (by decide) (by decide)).imp (fun _ hw => ⟨hw.1, hw.2.2.2.2 rfl⟩)

/-- C12: two vectors holding `lx` and `ly`, over an element type whose `<` (`lt`) is irreflexive
and total (elements that are not ordered either way are equal): `x < y` is evaluated without
reading a raw slot, and it is true if and only if either there is an index
`i < min(x.size(), y.size())` with `x[j] = y[j]` for all `j < i` and `x[i] < y[i]`, or `x` is a
proper prefix of `y` (`x.size() < y.size()` and `x[j] = y[j]` for all `j < x.size()`). -/
theorem ordering_is_lexicographic {T : Type} (lt : T → T → Bool) (x y : vector T)
    (lx ly : List T) (hirr : ∀ a, lt a a = false)
    (htri : ∀ a b, lt a b = false → lt b a = false → a = b)
    (hx : x.holds lx) (hy : y.holds ly) :
    ∃ b, operator_lt lt x y = some b ∧
      (b = true ↔
        (∃ i, i < min x.size y.size ∧ (∀ j, j < i → x.elem j = y.elem j) ∧
          ∃ a c, x.elem i = some a ∧ y.elem i = some c ∧ lt a c = true) ∨
        (x.size < y.size ∧ ∀ j, j < x.size → x.elem j = y.elem j)) := by
  obtain ⟨b, hb, hiff⟩ := lexicographical_compare_spec lt hirr htri x.mem y.mem lx ly 0 0
    (fun i => by rw [Nat.zero_add]; exact holds_slot hx i)
    (fun i => by rw [Nat.zero_add]; exact holds_slot hy i)
  refine ⟨b, ?_, ?_⟩
  · simpa [operator_lt, vector.begin, hx.1, hy.1] using hb
  · rw [hiff]
    simp only [holds_size hx, holds_size hy, holds_elem hx, holds_elem hy, Nat.lt_min, and_assoc]

/-- C12 over the natural numbers at `[1,2]` and `[1,3]`: `[1,2] < [1,3]`, by index 1. -/
theorem ordering_is_lexicographic_witness :
    ∃ b, operator_lt (fun a c => decide (a < c)) (⟨[some 1, some 2, none], 2⟩ : vector Nat)
        ⟨[some 1, some 3], 2⟩ = some b ∧ b = true :=
  (ordering_is_lexicographic (fun a c => decide (a < c))
    (⟨[some 1, some 2, none], 2⟩ : vector Nat) ⟨[some 1, some 3], 2⟩ [1, 2] [1, 3]
    (by intro a; simp) (by intro a b h1 h2; simp at h1 h2; omega) (by decide) (by decide)).imp
    (fun _ hw => ⟨hw.1, hw.2.2 (Or.inl ⟨1, by decide, by decide, 2, 3, by decide, by decide,
      by decide⟩)⟩)

/-- C13: the buffer invariant (`valid`: `size() <= capacity()`, the slots of `[start, finish)`
constructed, those of `[finish, limit)` raw) holds for `vector()` and after the fill, copy and
range constructors, and every public operation called on a vector that satisfies it, with valid
arguments, returns when no copy throws and leaves, whenever it returns, a vector that satisfies
it: `push_back`, `pop_back` on a non-empty vector, `insert` of one element, of `n` copies and of
a range (single-pass and multi-pass), `erase` of one element and of a range, `resize`, `clear`,
`reserve` and `operator=`. For `insert` of `n` copies and `resize` the call returns when there
is room or the capacity that line 299 computes in `size_type` is below `2^64`. The member
`swap` (lines 104-108) has no embedding, line 106 being ill-formed, and is not covered. -/
theorem buffer_invariant_preserved {T : Type} :
    (vector.new : vector T).valid ∧
    (∀ (n : Nat) (x : T), constructs_valid (fun left => vector.fill_initialize n x left)) ∧
    (∀ x : vector T, x.valid → constructs_valid (fun left => vector.copy_construct x left)) ∧
    (∀ r : List T, keeps_valid (fun left => vector.range_initialize_input left r)) ∧
    (∀ (src : List (Option T)) (first last : Nat) (r : List T), first ≤ last →
      last ≤ src.length → (src.drop first).take (last - first) = r.map some →
      constructs_valid (fun left => vector.range_initialize_forward src first last left)) ∧
    (∀ v : vector T, v.valid →
      v.size ≤ v.capacity ∧
      (∀ x, keeps_valid (fun left => v.push_back left x)) ∧
      (v.size ≠ 0 → keeps_valid (fun left => v.pop_back left)) ∧
      (∀ p x, p ≤ v.size → keeps_valid (fun left => v.insert left p x)) ∧
      (∀ p n x, p ≤ v.size →
        (n ≤ v.capacity - v.size ∨ v.size + max v.size n < 2 ^ 64 →
          ∃ v1, v.insert_n none p n x = (.ok (), v1, none)) ∧
        ∀ left r v1 l1, v.insert_n left p n x = (.ok r, v1, l1) → v1.valid) ∧
      (∀ p r, p ≤ v.size → keeps_valid (fun left => v.range_insert_input left p r)) ∧
      (∀ p (src : List (Option T)) first last (r : List T), p ≤ v.size → first ≤ last →
        last ≤ src.length → (src.drop first).take (last - first) = r.map some →
        keeps_valid (fun left => v.range_insert_forward left p src first last)) ∧
      (∀ p, p < v.size → keeps_valid (fun left => v.erase left p)) ∧
      (∀ f la, f ≤ la → la ≤ v.size → keeps_valid (fun left => v.erase_range left f la)) ∧
      (∀ k x,
        (k ≤ v.capacity ∨ max k (2 * v.size) < 2 ^ 64 →
          ∃ v1, v.resize none k x = (.ok (), v1, none)) ∧
        ∀ left r v1 l1, v.resize left k x = (.ok r, v1, l1) → v1.valid) ∧
      keeps_valid (fun left => v.clear left) ∧
      (∀ n, keeps_valid (fun left => v.reserve left n))) ∧
    (∀ (st : Store T) (me x : Nat), (st me).valid → (st x).valid →
      (∃ st', operator_assign st none me x = (.ok (), st', none)) ∧
      ∀ left st1 l1, operator_assign st left me x = (.ok (), st1, l1) →
        (st1 me).valid ∧ (st1 x).valid) := by
  refine ⟨valid_of_holds holds_new, ?_, ?_, ?_, ?_, ?_, ?_⟩
  · intro n x
    obtain ⟨v, he, hh, _⟩ := fill_initialize_holds n x
    exact constructs_valid_of he (valid_of_holds hh)
      (fun left v1 l1 h => fill_initialize_erase n x left v1 l1 h)
  · intro x hx
    obtain ⟨lx, hlx⟩ := holds_of_valid hx
    obtain ⟨v, he, hh, _⟩ := copy_construct_holds x lx hlx
    exact constructs_valid_of he (valid_of_holds hh)
      (fun left v1 l1 h => copy_construct_erase x left v1 l1 h)
  · intro r
    obtain ⟨v, he, hh, _⟩ := push_back_all_holds r (vector.new : vector T) [] holds_new
    exact @keeps_valid_of T Unit (fun left => vector.range_initialize_input left r) () v he
      (valid_of_holds hh) (fun left r1 v1 l1 h => push_back_all_erase r _ left r1 v1 l1 h)
  · intro src first last r hfl hlast hr
    obtain ⟨v, he, hh, _⟩ := range_initialize_forward_holds src first last r hfl hlast hr
    exact constructs_valid_of he (valid_of_holds hh)
      (fun left v1 l1 h => range_initialize_forward_erase src first last left v1 l1 h)
  · intro v hv
    obtain ⟨l, hl⟩ := holds_of_valid hv
    have hsz := holds_size hl
    refine ⟨hv.1, ?_, ?_, ?_, ?_, ?_, ?_, ?_, ?_, ?_, ?_, ?_⟩
    · intro x
      obtain ⟨v', he, hh, _⟩ := push_back_holds v l hl x
      exact keeps_valid_of he (valid_of_holds hh)
        (fun left r1 v1 l1 h => push_back_erase v left x r1 v1 l1 h)
    · intro hne
      obtain ⟨v', he, hh, _⟩ := pop_back_holds v l hl (by
        intro h0
        rw [h0] at hsz
        exact hne hsz)
      exact keeps_valid_of he (valid_of_holds hh)
        (fun left r1 v1 l1 h => pop_back_erase v left r1 v1 l1 h)
    · intro p x hp
      obtain ⟨v', he, hh⟩ := insert_holds v l hl p x (by omega)
      exact keeps_valid_of he (valid_of_holds hh)
        (fun left r1 v1 l1 h => insert_erase v left p x r1 v1 l1 h)
    · intro p n x hp
      refine ⟨fun hfit => ?_, fun left r v1 l1 h1 => ?_⟩
      · obtain ⟨v', he, _⟩ := insert_n_holds v l hl p n x (by omega) (by
          simp only [vector.capacity, vector.size, vector.begin, Nat.sub_zero] at hfit hsz
          omega)
        exact ⟨v', he⟩
      · exact valid_of_holds (insert_n_returned v l hl p n x (by omega) left r v1 l1 h1).1
    · intro p r hp
      obtain ⟨v', he, hh⟩ := range_insert_input_holds r v l p hl (by omega)
      exact keeps_valid_of he (valid_of_holds hh)
        (fun left r1 v1 l1 h => range_insert_input_erase r v left p r1 v1 l1 h)
    · intro p src first last r hp hfl hlast hr
      obtain ⟨v', he, hh, _⟩ := range_insert_forward_holds v l hl p src first last r
        (by omega) hfl hlast hr
      exact keeps_valid_of he (valid_of_holds hh)
        (fun left r1 v1 l1 h => range_insert_forward_erase v left p src first last r1 v1 l1 h)
    · intro p hp
      obtain ⟨v', he, hh, _⟩ := erase_holds v l hl p (by omega)
      exact keeps_valid_of he (valid_of_holds hh)
        (fun left r1 v1 l1 h => erase_erase v left p r1 v1 l1 h)
    · intro f la hfl hla
      obtain ⟨v', he, hh, _⟩ := erase_range_holds v l hl f la hfl (by omega)
      exact keeps_valid_of he (valid_of_holds hh)
        (fun left r1 v1 l1 h => erase_range_erase v left f la r1 v1 l1 h)
    · intro k x
      refine ⟨fun hfit => ?_, fun left r v1 l1 h1 => ?_⟩
      · obtain ⟨v', he, _⟩ := resize_holds v l hl k x (by
          simp only [vector.capacity, vector.size, vector.begin, Nat.sub_zero] at hfit hsz
          omega)
        exact ⟨v', he⟩
      · exact valid_of_holds (resize_returned v l hl k x left r v1 l1 h1)
    · obtain ⟨v', he, hh, _⟩ := clear_holds v l hl
      exact keeps_valid_of he (valid_of_holds hh)
        (fun left r1 v1 l1 h => clear_erase v left r1 v1 l1 h)
    · intro n
      obtain ⟨v', he, hh, _⟩ := reserve_holds v l hl n
      exact keeps_valid_of he (valid_of_holds hh)
        (fun left r1 v1 l1 h => reserve_erase v left n r1 v1 l1 h)
  · intro st me x hme hx
    obtain ⟨lt, hlt⟩ := holds_of_valid hme
    obtain ⟨lx, hlx⟩ := holds_of_valid hx
    obtain ⟨st', he, hh, hsrc, _⟩ := operator_assign_holds st me x lt lx hlt hlx
    refine ⟨⟨st', he⟩, fun left st1 l1 h1 => ?_⟩
    have h2 := operator_assign_erase st left me x () st1 l1 h1
    rw [he] at h2
    cases h2
    exact ⟨valid_of_holds hh, by rw [hsrc]; exact hx⟩

/-- C13 at `[1,2]` with capacity 3: the invariant holds, so `size() <= capacity()` and
`push_back(5)` keeps it. -/
theorem buffer_invariant_preserved_witness :
    (⟨[some 1, some 2, none], 2⟩ : vector Nat).size
        ≤ (⟨[some 1, some 2, none], 2⟩ : vector Nat).capacity ∧
      keeps_valid (fun left => (⟨[some 1, some 2, none], 2⟩ : vector Nat).push_back left 5) :=
  ⟨(buffer_invariant_preserved.2.2.2.2.2.1 ⟨[some 1, some 2, none], 2⟩ (by decide)).1,
    (buffer_invariant_preserved.2.2.2.2.2.1 ⟨[some 1, some 2, none], 2⟩ (by decide)).2.1 5⟩

/-- C14: a vector holding `l`, a position `p <= size()`, and the multi-pass source range
`[first, last)` of a block `src` that holds the values `r`: when no copy throws
`insert(begin() + p, first, last)` returns and leaves the elements `l[0..p)`, then `r` in source
order, then `l[p..)`, `size()` grown by the length `n` of `r`, and `capacity()` unchanged when
`capacity() - size() >= n` and equal to `old_size + max(old_size, n)` otherwise; an empty source
range leaves the vector as it was; any call that returns leaves that vector. -/
theorem range_insert_multi_pass {T : Type} (v : vector T) (l : List T) (p : Nat)
    (src : List (Option T)) (first last : Nat) (r : List T) (h : v.holds l) (hp : p ≤ v.size)
    (hfl : first ≤ last) (hlast : last ≤ src.length)
    (hr : (src.drop first).take (last - first) = r.map some) :
    ∃ v', v.range_insert_forward none p src first last = (.ok (), v', none) ∧
      v'.holds (l.take p ++ r ++ l.drop p) ∧ v'.size = v.size + r.length ∧
      v'.capacity = (if r.length ≤ v.capacity - v.size then v.capacity
        else v.size + max v.size r.length) ∧
      (r = [] → v' = v) ∧
      ∀ left v1 l1, v.range_insert_forward left p src first last = (.ok (), v1, l1) →
        v1 = v' := by
  have hsz := holds_size h
  obtain ⟨v', he, hh, hl, h0⟩ := range_insert_forward_holds v l h p src first last r
    (by omega) hfl hlast hr
  refine ⟨v', he, hh, ?_, ?_, h0, fun left v1 l1 h1 => ?_⟩
  · rw [holds_size hh, hsz]
    simp
    omega
  · simpa [vector.capacity, vector.size, vector.begin, h.1] using hl
  · have h2 := range_insert_forward_erase v left p src first last () v1 l1 h1
    rw [he] at h2
    cases h2
    rfl

/-- C14 at `[1,2,3]` with capacity 4 and the source `[7,8]`: inserting at position 1 gives
`[1,7,8,2,3]` with capacity 6 (growth: `3 + max(3, 2)`). -/
theorem range_insert_multi_pass_witness :
    ∃ v', (⟨[some 1, some 2, some 3, none], 3⟩ : vector Nat).range_insert_forward none 1
        [some 7, some 8] 0 2 = (.ok (), v', none) ∧
      v'.holds [1, 7, 8, 2, 3] ∧ v'.size = 5 ∧ v'.capacity = 6 :=
  (range_insert_multi_pass ⟨[some 1, some 2, some 3, none], 3⟩ [1, 2, 3] 1 [some 7, some 8] 0 2
    [7, 8] (by decide) (by decide) (by decide) (by decide) (by decide)).imp
    (fun _ hw => ⟨hw.1, hw.2.1, hw.2.2.1, hw.2.2.2.1⟩)

/-- C15: a vector holding `l`, a new size `k` and a value `x`. A `size_type` value `k` fits:
`k <= capacity()`, or `k` and `2 * size()`, of which line 299 takes the larger as the new
capacity, are below `2^64`. When `k` fits and no copy throws `resize(k, x)` returns and leaves
`size() = k`, the first `min(k, old_size)` elements unchanged and `x` at every index `i` with
`old_size <= i < k`; when `k <= old_size` the capacity is unchanged; `resize(k)` is
`resize(k, T())`; any call that returns leaves that vector. No call returns unless `k` fits. -/
theorem resize_contents {T : Type} [Inhabited T] (v : vector T) (l : List T) (k : Nat) (x : T)
    (h : v.holds l) :
    (∀ left v1 l1, v.resize left k x = (.ok (), v1, l1) →
      k ≤ v.capacity ∨ max k (2 * v.size) < 2 ^ 64) ∧
    (k ≤ v.capacity ∨ max k (2 * v.size) < 2 ^ 64 →
    ∃ v', v.resize none k x = (.ok (), v', none) ∧ v'.size = k ∧
      (∀ i, i < min k v.size → v'.elem i = v.elem i) ∧
      (∀ i, v.size ≤ i → i < k → v'.elem i = some x) ∧
      (k ≤ v.size → v'.capacity = v.capacity) ∧
      v'.holds (l.take k ++ List.replicate (k - l.length) x) ∧
      (∀ left, v.resize_default left k = v.resize left k default) ∧
      ∀ left v1 l1, v.resize left k x = (.ok (), v1, l1) → v1 = v') := by
  have hsz := holds_size h
  refine ⟨fun left v1 l1 h1 => ?_, fun hfit => ?_⟩
  · have := resize_fits v l h k x left () v1 l1 h1
    simp only [vector.capacity, vector.size, vector.begin, Nat.sub_zero] at hsz ⊢
    omega
  obtain ⟨v', he, hh, hl⟩ := resize_holds v l h k x (by
    simp only [vector.capacity, vector.size, vector.begin, Nat.sub_zero] at hfit hsz
    omega)
  have hidx : ∀ i, (l.take k ++ List.replicate (k - l.length) x)[i]? =
      if i < min k l.length then l[i]? else if i < k then some x else none := by
    intro i
    have hlt : (l.take k).length = min k l.length := List.length_take _ _
    rw [List.getElem?_append, hlt]
    by_cases h1 : i < min k l.length
    · rw [if_pos h1, if_pos h1, List.getElem?_take_of_lt (by omega)]
    · rw [if_neg h1, if_neg h1, List.getElem?_replicate]
      split_ifs <;> first | rfl | omega
  refine ⟨v', he, ?_, fun i hi => ?_, fun i h1 h2 => ?_, fun hk => ?_, hh, fun _ => rfl,
    fun left v1 l1 h1 => ?_⟩
  · rw [holds_size hh]
    simp
    omega
  · rw [holds_elem hh, holds_elem h, hidx, if_pos (by omega)]
  · rw [holds_elem hh, hidx, if_neg (by omega), if_pos h2]
  · simpa [vector.capacity, vector.begin] using hl (by omega)
  · have h2 := resize_erase v left k x () v1 l1 h1
    rw [he] at h2
    cases h2
    rfl

/-- C15 at `[1,2,3]` with capacity 4: `resize(5, 9)` gives `[1,2,3,9,9]` and `resize(2, 9)`
gives `[1,2]` with capacity 4. -/
theorem resize_contents_witness :
    (∃ v', (⟨[some 1, some 2, some 3, none], 3⟩ : vector Nat).resize none 5 9 =
        (.ok (), v', none) ∧ v'.size = 5 ∧ v'.holds [1, 2, 3, 9, 9]) ∧
    (∃ v', (⟨[some 1, some 2, some 3, none], 3⟩ : vector Nat).resize none 2 9 =
        (.ok (), v', none) ∧ v'.size = 2 ∧ v'.capacity = 4 ∧ v'.holds [1, 2]) :=
  ⟨((resize_contents ⟨[some 1, some 2, some 3, none], 3⟩ [1, 2, 3] 5 9 (by decide)).2
      (by decide)).imp (fun _ hw => ⟨hw.1, hw.2.1, hw.2.2.2.2.2.1⟩),
    ((resize_contents ⟨[some 1, some 2, some 3, none], 3⟩ [1, 2, 3] 2 9 (by decide)).2
      (by decide)).imp
      (fun _ hw => ⟨hw.1, hw.2.1, hw.2.2.2.2.1 (by decide), hw.2.2.2.2.2.1⟩)⟩

/-- C16: a vector holding `l` and a number `n`: when no copy throws `reserve(n)` returns and
leaves the size and the elements as they were, and `capacity() = max(old capacity, n)`: exactly
`n` when `n` exceeds the old capacity, and the very same vector when `n <= capacity()`; any call
that returns leaves that vector. -/
theorem reserve_grows_capacity_only {T : Type} (v : vector T) (l : List T) (n : Nat)
    (h : v.holds l) :
    ∃ v', v.reserve none n = (.ok (), v', none) ∧ v'.size = v.size ∧ v'.holds l ∧
      (∀ i, v'.elem i = v.elem i) ∧ v'.capacity = max v.capacity n ∧
      (v.capacity < n → v'.capacity = n) ∧ (n ≤ v.capacity → v' = v) ∧
      ∀ left v1 l1, v.reserve left n = (.ok (), v1, l1) → v1 = v' := by
  obtain ⟨v', he, hh, hl⟩ := reserve_holds v l h n
  have hcap : v'.capacity = max v.capacity n := by
    simpa [vector.capacity, vector.begin] using hl
  refine ⟨v', he, ?_, hh, fun i => ?_, hcap, fun hlt => ?_, fun hle => ?_,
    fun left v1 l1 h1 => ?_⟩
  · rw [holds_size hh, holds_size h]
  · rw [holds_elem hh, holds_elem h]
  · rw [hcap]
    omega
  · have hnot : ¬ v.capacity < n := by omega
    have : v.reserve none n = (.ok (), v, none) := by
      simp only [vector.reserve, hnot, if_false]
    rw [this] at he
    cases he
    rfl
  · have h2 := reserve_erase v left n () v1 l1 h1
    rw [he] at h2
    cases h2
    rfl

/-- C16 at `[1,2]` with capacity 2: `reserve(5)` keeps `[1,2]` and gives capacity 5. -/
theorem reserve_grows_capacity_only_witness :
    ∃ v', (⟨[some 1, some 2], 2⟩ : vector Nat).reserve none 5 = (.ok (), v', none) ∧
      v'.size = 2 ∧ v'.holds [1, 2] ∧ v'.capacity = 5 :=
  (reserve_grows_capacity_only ⟨[some 1, some 2], 2⟩ [1, 2] 5 (by decide)).imp
    (fun _ hw => ⟨hw.1, hw.2.1, hw.2.2.1, hw.2.2.2.2.1⟩)

/-- C17: a vector that satisfies the buffer invariant and any number of element copies that
still succeed before one throws. Each in-place call — `insert(begin() + p, x)` with
`size() < capacity()`, `insert(begin() + p, n, x)` with `capacity() - size() >= n`, and
`erase(begin() + f, begin() + la)` — either returns or ends in the exception, never in
undefined behaviour (no raw slot is read, assigned or destroyed, no live slot is constructed
over); in both cases the vector it leaves has `size() <= capacity()`, the capacity it had, a
constructed object in every slot of `[0, size())` and only raw slots above. -/
theorem in_place_basic_guarantee {T : Type} (v : vector T) (hv : v.valid)
    (left : Option Nat) :
    (∀ p x, v.size < v.capacity → p ≤ v.size →
      ∃ o v' l', v.insert left p x = (o, v', l') ∧ (o = .ok p ∨ o = .thrown) ∧
        v'.size ≤ v'.capacity ∧ v'.capacity = v.capacity ∧
        (∀ i, i < v'.size → slot v'.mem i ≠ none) ∧ v'.valid) ∧
    (∀ p n x, n ≤ v.capacity - v.size → p ≤ v.size →
      ∃ o v' l', v.insert_n left p n x = (o, v', l') ∧ (o = .ok () ∨ o = .thrown) ∧
        v'.size ≤ v'.capacity ∧ v'.capacity = v.capacity ∧
        (∀ i, i < v'.size → slot v'.mem i ≠ none) ∧ v'.valid) ∧
    (∀ f la, f ≤ la → la ≤ v.size →
      ∃ o v' l', v.erase_range left f la = (o, v', l') ∧ (o = .ok f ∨ o = .thrown) ∧
        v'.size ≤ v'.capacity ∧ v'.capacity = v.capacity ∧
        (∀ i, i < v'.size → slot v'.mem i ≠ none) ∧ v'.valid) := by
  have hpack : ∀ (v' : vector T), v'.valid → v'.mem.length = v.mem.length →
      v'.size ≤ v'.capacity ∧ v'.capacity = v.capacity ∧
        (∀ i, i < v'.size → slot v'.mem i ≠ none) ∧ v'.valid := by
    intro v' hv' hl
    obtain ⟨h1, h2, _⟩ := (valid_iff v').1 hv'
    refine ⟨hv'.1, ?_, ?_, hv'⟩
    · simpa [vector.capacity, vector.begin] using hl
    · simpa [vector.size, vector.begin] using h2
  refine ⟨fun p x hroom hp => ?_, fun p n x hroom hp => ?_, fun f la hfl hla => ?_⟩
  · simp only [vector.size, vector.capacity, vector.begin, Nat.sub_zero] at hroom hp
    obtain ⟨o, v', l', he, ho, hv', hl⟩ := insert_basic v hv p x hp (by omega) left
    exact ⟨o, v', l', he, ho, hpack v' hv' hl⟩
  · simp only [vector.size, vector.capacity, vector.begin, Nat.sub_zero] at hroom hp
    by_cases hn : n = 0
    · subst hn
      exact ⟨.ok (), v, left, by simp [vector.insert_n], Or.inl rfl, hpack v hv rfl⟩
    · obtain ⟨o, v', l', he, ho, hv', hl⟩ := insert_n_basic v hv p n x hp hn hroom left
      exact ⟨o, v', l', he, ho, hpack v' hv' hl⟩
  · simp only [vector.size, vector.begin, Nat.sub_zero] at hla
    obtain ⟨o, v', l', he, ho, hv', hl⟩ := erase_range_basic v hv f la hfl hla left
    exact ⟨o, v', l', he, ho, hpack v' hv' hl⟩

/-- C17 at `[1,2,3]` with capacity 5 when the third element copy throws: `insert(begin() + 1, 9)`
ends in the exception with the vector `[1,2,3,3]` (the last element duplicated, nothing shifted
yet), which has capacity 5 and four constructed slots. -/
theorem in_place_basic_guarantee_witness :
    (⟨[some 1, some 2, some 3, none, none], 3⟩ : vector Nat).insert (some 2) 1 9 =
        (.thrown, ⟨[some 1, some 2, some 3, some 3, none], 4⟩, some 0) ∧
      ∃ o v' l', (⟨[some 1, some 2, some 3, none, none], 3⟩ : vector Nat).insert (some 2) 1 9 =
          (o, v', l') ∧ (o = .ok 1 ∨ o = .thrown) ∧ v'.size ≤ v'.capacity ∧
        v'.capacity = (⟨[some 1, some 2, some 3, none, none], 3⟩ : vector Nat).capacity ∧
        (∀ i, i < v'.size → slot v'.mem i ≠ none) ∧ v'.valid :=
  ⟨by decide, (in_place_basic_guarantee ⟨[some 1, some 2, some 3, none, none], 3⟩ (by decide)
    (some 2)).1 1 9 (by decide) (by decide)⟩

/-- C18: a vector holding `l` with `size() < capacity()`, a position `p <= size()` and a value
`x`: when no copy throws `insert(begin() + p, x)` returns the position `p` and leaves the
elements `l[0..p)`, then `x`, then `l[p..)`, with `size()` one larger, `capacity()` unchanged
and `x` at index `p`; any call that returns gives that position and that vector. When
`p = size()` the call is the single construction of `x` in slot `size()`; otherwise its first
step constructs a copy of the last element in slot `size()`. -/
theorem single_insert_in_place {T : Type} (v : vector T) (l : List T) (p : Nat) (x : T)
    (h : v.holds l) (hroom : v.size < v.capacity) (hp : p ≤ v.size) :
    ∃ v', v.insert none p x = (.ok p, v', none) ∧
      v'.holds (l.take p ++ [x] ++ l.drop p) ∧ v'.size = v.size + 1 ∧
      v'.capacity = v.capacity ∧ v'.elem p = some x ∧
      (p = v.size → v' = ⟨v.mem.set v.finish (some x), v.finish + 1⟩) ∧
      (p < v.size → ∃ back, v.elem (v.size - 1) = some back ∧
        v.insert (some 1) p x =
          (.thrown, ⟨v.mem.set v.finish (some back), v.finish + 1⟩, some 0)) ∧
      ∀ left r v1 l1, v.insert left p x = (.ok r, v1, l1) → r = p ∧ v1 = v' := by
  have hsz := holds_size h
  simp only [vector.size, vector.capacity, vector.begin, Nat.sub_zero] at hroom hp
  have hfl : v.finish = l.length := h.1
  obtain ⟨v', he, hh, hl⟩ := insert_in_place v l h p x (by omega) (by omega)
  refine ⟨v', he, hh, ?_, ?_, ?_, fun hpe => ?_, fun hlt => ?_, fun left r v1 l1 h1 => ?_⟩
  · rw [holds_size hh, hsz]
    simp
    omega
  · simpa [vector.capacity, vector.begin] using hl
  · rw [holds_elem hh]
    have hlt : (l.take p).length = p := by
      rw [List.length_take]
      omega
    rw [List.append_assoc, List.getElem?_append_right (by omega), hlt]
    simp
  · simp only [vector.size, vector.begin, Nat.sub_zero] at hpe
    have hraw : slot v.mem v.finish = none := by
      rw [holds_slot h]
      apply List.getElem?_eq_none
      omega
    have hc := construct_ok v.mem v.finish x none (by omega) hraw (by simp [enough])
    have : v.insert none p x = (.ok p, ⟨v.mem.set v.finish (some x), v.finish + 1⟩, none) := by
      have hcond : v.finish ≠ v.mem.length ∧ p = v.finish := ⟨by omega, hpe⟩
      simp only [vector.insert, if_pos hcond, hc, vector.begin, minus]
      simp
    rw [this] at he
    cases he
    rfl
  · simp only [vector.size, vector.begin, Nat.sub_zero] at hlt ⊢
    have hback : slot v.mem (v.finish - 1) = l[v.finish - 1]? := holds_slot h _
    obtain ⟨back, hb⟩ : ∃ back, l[v.finish - 1]? = some back :=
      ⟨l[v.finish - 1], List.getElem?_eq_getElem (by omega)⟩
    refine ⟨back, ?_, ?_⟩
    · rw [holds_elem h, hb]
    · have hraw : slot v.mem v.finish = none := by
        rw [holds_slot h]
        apply List.getElem?_eq_none
        omega
      have hc := construct_ok v.mem v.finish back (some 1) (by omega) hraw (by simp [enough])
      have hcond : ¬ (v.finish ≠ v.mem.length ∧ p = v.finish) := by omega
      have hne : v.finish ≠ v.mem.length := by omega
      have hz : v.finish ≠ 0 := by omega
      have haux : v.insert_aux (some 1) p x =
          (.thrown, ⟨v.mem.set v.finish (some back), v.finish + 1⟩, some 0) := by
        simp only [vector.insert_aux, if_pos hne, hback, hb, if_neg hz, hc, minus, spend]
        rfl
      simp only [vector.insert, if_neg hcond, haux]
  · have h2 := insert_erase v left p x r v1 l1 h1
    rw [he] at h2
    cases h2
    exact ⟨rfl, rfl⟩

/-- C18 at `[1,2,3]` with capacity 5: `insert(begin() + 1, 9)` returns position 1 and gives
`[1,9,2,3]` with capacity 5. -/
theorem single_insert_in_place_witness :
    ∃ v', (⟨[some 1, some 2, some 3, none, none], 3⟩ : vector Nat).insert none 1 9 =
        (.ok 1, v', none) ∧ v'.holds [1, 9, 2, 3] ∧ v'.size = 4 ∧ v'.capacity = 5 ∧
      v'.elem 1 = some 9 :=
  (single_insert_in_place ⟨[some 1, some 2, some 3, none, none], 3⟩ [1, 2, 3] 1 9 (by decide)
    (by decide) (by decide)).imp
    (fun _ hw => ⟨hw.1, hw.2.1, hw.2.2.1, hw.2.2.2.1, hw.2.2.2.2.1⟩)

/-- C19: a vector holding `l`, a position `p <= size()` and a source sequence `r`, given once
as a single-pass sequence and once as the multi-pass range `[first, last)` of a block `src`:
when no copy throws both `range_insert` overloads return, and the two vectors they leave have
the same size and the same element at every index, namely `l[0..p)`, then `r` in source order,
then `l[p..)`; any call of either overload that returns leaves the vector of that overload. -/
theorem range_insert_paths_agree {T : Type} (v : vector T) (l : List T) (p : Nat)
    (src : List (Option T)) (first last : Nat) (r : List T) (h : v.holds l) (hp : p ≤ v.size)
    (hfl : first ≤ last) (hlast : last ≤ src.length)
    (hr : (src.drop first).take (last - first) = r.map some) :
    ∃ v1 v2, v.range_insert_input none p r = (.ok (), v1, none) ∧
      v.range_insert_forward none p src first last = (.ok (), v2, none) ∧
      v1.size = v2.size ∧ v1.size = v.size + r.length ∧ (∀ i, v1.elem i = v2.elem i) ∧
      v1.holds (l.take p ++ r ++ l.drop p) ∧ v2.holds (l.take p ++ r ++ l.drop p) ∧
      (∀ left w l1, v.range_insert_input left p r = (.ok (), w, l1) → w = v1) ∧
      ∀ left w l1, v.range_insert_forward left p src first last = (.ok (), w, l1) → w = v2 := by
  have hsz := holds_size h
  obtain ⟨v1, he1, hh1⟩ := range_insert_input_holds r v l p h (by omega)
  obtain ⟨v2, he2, hh2, _⟩ := range_insert_forward_holds v l h p src first last r
    (by omega) hfl hlast hr
  refine ⟨v1, v2, he1, he2, ?_, ?_, fun i => ?_, hh1, hh2, fun left w l1 hw => ?_,
    fun left w l1 hw => ?_⟩
  · rw [holds_size hh1, holds_size hh2]
  · rw [holds_size hh1, hsz]
    simp
    omega
  · rw [holds_elem hh1, holds_elem hh2]
  · have h2 := range_insert_input_erase r v left p () w l1 hw
    rw [he1] at h2
    cases h2
    rfl
  · have h2 := range_insert_forward_erase v left p src first last () w l1 hw
    rw [he2] at h2
    cases h2
    rfl

/-- C19 at `[1,2,3]` with capacity 3 and the source `[7,8]` inserted at position 1: both
overloads give `[1,7,8,2,3]`; the single-pass one leaves capacity 6 after one doubling, and so
does the multi-pass one (`3 + max(3, 2)`). -/
theorem range_insert_paths_agree_witness :
    ∃ v1 v2, (⟨[some 1, some 2, some 3], 3⟩ : vector Nat).range_insert_input none 1 [7, 8] =
        (.ok (), v1, none) ∧
      (⟨[some 1, some 2, some 3], 3⟩ : vector Nat).range_insert_forward none 1
        [some 7, some 8] 0 2 = (.ok (), v2, none) ∧
      v1.size = v2.size ∧ (∀ i, v1.elem i = v2.elem i) ∧ v1.holds [1, 7, 8, 2, 3] :=
  (range_insert_paths_agree ⟨[some 1, some 2, some 3], 3⟩ [1, 2, 3] 1 [some 7, some 8] 0 2
    [7, 8] (by decide) (by decide) (by decide) (by decide) (by decide)).imp
    (fun _ hw => hw.imp (fun _ hw2 => ⟨hw2.1, hw2.2.1, hw2.2.2.1, hw2.2.2.2.2.1,
      hw2.2.2.2.2.2.1⟩))

/-- C20: `n` calls of `push_back` on a default-constructed vector, when no copy throws, all
return and leave `capacity() = 0` when `n = 0` and otherwise `capacity() = 2 ^ k` for the least
`k` with `n <= 2 ^ k`, the smallest power of two that is at least `n`; any run of the calls that
returns leaves that vector. For `n = 0, 1, ..., 9` the capacities are
`0, 1, 2, 4, 4, 8, 8, 8, 8, 16`. -/
theorem push_back_exact_capacity {T : Type} (xs : List T) :
    (∃ v, (vector.new : vector T).push_back_all none xs = (.ok (), v, none) ∧
      v.size = xs.length ∧
      (xs.length = 0 → v.capacity = 0) ∧
      (1 ≤ xs.length → ∃ k, v.capacity = 2 ^ k ∧ xs.length ≤ 2 ^ k ∧
        ∀ j, xs.length ≤ 2 ^ j → k ≤ j) ∧
      ∀ left v1 l1, (vector.new : vector T).push_back_all left xs = (.ok (), v1, l1) →
        v1 = v) ∧
    (List.range 10).map (fun n =>
      ((vector.new : vector Nat).push_back_all none (List.replicate n 0)).2.1.capacity) =
      [0, 1, 2, 4, 4, 8, 8, 8, 8, 16] := by
  refine ⟨?_, by decide⟩
  obtain ⟨v, he, hh, hj⟩ := push_back_all_capacity xs (vector.new : vector T) [] holds_new
    (Or.inl ⟨rfl, rfl⟩)
  simp only [List.nil_append] at hh hj
  refine ⟨v, he, holds_size hh, fun h0 => ?_, fun h1 => ?_, fun left v1 l1 hw => ?_⟩
  · rcases hj with ⟨_, hc⟩ | ⟨k, hk, hle, hlt⟩
    · exact hc
    · omega
  · rcases hj with ⟨h0, _⟩ | ⟨k, hk, hle, hlt⟩
    · omega
    · refine ⟨k, hk, by omega, fun j hj2 => ?_⟩
      have h3 := pow_two_least hk hlt j hj2
      rw [hk] at h3
      exact (Nat.pow_le_pow_iff_right (by omega)).1 h3
  · have h2 := push_back_all_erase xs _ left () v1 l1 hw
    rw [he] at h2
    cases h2
    rfl

end ButtonVector
